import Mathlib

/-!
Shallow embedding of the 8-puzzle / 15-puzzle solver:
state model (`src/puzzle.py`), heuristics (`src/heuristics/*.py`),
search node (`src/node.py`) and the two search engines
(`src/search/astar.py`, `src/search/best_first.py`),
together with theorems checking the natural-language specification
against this embedding.
-/

namespace PuzzleSolver

/-- The four move labels, in the source's fixed order `up, down, left, right`
(`puzzle.py`, `get_legal_moves`). A move means "the blank moves in this
direction". -/
inductive Move where
  | up : Move
  | down : Move
  | left : Move
  | right : Move
deriving DecidableEq, Repr

/-- The Python string attached to each move label. -/
def Move.str : Move → String
  | .up => "up"
  | .down => "down"
  | .left => "left"
  | .right => "right"

/-- A puzzle object: the flattened cell sequence and the grid size, exactly the
two data fields `self.state` and `self.size` of class `Puzzle`
(`self.blank_pos` is derived as `state.index(0)` and is recomputed here on
demand). Values are the tile numbers, `0` is the blank. -/
structure Puzzle where
  state : List Nat
  size : Nat
deriving DecidableEq, Repr

/-- The class invariant guaranteed by `Puzzle.__init__` for every constructed
object: the size is 3 with 9 cells or 4 with 16 cells, and the sequence is a
permutation of `0 .. len-1`. -/
def Puzzle.Valid (p : Puzzle) : Prop :=
  (p.size = 3 ∧ p.state.length = 9 ∨ p.size = 4 ∧ p.state.length = 16) ∧
    p.state.Perm (List.range p.state.length)

instance (p : Puzzle) : Decidable p.Valid := by
  unfold Puzzle.Valid; infer_instance

/-- `self.blank_pos = self.state.index(0)`: index of the first occurrence of
the blank. -/
def Puzzle.blankPos (p : Puzzle) : Nat := p.state.indexOf 0

/-- `get_blank_position`, first component: `blank_pos // size`. -/
def Puzzle.blankRow (p : Puzzle) : Nat := p.blankPos / p.size

/-- `get_blank_position`, second component: `blank_pos % size`. -/
def Puzzle.blankCol (p : Puzzle) : Nat := p.blankPos % p.size

/-- `get_legal_moves`: the list built by the four `if` checks, in the
source order `up, down, left, right`. -/
def Puzzle.getLegalMoves (p : Puzzle) : List Move :=
  (if p.blankRow > 0 then [Move.up] else []) ++
  (if p.blankRow < p.size - 1 then [Move.down] else []) ++
  (if p.blankCol > 0 then [Move.left] else []) ++
  (if p.blankCol < p.size - 1 then [Move.right] else [])

/-- The swap target computed in `apply_move`: `blank_pos - size`,
`blank_pos + size`, `blank_pos - 1` or `blank_pos + 1`. (On the legal paths
the subtractions never truncate, because `up` legal forces
`blank_pos ≥ size` and `left` legal forces `blank_pos % size > 0`.) -/
def Puzzle.swapTarget (p : Puzzle) (m : Move) : Nat :=
  match m with
  | .up => p.blankPos - p.size
  | .down => p.blankPos + p.size
  | .left => p.blankPos - 1
  | .right => p.blankPos + 1

/-- The simultaneous swap
`new_state[i], new_state[j] = new_state[j], new_state[i]`. -/
def swapEntries (l : List Nat) (i j : Nat) : List Nat :=
  (l.set i (l.getD j 0)).set j (l.getD i 0)

/-- The successor state produced by `apply_move` once the legality check has
passed: the blank cell and the target cell are swapped. -/
def Puzzle.moveRaw (p : Puzzle) (m : Move) : Puzzle :=
  { state := swapEntries p.state p.blankPos (p.swapTarget m), size := p.size }

/-- `apply_move`: raises `ValueError(f"Illegal move: {move}")` when the move is
not in `get_legal_moves()`, otherwise returns the new `Puzzle` with the blank
and the target tile swapped. -/
def Puzzle.applyMove (p : Puzzle) (m : Move) : Except String Puzzle :=
  if m ∈ p.getLegalMoves then .ok (p.moveRaw m)
  else .error ("Illegal move: " ++ m.str)

/-- The goal sequence `list(range(1, size_squared)) + [0]` built in `is_goal`
(and in the heuristics and the generator). -/
def goalState (size : Nat) : List Nat :=
  List.range' 1 (size * size - 1) ++ [0]

/-- `is_goal`: the state equals the goal sequence for this size. -/
def Puzzle.isGoal (p : Puzzle) : Bool :=
  p.state == goalState p.size

/-- The inversion count of `is_solvable`: the double loop
`for i: for j > i: if tiles[i] > tiles[j]` — for each element, the number of
later, strictly smaller elements. -/
def inversions : List Nat → Nat
  | [] => 0
  | x :: xs => xs.countP (fun y => decide (y < x)) + inversions xs

/-- `is_solvable`: inversions are counted on the state with the blank removed;
a 3×3 puzzle is solvable iff the count is even; a 4×4 puzzle looks at the
blank row counted from the bottom (`size - blank_row`, 1-indexed) and demands
odd inversions on an even row, even inversions on an odd row. (For any other
size the source raises `ValueError`; that branch is unreachable for
constructed puzzles, whose size is always 3 or 4, and is rendered as
`false`.) -/
def Puzzle.isSolvable (p : Puzzle) : Bool :=
  let tiles := p.state.filter (fun t => decide (t ≠ 0))
  let inv := inversions tiles
  if p.size = 3 then inv % 2 == 0
  else if p.size = 4 then
    let blankRowFromBottom := p.size - p.blankRow
    if blankRowFromBottom % 2 == 0 then inv % 2 == 1 else inv % 2 == 0
  else false

/-- `Puzzle.__init__` validation, over the raw Python integer list: the length
must be 9 or 16, and `sorted([x for x in state if 0 <= x <= max_value])` must
equal `list(range(len(state)))`. On success the object holds the (provably
non-negative) values as naturals. The two messages are the source's
`ValueError` texts. -/
def Puzzle.init (state : List Int) : Except String Puzzle :=
  let n := state.length
  if n = 9 ∨ n = 16 then
    let size : Nat := if n = 9 then 3 else 4
    let maxValue : Int := if n = 9 then 8 else 15
    let expectedValues : List Int := (List.range n).map Int.ofNat
    if (state.filter (fun x => decide (0 ≤ x ∧ x ≤ maxValue))).insertionSort
        (· ≤ ·) = expectedValues then
      .ok { state := state.map Int.toNat, size := size }
    else
      .error ("State must contain exactly the numbers 0-" ++ toString maxValue)
  else
    .error
      "State must have exactly 9 elements (8-puzzle) or 16 elements (15-puzzle)"

/-- One token of `from_string` after `str.split()`: Python `int(token)` —
an optional single sign followed by digits, where single underscores may
appear between digits. Returns `none` where Python raises `ValueError`. -/
def parseDigitChars : List Char → Nat → Bool → Option Nat
  | [], acc, afterDigit => if afterDigit then some acc else none
  | c :: cs, acc, afterDigit =>
    if c.isDigit then parseDigitChars cs (acc * 10 + (c.toNat - 48)) true
    else if c = '_' ∧ afterDigit then parseDigitChars cs acc false
    else none

/-- Python `int(token)` on a whitespace-free token. -/
def parsePyInt (cs : List Char) : Option Int :=
  match cs with
  | [] => none
  | '+' :: rest => (parseDigitChars rest 0 false).map Int.ofNat
  | '-' :: rest => (parseDigitChars rest 0 false).map (fun v => -(v : Int))
  | l => (parseDigitChars l 0 false).map Int.ofNat

/-- Python `str.split()` with no separator: split on whitespace runs,
producing no empty tokens. -/
def splitTokens : List Char → List Char → List (List Char)
  | [], acc => if acc = [] then [] else [acc.reverse]
  | c :: cs, acc =>
    if c.isWhitespace then
      if acc = [] then splitTokens cs []
      else acc.reverse :: splitTokens cs []
    else splitTokens cs (c :: acc)

/-- `from_string`: tokenize on whitespace, parse each token with `int`, build
the puzzle — and catch ANY `ValueError` (from `int()` or from `__init__`) and
re-raise it as `ValueError("Invalid state string format")`. -/
def Puzzle.fromString (s : String) : Except String Puzzle :=
  let tokens := splitTokens s.toList []
  match tokens.mapM parsePyInt with
  | none => .error "Invalid state string format"
  | some ints =>
    match Puzzle.init ints with
    | .ok p => .ok p
    | .error _ => .error "Invalid state string format"

/-- `misplaced_tiles` (`heuristics/misplaced.py`): the number of indices whose
tile is neither the blank nor the goal value at that index. -/
def misplacedTiles (p : Puzzle) : Nat :=
  let goal := goalState p.size
  p.state.enum.countP (fun it => decide (it.2 ≠ 0 ∧ it.2 ≠ goal.getD it.1 0))

/-- `manhattan_distance` (`heuristics/manhattan.py`): for each non-blank tile
at flat index `i` with value `tile`, the goal index is `tile - 1`; accumulate
`|row(i) - row(goal)| + |col(i) - col(goal)|`. -/
def manhattanDistance (p : Puzzle) : Nat :=
  let size := p.size
  (p.state.enum.map (fun it =>
    if it.2 = 0 then 0
    else
      let currentRow := it.1 / size
      let currentCol := it.1 % size
      let goalIdx := it.2 - 1
      let goalRow := goalIdx / size
      let goalCol := goalIdx % size
      ((currentRow : Int) - (goalRow : Int)).natAbs +
        ((currentCol : Int) - (goalCol : Int)).natAbs)).sum

/-- `linear_conflict`, row pass: the comprehension
`[(i % size, state[row*size + i % size]) for i in range(size)
  if state[row*size + i] != 0]`. -/
def tilesInRow (p : Puzzle) (row : Nat) : List (Nat × Nat) :=
  (((List.range p.size).filter
      (fun i => decide (p.state.getD (row * p.size + i) 0 ≠ 0))).map
    (fun i => (i % p.size, p.state.getD (row * p.size + i % p.size) 0)))

/-- `linear_conflict`, column pass: the comprehension
`[(i // size, state[i*size + col]) for i in range(size)
  if state[i*size + col] != 0]`. Note the stored position is `i // size`,
which is `0` for every `i < size`. -/
def tilesInCol (p : Puzzle) (col : Nat) : List (Nat × Nat) :=
  (((List.range p.size).filter
      (fun i => decide (p.state.getD (i * p.size + col) 0 ≠ 0))).map
    (fun i => (i / p.size, p.state.getD (i * p.size + col) 0)))

/-- The nested pair loop of the row pass: a pair `(i, j)` with `i < j` counts
when both goal rows equal `row` and the goal columns are reversed relative to
the stored positions. -/
def rowConflicts (size row : Nat) : List (Nat × Nat) → Nat
  | [] => 0
  | (posI, tileI) :: rest =>
    (if (tileI - 1) / size = row then
      rest.countP (fun pj =>
        decide ((pj.2 - 1) / size = row ∧
          (((tileI - 1) % size > (pj.2 - 1) % size ∧ posI < pj.1) ∨
           ((tileI - 1) % size < (pj.2 - 1) % size ∧ posI > pj.1))))
    else 0) + rowConflicts size row rest

/-- The nested pair loop of the column pass, with goal columns in the guard
and goal rows in the order test. -/
def colConflicts (size col : Nat) : List (Nat × Nat) → Nat
  | [] => 0
  | (posI, tileI) :: rest =>
    (if (tileI - 1) % size = col then
      rest.countP (fun pj =>
        decide ((pj.2 - 1) % size = col ∧
          (((tileI - 1) / size > (pj.2 - 1) / size ∧ posI < pj.1) ∨
           ((tileI - 1) / size < (pj.2 - 1) / size ∧ posI > pj.1))))
    else 0) + colConflicts size col rest

/-- `linear_conflict` (`heuristics/linear_conflict.py`): Manhattan distance
plus two per conflict, conflicts summed over the row pass and the column
pass. -/
def linearConflict (p : Puzzle) : Nat :=
  let size := p.size
  let conflicts :=
    ((List.range size).map (fun row => rowConflicts size row (tilesInRow p row))).sum +
    ((List.range size).map (fun col => colConflicts size col (tilesInCol p col))).sum
  manhattanDistance p + 2 * conflicts

/-- A search node (`node.py`): state, cost `g`, heuristic `h`, parent link,
originating move, and the total `f = g + h` fixed at construction
(`__post_init__`). -/
inductive Node where
  | mk : Puzzle → Nat → Nat → Option Node → Option Move → Nat → Node

/-- Field `state`. -/
def Node.state : Node → Puzzle
  | .mk s _ _ _ _ _ => s

/-- Field `cost` (the `g` value). -/
def Node.cost : Node → Nat
  | .mk _ c _ _ _ _ => c

/-- Field `heuristic` (the `h` value). -/
def Node.heuristic : Node → Nat
  | .mk _ _ h _ _ _ => h

/-- Field `parent`. -/
def Node.parent : Node → Option Node
  | .mk _ _ _ pr _ _ => pr

/-- Field `move`. -/
def Node.move : Node → Option Move
  | .mk _ _ _ _ m _ => m

/-- Field `total_cost`. -/
def Node.totalCost : Node → Nat
  | .mk _ _ _ _ _ t => t

/-- Node construction: `__post_init__` sets `total_cost = cost + heuristic`. -/
def Node.new (state : Puzzle) (cost heuristic : Nat) (parent : Option Node)
    (move : Option Move) : Node :=
  .mk state cost heuristic parent move (cost + heuristic)

/-- `get_path`: walk the parent links to the root and reverse, yielding the
root-to-this-node sequence. -/
def Node.getPath : Node → List Node
  | .mk s c h none m t => [.mk s c h none m t]
  | .mk s c h (some pr) m t => pr.getPath ++ [.mk s c h (some pr) m t]

/-- `get_solution_path`: the states along `get_path`, as raw sequences. -/
def Node.getSolutionPath (n : Node) : List (List Nat) :=
  n.getPath.map (fun nd => nd.state.state)

/-- `expand`: for every legal move of this node's state, apply it and build a
child with `g = cost + 1`, the heuristic of the child state, this node as
parent and the move recorded. (The source calls `apply_move`, whose legality
check always passes here because the move is drawn from `get_legal_moves`;
`applyMove_of_mem_legal` below records that equivalence.) -/
def Node.expand (n : Node) (heuristicFunc : Puzzle → Nat) : List Node :=
  n.state.getLegalMoves.map (fun m =>
    let newState := n.state.moveRaw m
    Node.new newState (n.cost + 1) (heuristicFunc newState) (some n) (some m))

/-- Replaying a move list from a state: `apply_move` folded along the list,
`none` as soon as a move is illegal. -/
def playMoves (p : Puzzle) : List Move → Option Puzzle
  | [] => some p
  | m :: ms =>
    match p.applyMove m with
    | .ok q => playMoves q ms
    | .error _ => none

/-- `ms` solves `p`: replaying `ms` from `p` succeeds and the result passes
the source's own goal test `is_goal`. -/
def solves (p : Puzzle) (ms : List Move) : Bool :=
  match playMoves p ms with
  | some q => q.isGoal
  | none => false

/-- `k` is the true optimal cost of `p`: some solution has length `k` and no
solution is shorter. -/
def IsOptimalCost (p : Puzzle) (k : Nat) : Prop :=
  (∃ ms, solves p ms = true ∧ ms.length = k) ∧
    ∀ ms, solves p ms = true → k ≤ ms.length

/-- A heuristic is admissible when it never exceeds the length of any
solution from any valid state (equivalently, never overestimates the true
optimal cost). -/
def Admissible (h : Puzzle → Nat) : Prop :=
  ∀ p ms, p.Valid → solves p ms = true → h p ≤ ms.length

/-- A heuristic is consistent when it drops by at most one across any single
legal move from a valid state. -/
def Consistent (h : Puzzle → Nat) : Prop :=
  ∀ p m q, p.Valid → p.applyMove m = .ok q → h p ≤ h q + 1

/-! ### Basic facts about valid puzzles -/

theorem Puzzle.Valid.size_pos {p : Puzzle} (hv : p.Valid) : 0 < p.size := by
  rcases hv.1 with ⟨h, _⟩ | ⟨h, _⟩ <;> omega

theorem Puzzle.Valid.length_eq {p : Puzzle} (hv : p.Valid) :
    p.state.length = p.size * p.size := by
  rcases hv.1 with ⟨h, h'⟩ | ⟨h, h'⟩ <;> simp [h, h']

theorem Puzzle.Valid.nodup {p : Puzzle} (hv : p.Valid) : p.state.Nodup :=
  hv.2.symm.nodup (List.nodup_range _)

theorem Puzzle.Valid.mem_iff {p : Puzzle} (hv : p.Valid) (v : Nat) :
    v ∈ p.state ↔ v < p.state.length := by
  rw [hv.2.mem_iff, List.mem_range]

theorem Puzzle.Valid.length_pos {p : Puzzle} (hv : p.Valid) :
    0 < p.state.length := by
  rcases hv.1 with ⟨_, h⟩ | ⟨_, h⟩ <;> omega

theorem Puzzle.Valid.blank_mem {p : Puzzle} (hv : p.Valid) : 0 ∈ p.state :=
  (hv.mem_iff 0).mpr hv.length_pos

theorem Puzzle.Valid.blankPos_lt {p : Puzzle} (hv : p.Valid) :
    p.blankPos < p.state.length :=
  List.indexOf_lt_length.mpr hv.blank_mem

theorem Puzzle.Valid.get_blankPos {p : Puzzle} (hv : p.Valid) :
    p.state.get? p.blankPos = some 0 :=
  List.indexOf_get? hv.blank_mem

/-- In a valid puzzle the blank is the unique index holding `0`. -/
theorem Puzzle.Valid.eq_blankPos {p : Puzzle} (hv : p.Valid) {i : Nat}
    (hi : i < p.state.length) (h0 : p.state.get? i = some 0) :
    i = p.blankPos := by
  have hbl := hv.blankPos_lt
  have hb := hv.get_blankPos
  have h0' : p.state[i] = 0 := by
    rw [List.get?_eq_getElem?, List.getElem?_eq_getElem hi] at h0
    exact Option.some_injective _ h0
  have hb' : p.state[p.blankPos] = 0 := by
    rw [List.get?_eq_getElem?, List.getElem?_eq_getElem hbl] at hb
    exact Option.some_injective _ hb
  exact (List.Nodup.getElem_inj_iff hv.nodup).mp (by rw [h0', hb'])

theorem Puzzle.Valid.blankPos_div_add_mod {p : Puzzle} (_ : p.Valid) :
    p.size * p.blankRow + p.blankCol = p.blankPos := by
  simpa [Puzzle.blankRow, Puzzle.blankCol] using Nat.div_add_mod p.blankPos p.size

theorem Puzzle.Valid.blankRow_lt {p : Puzzle} (hv : p.Valid) :
    p.blankRow < p.size := by
  have h := hv.blankPos_lt
  rw [hv.length_eq] at h
  exact Nat.div_lt_of_lt_mul (by simpa [Puzzle.blankRow] using h)

theorem Puzzle.Valid.blankCol_lt {p : Puzzle} (hv : p.Valid) :
    p.blankCol < p.size :=
  Nat.mod_lt _ hv.size_pos

/-! ### Legal moves -/

theorem mem_getLegalMoves_up {p : Puzzle} :
    Move.up ∈ p.getLegalMoves ↔ 0 < p.blankRow := by
  unfold Puzzle.getLegalMoves
  split <;> split <;> split <;> split <;> simp_all

theorem mem_getLegalMoves_down {p : Puzzle} :
    Move.down ∈ p.getLegalMoves ↔ p.blankRow < p.size - 1 := by
  unfold Puzzle.getLegalMoves
  split <;> split <;> split <;> split <;> simp_all

theorem mem_getLegalMoves_left {p : Puzzle} :
    Move.left ∈ p.getLegalMoves ↔ 0 < p.blankCol := by
  unfold Puzzle.getLegalMoves
  split <;> split <;> split <;> split <;> simp_all

theorem mem_getLegalMoves_right {p : Puzzle} :
    Move.right ∈ p.getLegalMoves ↔ p.blankCol < p.size - 1 := by
  unfold Puzzle.getLegalMoves
  split <;> split <;> split <;> split <;> simp_all

/-- Row and column of the swap target of a legal move: the cell adjacent to the
blank in the direction of the move, and it is in range. -/
theorem swapTarget_spec {p : Puzzle} (hv : p.Valid) {m : Move}
    (hm : m ∈ p.getLegalMoves) :
    p.swapTarget m < p.state.length ∧ p.swapTarget m ≠ p.blankPos ∧
      (m = Move.up → p.swapTarget m = p.size * (p.blankRow - 1) + p.blankCol) ∧
      (m = Move.down → p.swapTarget m = p.size * (p.blankRow + 1) + p.blankCol) ∧
      (m = Move.left → p.swapTarget m = p.size * p.blankRow + (p.blankCol - 1)) ∧
      (m = Move.right → p.swapTarget m = p.size * p.blankRow + (p.blankCol + 1)) := by
  have hs := hv.size_pos
  have hlen := hv.length_eq
  have hdm := hv.blankPos_div_add_mod
  have hrow := hv.blankRow_lt
  have hcol := hv.blankCol_lt
  have hbl := hv.blankPos_lt
  cases m with
  | up =>
    have h := mem_getLegalMoves_up.mp hm
    have hr1 : p.blankRow - 1 + 1 = p.blankRow := by omega
    have hmul : p.size * p.blankRow = p.size * (p.blankRow - 1) + p.size := by
      conv_lhs => rw [← hr1]
      rw [Nat.mul_succ]
    simp only [Puzzle.swapTarget]
    refine ⟨by omega, by omega, fun _ => by omega, by simp, by simp, by simp⟩
  | down =>
    have h := mem_getLegalMoves_down.mp hm
    have hmul : p.size * (p.blankRow + 1) = p.size * p.blankRow + p.size :=
      Nat.mul_succ _ _
    have hbound : p.size * (p.blankRow + 2) ≤ p.size * p.size :=
      Nat.mul_le_mul_left _ (by omega)
    have hmul2 : p.size * (p.blankRow + 2) = p.size * p.blankRow + p.size + p.size := by
      rw [Nat.mul_succ, hmul]
    simp only [Puzzle.swapTarget]
    refine ⟨by omega, by omega, by simp, fun _ => by omega, by simp, by simp⟩
  | left =>
    have h := mem_getLegalMoves_left.mp hm
    simp only [Puzzle.swapTarget]
    refine ⟨by omega, by omega, by simp, by simp, fun _ => by omega, by simp⟩
  | right =>
    have h := mem_getLegalMoves_right.mp hm
    have hbound : p.size * (p.blankRow + 1) ≤ p.size * p.size :=
      Nat.mul_le_mul_left _ (by omega)
    have hmul : p.size * (p.blankRow + 1) = p.size * p.blankRow + p.size :=
      Nat.mul_succ _ _
    simp only [Puzzle.swapTarget]
    refine ⟨by omega, by omega, by simp, by simp, by simp, fun _ => by omega⟩

/-! ### The swap -/

theorem swapEntries_length (l : List Nat) (i j : Nat) :
    (swapEntries l i j).length = l.length := by
  simp [swapEntries]

theorem swapEntries_get_fst {l : List Nat} {i j : Nat} (hi : i < l.length)
    (hij : i ≠ j) : (swapEntries l i j).get? i = some (l.getD j 0) := by
  unfold swapEntries
  rw [List.get?_set_ne _ _ (Ne.symm hij), List.get?_set_eq_of_lt _ hi]

theorem swapEntries_get_snd {l : List Nat} {i j : Nat} (hj : j < l.length) :
    (swapEntries l i j).get? j = some (l.getD i 0) := by
  unfold swapEntries
  exact List.get?_set_eq_of_lt _ (by simpa using hj)

theorem swapEntries_get_other {l : List Nat} {i j k : Nat} (hki : k ≠ i)
    (hkj : k ≠ j) : (swapEntries l i j).get? k = l.get? k := by
  unfold swapEntries
  rw [List.get?_set_ne _ _ hkj.symm, List.get?_set_ne _ _ hki.symm]

/-- Splitting a list at two positions `i < j`: the swap exchanges exactly the
two distinguished cells. -/
theorem swapEntries_decomp (l : List Nat) (i j : Nat) (hij : i < j)
    (hj : j < l.length) :
    ∃ A B C, l = A ++ l.getD i 0 :: B ++ l.getD j 0 :: C ∧
      A.length = i ∧ B.length = j - i - 1 ∧
      swapEntries l i j = A ++ l.getD j 0 :: B ++ l.getD i 0 :: C := by
  induction i generalizing l j with
  | zero =>
    obtain ⟨x, rest, rfl⟩ : ∃ x rest, l = x :: rest := by
      cases l with
      | nil => simp at hj
      | cons x rest => exact ⟨x, rest, rfl⟩
    obtain ⟨k, rfl⟩ : ∃ k, j = k + 1 := ⟨j - 1, by omega⟩
    have hk : k < rest.length := by simpa using hj
    refine ⟨[], rest.take k, rest.drop (k + 1), ?_, rfl, by simpa using hk.le, ?_⟩
    · have h1 : rest = rest.take k ++ rest.drop k := (List.take_append_drop k rest).symm
      have h2 : rest.drop k = rest[k] :: rest.drop (k + 1) := List.drop_eq_getElem_cons hk
      have h3 : (x :: rest).getD (k + 1) 0 = rest[k] := by
        simp [List.getD_eq_getElem _ _ hk, List.getD_cons_succ, List.getD_eq_getElem?_getD,
          List.getElem?_eq_getElem hk]
      simp only [List.getD_cons_zero, h3]
      conv_lhs => rw [h1, h2]
      simp
    · have h3 : (x :: rest).getD (k + 1) 0 = rest[k] := by
        simp [List.getD_cons_succ, List.getD_eq_getElem?_getD, List.getElem?_eq_getElem hk]
      simp only [swapEntries, List.getD_cons_zero, h3, List.set_cons_zero,
        List.set_cons_succ]
      rw [List.set_eq_take_cons_drop _ hk]
      simp
  | succ s ih =>
    obtain ⟨x, rest, rfl⟩ : ∃ x rest, l = x :: rest := by
      cases l with
      | nil => simp at hj
      | cons x rest => exact ⟨x, rest, rfl⟩
    obtain ⟨t, rfl⟩ : ∃ t, j = t + 1 := ⟨j - 1, by omega⟩
    have ht : t < rest.length := by simpa using hj
    obtain ⟨A, B, C, hdec, hA, hB, hswap⟩ := ih rest t (by omega) ht
    refine ⟨x :: A, B, C, ?_, by simp [hA], by simpa using hB, ?_⟩
    · simpa [List.getD_cons_succ] using congrArg (x :: ·) hdec
    · have : swapEntries (x :: rest) (s + 1) (t + 1) = x :: swapEntries rest s t := by
        simp [swapEntries, List.getD_cons_succ]
      rw [this, hswap]
      simp [List.getD_cons_succ]

theorem swapEntries_comm {l : List Nat} {i j : Nat} (hij : i ≠ j) :
    swapEntries l i j = swapEntries l j i := by
  unfold swapEntries
  exact List.set_comm _ _ _ hij

theorem swapEntries_self (l : List Nat) (j : Nat) (hj : j < l.length) :
    swapEntries l j j = l := by
  unfold swapEntries
  have h : l.set j (l.getD j 0) = l := by
    apply List.ext_get?
    intro k
    rcases eq_or_ne k j with rfl | hk
    · rw [List.get?_set_eq_of_lt _ hj, List.getD_eq_getElem _ _ hj,
        List.get?_eq_getElem?, List.getElem?_eq_getElem hj]
    · rw [List.get?_set_ne _ _ (Ne.symm hk)]
  rw [h, h]

/-- Exchanging the two distinguished cells is a permutation. -/
theorem middle_swap_perm (a b : Nat) (A B C : List Nat) :
    List.Perm ((A ++ (a :: B)) ++ (b :: C)) ((A ++ (b :: B)) ++ (a :: C)) := by
  induction A with
  | nil =>
    simp only [List.nil_append, List.cons_append]
    refine List.Perm.trans (List.Perm.cons _ List.perm_middle) ?_
    refine List.Perm.trans (List.Perm.swap _ _ _) ?_
    exact List.Perm.cons _ List.perm_middle.symm
  | cons x A ih =>
    simp only [List.cons_append]
    exact List.Perm.cons _ ih

theorem swapEntries_perm {l : List Nat} {i j : Nat} (hi : i < l.length)
    (hj : j < l.length) : (swapEntries l i j).Perm l := by
  rcases Nat.lt_trichotomy i j with hij | rfl | hij
  · obtain ⟨A, B, C, hdec, _, _, hswap⟩ := swapEntries_decomp l i j hij hj
    rw [hswap]
    conv_rhs => rw [hdec]
    exact middle_swap_perm _ _ A B C
  · rw [swapEntries_self l i hi]
  · rw [swapEntries_comm (Nat.ne_of_gt hij)]
    obtain ⟨A, B, C, hdec, _, _, hswap⟩ := swapEntries_decomp l j i hij hi
    rw [hswap]
    conv_rhs => rw [hdec]
    exact middle_swap_perm _ _ A B C

/-! ### Applying moves -/

theorem applyMove_of_mem_legal {p : Puzzle} {m : Move}
    (hm : m ∈ p.getLegalMoves) : p.applyMove m = .ok (p.moveRaw m) := by
  simp [Puzzle.applyMove, hm]

theorem applyMove_of_not_legal {p : Puzzle} {m : Move}
    (hm : m ∉ p.getLegalMoves) :
    p.applyMove m = .error ("Illegal move: " ++ m.str) := by
  simp [Puzzle.applyMove, hm]

theorem applyMove_ok_iff {p q : Puzzle} {m : Move} :
    p.applyMove m = .ok q ↔ m ∈ p.getLegalMoves ∧ q = p.moveRaw m := by
  unfold Puzzle.applyMove
  split <;> rename_i h
  · constructor
    · intro he
      exact ⟨h, (Except.ok.injEq _ _).mp he |>.symm⟩
    · rintro ⟨_, rfl⟩; rfl
  · constructor
    · intro he; cases he
    · rintro ⟨hm, _⟩; exact absurd hm h

theorem moveRaw_size (p : Puzzle) (m : Move) : (p.moveRaw m).size = p.size := rfl

theorem moveRaw_length (p : Puzzle) (m : Move) :
    (p.moveRaw m).state.length = p.state.length := by
  simp [Puzzle.moveRaw, swapEntries_length]

theorem Puzzle.Valid.moveRaw {p : Puzzle} (hv : p.Valid) {m : Move}
    (hm : m ∈ p.getLegalMoves) : (p.moveRaw m).Valid := by
  obtain ⟨hlt, _, _⟩ := swapTarget_spec hv hm
  refine ⟨?_, ?_⟩
  · rw [show (p.moveRaw m).size = p.size from rfl, moveRaw_length]
    exact hv.1
  · rw [moveRaw_length]
    exact (swapEntries_perm hv.blankPos_lt hlt).trans hv.2

theorem getD_blankPos {p : Puzzle} (hv : p.Valid) :
    p.state.getD p.blankPos 0 = 0 := by
  have h := hv.get_blankPos
  simp [List.getD_eq_getElem?_getD, ← List.get?_eq_getElem?, h]

/-- After a legal move the blank sits exactly at the swap target. -/
theorem blankPos_moveRaw {p : Puzzle} (hv : p.Valid) {m : Move}
    (hm : m ∈ p.getLegalMoves) :
    (p.moveRaw m).blankPos = p.swapTarget m := by
  obtain ⟨hlt, hne, _⟩ := swapTarget_spec hv hm
  have hv' := hv.moveRaw hm
  have hget : (p.moveRaw m).state.get? (p.swapTarget m) = some 0 := by
    show (swapEntries p.state p.blankPos (p.swapTarget m)).get? _ = _
    rw [swapEntries_get_snd hlt, getD_blankPos hv]
  exact ((hv'.eq_blankPos (by rwa [moveRaw_length]) hget)).symm

theorem get?_eq_some_getD {l : List Nat} {k : Nat} (hk : k < l.length) :
    l.get? k = some (l.getD k 0) := by
  rw [List.getD_eq_getElem _ _ hk, List.get?_eq_getElem?, List.getElem?_eq_getElem hk]

theorem getD_of_get? {l : List Nat} {k v : Nat} (h : l.get? k = some v) :
    l.getD k 0 = v := by
  rw [List.getD_eq_getElem?_getD, ← List.get?_eq_getElem?, h, Option.getD_some]

/-- Undoing a swap restores the original list. -/
theorem swapEntries_swapEntries {l : List Nat} {i j : Nat} (hi : i < l.length)
    (hj : j < l.length) (hij : i ≠ j) :
    swapEntries (swapEntries l i j) j i = l := by
  have hlen : (swapEntries l i j).length = l.length := swapEntries_length l i j
  apply List.ext_get?
  intro k
  rcases eq_or_ne k i with rfl | hki
  · rw [swapEntries_get_snd (by rwa [hlen]),
      getD_of_get? (swapEntries_get_snd hj), (get?_eq_some_getD hi).symm]
  rcases eq_or_ne k j with rfl | hkj
  · rw [swapEntries_get_fst (by rwa [hlen]) (Ne.symm hij),
      getD_of_get? (swapEntries_get_fst hi hij), (get?_eq_some_getD hj).symm]
  · rw [swapEntries_get_other hkj hki, swapEntries_get_other hki hkj]

/-- The inverse of a move, as in the spec's round-trip property:
up↔down, left↔right. -/
def Move.inverse : Move → Move
  | .up => .down
  | .down => .up
  | .left => .right
  | .right => .left

/-- Spec-side legality condition for each move, as the spec words it:
up iff row>0, down iff row<N−1, left iff col>0, right iff col<N−1. -/
def movePrecondition (p : Puzzle) : Move → Prop
  | .up => 0 < p.blankRow
  | .down => p.blankRow < p.size - 1
  | .left => 0 < p.blankCol
  | .right => p.blankCol < p.size - 1

instance (p : Puzzle) (m : Move) : Decidable (movePrecondition p m) := by
  unfold movePrecondition; cases m <;> infer_instance

/-- Spec-side index of the cell adjacent to the blank in the direction of a
move, computed from the blank's row and column. -/
def adjacentIndex (p : Puzzle) : Move → Nat
  | .up => p.size * (p.blankRow - 1) + p.blankCol
  | .down => p.size * (p.blankRow + 1) + p.blankCol
  | .left => p.size * p.blankRow + (p.blankCol - 1)
  | .right => p.size * p.blankRow + (p.blankCol + 1)

theorem mem_legal_iff_movePrecondition {p : Puzzle} (m : Move) :
    m ∈ p.getLegalMoves ↔ movePrecondition p m := by
  cases m
  · exact mem_getLegalMoves_up
  · exact mem_getLegalMoves_down
  · exact mem_getLegalMoves_left
  · exact mem_getLegalMoves_right

theorem swapTarget_eq_adjacentIndex {p : Puzzle} (hv : p.Valid) {m : Move}
    (hm : m ∈ p.getLegalMoves) : p.swapTarget m = adjacentIndex p m := by
  obtain ⟨_, _, h1, h2, h3, h4⟩ := swapTarget_spec hv hm
  cases m
  · exact h1 rfl
  · exact h2 rfl
  · exact h3 rfl
  · exact h4 rfl

theorem div_mul_add {s a c : Nat} (hs : 0 < s) (hc : c < s) :
    (s * a + c) / s = a ∧ (s * a + c) % s = c := by
  constructor
  · rw [Nat.mul_add_div hs, Nat.div_eq_of_lt hc]
    omega
  · rw [Nat.mul_add_mod, Nat.mod_eq_of_lt hc]

/-- Row and column of the blank after a legal move. -/
theorem blankRowCol_moveRaw {p : Puzzle} (hv : p.Valid) {m : Move}
    (hm : m ∈ p.getLegalMoves) :
    (m = Move.up → (p.moveRaw m).blankRow = p.blankRow - 1 ∧
      (p.moveRaw m).blankCol = p.blankCol) ∧
    (m = Move.down → (p.moveRaw m).blankRow = p.blankRow + 1 ∧
      (p.moveRaw m).blankCol = p.blankCol) ∧
    (m = Move.left → (p.moveRaw m).blankRow = p.blankRow ∧
      (p.moveRaw m).blankCol = p.blankCol - 1) ∧
    (m = Move.right → (p.moveRaw m).blankRow = p.blankRow ∧
      (p.moveRaw m).blankCol = p.blankCol + 1) := by
  have hs := hv.size_pos
  have hcol := hv.blankCol_lt
  have hb := blankPos_moveRaw hv hm
  have hadj := swapTarget_eq_adjacentIndex hv hm
  have hsize : (p.moveRaw m).size = p.size := rfl
  refine ⟨?_, ?_, ?_, ?_⟩ <;> rintro rfl
  · have h := mem_getLegalMoves_up.mp hm
    have := div_mul_add (a := p.blankRow - 1) (c := p.blankCol) hs hcol
    constructor
    · rw [Puzzle.blankRow, hb, hsize, hadj, adjacentIndex, this.1]
    · rw [Puzzle.blankCol, hb, hsize, hadj, adjacentIndex, this.2]
  · have h := mem_getLegalMoves_down.mp hm
    have := div_mul_add (a := p.blankRow + 1) (c := p.blankCol) hs hcol
    constructor
    · rw [Puzzle.blankRow, hb, hsize, hadj, adjacentIndex, this.1]
    · rw [Puzzle.blankCol, hb, hsize, hadj, adjacentIndex, this.2]
  · have h := mem_getLegalMoves_left.mp hm
    have := div_mul_add (a := p.blankRow) (c := p.blankCol - 1) hs (by omega)
    constructor
    · rw [Puzzle.blankRow, hb, hsize, hadj, adjacentIndex, this.1]
    · rw [Puzzle.blankCol, hb, hsize, hadj, adjacentIndex, this.2]
  · have h := mem_getLegalMoves_right.mp hm
    have := div_mul_add (a := p.blankRow) (c := p.blankCol + 1) hs (by omega)
    constructor
    · rw [Puzzle.blankRow, hb, hsize, hadj, adjacentIndex, this.1]
    · rw [Puzzle.blankCol, hb, hsize, hadj, adjacentIndex, this.2]

/-- The inverse of a legal move is legal in the resulting state, and its swap
target is the original blank position. -/
theorem inverse_legal_and_target {p : Puzzle} (hv : p.Valid) {m : Move}
    (hm : m ∈ p.getLegalMoves) :
    m.inverse ∈ (p.moveRaw m).getLegalMoves ∧
      (p.moveRaw m).swapTarget m.inverse = p.blankPos := by
  have hs := hv.size_pos
  have hrow := hv.blankRow_lt
  have hcol := hv.blankCol_lt
  have hb := blankPos_moveRaw hv hm
  have hadj := swapTarget_eq_adjacentIndex hv hm
  have hdm := hv.blankPos_div_add_mod
  have hrc := blankRowCol_moveRaw hv hm
  have hsize : (p.moveRaw m).size = p.size := rfl
  cases m with
  | up =>
    have h := mem_getLegalMoves_up.mp hm
    obtain ⟨hr, hc⟩ := hrc.1 rfl
    have hmul : p.size * p.blankRow = p.size * (p.blankRow - 1) + p.size := by
      conv_lhs => rw [show p.blankRow = (p.blankRow - 1) + 1 by omega]
      rw [Nat.mul_succ]
    refine ⟨mem_getLegalMoves_down.mpr ?_, ?_⟩
    · rw [hr, hsize]; omega
    · simp only [Move.inverse, Puzzle.swapTarget, moveRaw_size]
      rw [hb, hadj]
      simp only [adjacentIndex]
      omega
  | down =>
    have h := mem_getLegalMoves_down.mp hm
    obtain ⟨hr, hc⟩ := hrc.2.1 rfl
    have hmul : p.size * (p.blankRow + 1) = p.size * p.blankRow + p.size :=
      Nat.mul_succ _ _
    refine ⟨mem_getLegalMoves_up.mpr ?_, ?_⟩
    · rw [hr]; omega
    · simp only [Move.inverse, Puzzle.swapTarget, moveRaw_size]
      rw [hb, hadj]
      simp only [adjacentIndex]
      omega
  | left =>
    have h := mem_getLegalMoves_left.mp hm
    obtain ⟨hr, hc⟩ := hrc.2.2.1 rfl
    refine ⟨mem_getLegalMoves_right.mpr ?_, ?_⟩
    · rw [hc, hsize]; omega
    · simp only [Move.inverse, Puzzle.swapTarget, moveRaw_size]
      rw [hb, hadj]
      simp only [adjacentIndex]
      omega
  | right =>
    have h := mem_getLegalMoves_right.mp hm
    obtain ⟨hr, hc⟩ := hrc.2.2.2 rfl
    refine ⟨mem_getLegalMoves_left.mpr ?_, ?_⟩
    · rw [hc]; omega
    · simp only [Move.inverse, Puzzle.swapTarget, moveRaw_size]
      rw [hb, hadj]
      simp only [adjacentIndex]
      omega

/-- Applying a legal move and then its inverse restores the original puzzle. -/
theorem applyMove_inverse {p q : Puzzle} (hv : p.Valid) {m : Move}
    (h : p.applyMove m = .ok q) : q.applyMove m.inverse = .ok p := by
  obtain ⟨hm, rfl⟩ := applyMove_ok_iff.mp h
  obtain ⟨hinv, htarget⟩ := inverse_legal_and_target hv hm
  obtain ⟨hlt, hne, _⟩ := swapTarget_spec hv hm
  rw [applyMove_of_mem_legal hinv]
  congr 1
  show Puzzle.mk (swapEntries (p.moveRaw m).state ((p.moveRaw m).blankPos)
    ((p.moveRaw m).swapTarget m.inverse)) (p.moveRaw m).size = p
  rw [htarget, blankPos_moveRaw hv hm]
  show Puzzle.mk (swapEntries (swapEntries p.state p.blankPos (p.swapTarget m))
    (p.swapTarget m) p.blankPos) p.size = p
  rw [swapEntries_swapEntries hv.blankPos_lt hlt (Ne.symm hne)]

/-! ### Concrete puzzles used by the claims -/

/-- The 3×3 goal configuration. -/
def goalPuzzle3 : Puzzle := { state := [1, 2, 3, 4, 5, 6, 7, 8, 0], size := 3 }

/-- The spec's "medium" scenario state `"1 2 3 4 0 8 7 6 5"`. -/
def mediumPuzzle : Puzzle := { state := [1, 2, 3, 4, 0, 8, 7, 6, 5], size := 3 }

/-- An optimal 6-move solution of the medium state (blank moves). -/
def mediumSolution : List Move :=
  [.down, .right, .up, .left, .down, .right]

/-- The spec's unsolvable example `[1,2,3,4,5,6,8,7,0]`. -/
def swappedPuzzle3 : Puzzle := { state := [1, 2, 3, 4, 5, 6, 8, 7, 0], size := 3 }

/-- A record against the linear-conflict heuristic: a 4×4 state whose true
optimal cost is 13 while `linear_conflict` reports 15. -/
def lcPuzzle : Puzzle :=
  { state := [1, 2, 3, 4, 5, 6, 7, 8, 11, 12, 10, 15, 9, 13, 0, 14], size := 4 }

/-- A 13-move solution of `lcPuzzle` (blank moves). -/
def lcSolution : List Move :=
  [.up, .left, .left, .down, .right, .right, .right,
   .up, .left, .left, .down, .right, .right]

/-! ### Claim C6 -/

/-- **C6**: for every valid puzzle, `get_legal_moves` returns exactly the
moves allowed by the row/column bounds (up iff row>0, down iff row<N−1, left
iff col>0, right iff col<N−1), in the fixed order up, down, left, right; and
`apply_move` raises the illegal-move error exactly when the move is outside
that set, otherwise returning a puzzle of the same size that agrees with the
original everywhere except that the blank and the adjacent tile in the move's
direction are exchanged. -/
theorem legalMoves_applyMove_characterization (p : Puzzle) (hv : p.Valid) :
    (∀ m, m ∈ p.getLegalMoves ↔ movePrecondition p m) ∧
    p.getLegalMoves = [Move.up, Move.down, Move.left, Move.right].filter
      (fun m => decide (movePrecondition p m)) ∧
    (∀ m, ¬ movePrecondition p m ↔
      p.applyMove m = .error ("Illegal move: " ++ m.str)) ∧
    (∀ m q, p.applyMove m = .ok q →
      q.size = p.size ∧ q.state.length = p.state.length ∧
      q.state.get? (adjacentIndex p m) = some 0 ∧
      q.state.get? p.blankPos = p.state.get? (adjacentIndex p m) ∧
      ∀ k, k ≠ p.blankPos → k ≠ adjacentIndex p m →
        q.state.get? k = p.state.get? k) := by
  refine ⟨mem_legal_iff_movePrecondition, ?_, ?_, ?_⟩
  · by_cases h1 : 0 < p.blankRow <;>
      by_cases h2 : p.blankRow < p.size - 1 <;>
      by_cases h3 : 0 < p.blankCol <;>
      by_cases h4 : p.blankCol < p.size - 1 <;>
      simp [Puzzle.getLegalMoves, movePrecondition, h1, h2, h3, h4, List.filter]
  · intro m
    constructor
    · intro h
      exact applyMove_of_not_legal (fun hm =>
        h ((mem_legal_iff_movePrecondition m).mp hm))
    · intro h hpre
      rw [applyMove_of_mem_legal ((mem_legal_iff_movePrecondition m).mpr hpre)]
        at h
      cases h
  · intro m q h
    obtain ⟨hm, rfl⟩ := applyMove_ok_iff.mp h
    obtain ⟨hlt, hne, _⟩ := swapTarget_spec hv hm
    have hadj := swapTarget_eq_adjacentIndex hv hm
    refine ⟨rfl, moveRaw_length p m, ?_, ?_, ?_⟩
    · show (swapEntries p.state p.blankPos (p.swapTarget m)).get? _ = _
      rw [← hadj, swapEntries_get_snd hlt, getD_blankPos hv]
    · show (swapEntries p.state p.blankPos (p.swapTarget m)).get? _ = _
      rw [← hadj, swapEntries_get_fst hv.blankPos_lt (Ne.symm hne),
        (get?_eq_some_getD hlt).symm]
    · intro k hkb hka
      show (swapEntries p.state p.blankPos (p.swapTarget m)).get? _ = _
      rw [← hadj] at hka
      exact swapEntries_get_other hkb hka

/-- Witness for C6 at the medium puzzle. -/
theorem legalMoves_applyMove_characterization_witness :
    (∀ m, m ∈ mediumPuzzle.getLegalMoves ↔ movePrecondition mediumPuzzle m) ∧
    mediumPuzzle.getLegalMoves =
      [Move.up, Move.down, Move.left, Move.right].filter
        (fun m => decide (movePrecondition mediumPuzzle m)) ∧
    (∀ m, ¬ movePrecondition mediumPuzzle m ↔
      mediumPuzzle.applyMove m = .error ("Illegal move: " ++ m.str)) ∧
    (∀ m q, mediumPuzzle.applyMove m = .ok q →
      q.size = mediumPuzzle.size ∧
      q.state.length = mediumPuzzle.state.length ∧
      q.state.get? (adjacentIndex mediumPuzzle m) = some 0 ∧
      q.state.get? mediumPuzzle.blankPos =
        mediumPuzzle.state.get? (adjacentIndex mediumPuzzle m) ∧
      ∀ k, k ≠ mediumPuzzle.blankPos → k ≠ adjacentIndex mediumPuzzle m →
        q.state.get? k = mediumPuzzle.state.get? k) :=
  legalMoves_applyMove_characterization mediumPuzzle (by decide)

/-! ### Claim C7 -/

/-- **C7**: for every valid puzzle `s` and every move `m` legal in `s`
(equivalently, whose application succeeds), applying `m` and then its inverse
(up↔down, left↔right) returns exactly `s`:
`ApplyMove(ApplyMove(s, m), inverse(m)) == s`. -/
theorem applyMove_roundTrip {p q : Puzzle} (hv : p.Valid) (m : Move)
    (h : p.applyMove m = .ok q) : q.applyMove m.inverse = .ok p :=
  applyMove_inverse hv h

/-- Witness for C7: the medium puzzle, moving the blank up and back down. -/
theorem applyMove_roundTrip_witness :
    (mediumPuzzle.moveRaw Move.up).applyMove Move.up.inverse =
      .ok mediumPuzzle :=
  applyMove_roundTrip (by decide) Move.up
    (applyMove_of_mem_legal (by decide))

/-! ### Claim C8: construction and parsing -/

/-- The sorted-filter check of `__init__` passes exactly when the raw integer
list is a permutation of `0 .. n-1`. -/
theorem init_check_iff_perm {state : List Int} {mv : Int}
    (hmv : (state.length : Int) = mv + 1) :
    (state.filter (fun x => decide (0 ≤ x ∧ x ≤ mv))).insertionSort (· ≤ ·) =
        (List.range state.length).map Int.ofNat ↔
      List.Perm state ((List.range state.length).map Int.ofNat) := by
  set n := state.length with hn
  have hsorted_exp : ((List.range n).map Int.ofNat).Sorted (· ≤ ·) := by
    refine List.Pairwise.map _ ?_ (List.pairwise_lt_range n)
    intro a b hab
    exact Int.ofNat_le.mpr (Nat.le_of_lt hab)
  constructor
  · intro h
    have hperm : List.Perm (state.filter (fun x => decide (0 ≤ x ∧ x ≤ mv)))
        ((List.range n).map Int.ofNat) := by
      rw [← h]
      exact (List.perm_insertionSort _ _).symm
    have hlen : (state.filter (fun x => decide (0 ≤ x ∧ x ≤ mv))).length =
        state.length := by
      rw [hperm.length_eq]
      simp [hn]
    have heq : state.filter (fun x => decide (0 ≤ x ∧ x ≤ mv)) = state :=
      (List.Sublist.length_eq (List.filter_sublist state)).mp hlen
    rwa [heq] at hperm
  · intro hperm
    have hall : ∀ x ∈ state, 0 ≤ x ∧ x ≤ mv := by
      intro x hx
      have hx' := hperm.mem_iff.mp hx
      simp only [List.mem_map, List.mem_range] at hx'
      obtain ⟨k, hk, rfl⟩ := hx'
      rw [Int.ofNat_eq_natCast]
      have : (k : Int) < (n : Int) := by exact_mod_cast hk
      omega
    have heq : state.filter (fun x => decide (0 ≤ x ∧ x ≤ mv)) = state :=
      List.filter_eq_self.mpr (fun x hx => by simpa using hall x hx)
    rw [heq]
    refine List.eq_of_perm_of_sorted ?_ (List.sorted_insertionSort _ _)
      hsorted_exp
    exact (List.perm_insertionSort _ _).trans hperm

/-- `__init__` succeeds exactly on integer lists of length 9 or 16 that are a
permutation of `0 .. n-1`; the resulting object is then valid and carries the
given sequence. -/
theorem init_ok_iff (state : List Int) :
    (∃ p, Puzzle.init state = .ok p ∧ p.Valid ∧
        p.state = state.map Int.toNat ∧
        (p.size = 3 ∧ state.length = 9 ∨ p.size = 4 ∧ state.length = 16)) ↔
      ((state.length = 9 ∨ state.length = 16) ∧
        List.Perm state ((List.range state.length).map Int.ofNat)) := by
  simp only [Puzzle.init]
  by_cases hlen : state.length = 9 ∨ state.length = 16
  · have hmv : (state.length : Int) =
        (if state.length = 9 then (8 : Int) else 15) + 1 := by
      rcases hlen with h | h <;> simp [h]
    rw [if_pos hlen]
    have hiff := init_check_iff_perm hmv
    by_cases hchk : (state.filter (fun x => decide (0 ≤ x ∧
        x ≤ if state.length = 9 then (8 : Int) else 15))).insertionSort (· ≤ ·) =
        (List.range state.length).map Int.ofNat
    · rw [if_pos hchk]
      have hperm := hiff.mp hchk
      have hlenmap : (state.map Int.toNat).length = state.length :=
        List.length_map _ _
      have hmapnat : List.Perm (state.map Int.toNat)
          (List.range (state.map Int.toNat).length) := by
        rw [hlenmap]
        have h1 := hperm.map Int.toNat
        have h2 : ((List.range state.length).map Int.ofNat).map Int.toNat =
            List.range state.length := by
          simp [List.map_map, Function.comp_def]
        rwa [h2] at h1
      constructor
      · intro _
        exact ⟨hlen, hperm⟩
      · intro _
        refine ⟨_, rfl, ⟨?_, hmapnat⟩, rfl, ?_⟩
        · rcases hlen with h | h <;> simp [h, hlenmap, h]
        · rcases hlen with h | h <;> simp [h]
    · rw [if_neg hchk]
      constructor
      · rintro ⟨p, hp, _⟩; cases hp
      · intro h
        exact absurd (hiff.mpr h.2) hchk
  · rw [if_neg hlen]
    constructor
    · rintro ⟨p, hp, _⟩; cases hp
    · intro h
      exact absurd h.1 hlen

/-- Mapping `Int.toNat` over a permutation of the integer range gives a
permutation of the natural range. -/
theorem map_toNat_perm_range {state : List Int}
    (hperm : List.Perm state ((List.range state.length).map Int.ofNat)) :
    List.Perm (state.map Int.toNat)
      (List.range (state.map Int.toNat).length) := by
  rw [List.length_map]
  have h1 := hperm.map Int.toNat
  have h2 : ((List.range state.length).map Int.ofNat).map Int.toNat =
      List.range state.length := by
    simp [List.map_map, Function.comp_def]
  rwa [h2] at h1

/-- Soundness of construction: a successful `__init__` yields a valid object
over the given sequence. -/
theorem init_ok_sound {state : List Int} {p : Puzzle}
    (h : Puzzle.init state = .ok p) :
    p.Valid ∧ p.state = state.map Int.toNat ∧
      (state.length = 9 ∨ state.length = 16) ∧
      List.Perm state ((List.range state.length).map Int.ofNat) := by
  simp only [Puzzle.init] at h
  by_cases hlen : state.length = 9 ∨ state.length = 16
  · rw [if_pos hlen] at h
    by_cases hchk : (state.filter (fun x => decide (0 ≤ x ∧
        x ≤ if state.length = 9 then (8 : Int) else 15))).insertionSort
          (· ≤ ·) = (List.range state.length).map Int.ofNat
    · rw [if_pos hchk] at h
      have hmv : (state.length : Int) =
          (if state.length = 9 then (8 : Int) else 15) + 1 := by
        rcases hlen with h' | h' <;> simp [h']
      have hperm := (init_check_iff_perm hmv).mp hchk
      cases h
      refine ⟨⟨?_, map_toNat_perm_range hperm⟩, rfl, hlen, hperm⟩
      rcases hlen with h' | h' <;> simp [h']
    · rw [if_neg hchk] at h
      cases h
  · rw [if_neg hlen] at h
    cases h

/-- **C8**, counterexample: on the input `"1 2 3"`, which tokenizes to the
integers `[1, 2, 3]` and violates the construction length rule, `from_string`
does NOT surface the construction-time validation error — the `except
ValueError` clause swallows it and raises the format error instead. -/
theorem fromString_validation_not_surfaced :
    Puzzle.fromString "1 2 3" = .error "Invalid state string format" ∧
    Puzzle.init [1, 2, 3] = .error
      "State must have exactly 9 elements (8-puzzle) or 16 elements (15-puzzle)" ∧
    ("Invalid state string format" : String) ≠
      "State must have exactly 9 elements (8-puzzle) or 16 elements (15-puzzle)" :=
  ⟨rfl, rfl, by decide⟩

/-- **C8** as amended: `from_string` tokenizes whitespace-separated integers
and delegates to construction; every failure — a non-integer token, or an
integer list that violates the construction rules — surfaces as the single
format error `"Invalid state string format"` (the construction-time
validation error is caught internally, not surfaced); it succeeds exactly
when the tokens parse as integers forming a permutation of `0..n-1` with
`n ∈ {9, 16}`; and direct construction surfaces the validation error, failing
exactly on length or permutation violations. -/
theorem fromString_error_spec :
    (∀ s e, Puzzle.fromString s = .error e → e = "Invalid state string format") ∧
    (∀ s, (∃ p, Puzzle.fromString s = .ok p) ↔
      ∃ ints, (splitTokens s.toList []).mapM parsePyInt = some ints ∧
        (ints.length = 9 ∨ ints.length = 16) ∧
        List.Perm ints ((List.range ints.length).map Int.ofNat)) ∧
    (∀ state : List Int, (∃ p, Puzzle.init state = .ok p) ↔
      ((state.length = 9 ∨ state.length = 16) ∧
        List.Perm state ((List.range state.length).map Int.ofNat))) := by
  refine ⟨?_, ?_, ?_⟩
  · intro s e h
    simp only [Puzzle.fromString] at h
    rcases hm : (splitTokens s.toList []).mapM parsePyInt with _ | ints <;>
      simp only [hm] at h
    · exact ((Except.error.injEq _ _).mp h).symm
    · rcases hi : Puzzle.init ints with e' | q <;> simp only [hi] at h
      · exact ((Except.error.injEq _ _).mp h).symm
      · cases h
  · intro s
    simp only [Puzzle.fromString]
    rcases hm : (splitTokens s.toList []).mapM parsePyInt with _ | ints <;>
      simp only [hm]
    · constructor
      · rintro ⟨p, hp⟩
        cases hp
      · rintro ⟨ints, hints, _⟩
        cases hints
    · constructor
      · rintro ⟨p, hp⟩
        rcases hi : Puzzle.init ints with e' | q <;> simp only [hi] at hp
        · cases hp
        · obtain ⟨_, _, hlen, hperm⟩ := init_ok_sound hi
          exact ⟨ints, rfl, hlen, hperm⟩
      · rintro ⟨ints', hints, hlen, hperm⟩
        obtain rfl : ints = ints' := by cases hints; rfl
        obtain ⟨q, hq, _⟩ := (init_ok_iff ints).mpr ⟨hlen, hperm⟩
        simp only [hq]
        exact ⟨q, rfl⟩
  · intro state
    constructor
    · rintro ⟨p, hp⟩
      obtain ⟨_, _, hlen, hperm⟩ := init_ok_sound hp
      exact ⟨hlen, hperm⟩
    · intro h
      obtain ⟨q, hq, _⟩ := (init_ok_iff state).mpr h
      exact ⟨q, hq⟩

/-- Witness for the amended C8 at concrete inputs. -/
theorem fromString_error_spec_witness :
    (∃ p, Puzzle.fromString "1 2 3 4 0 8 7 6 5" = .ok p) ∧
    ("Invalid state string format" : String) = "Invalid state string format" :=
  ⟨(fromString_error_spec.2.1 "1 2 3 4 0 8 7 6 5").mpr
      ⟨[1, 2, 3, 4, 0, 8, 7, 6, 5], rfl, by decide, by decide⟩,
    fromString_error_spec.1 "1 2 3" _ rfl⟩

/-! ### Claim C3: solvability -/

/-- Spec-side inversion count: the number of position pairs `i < j` whose
values are out of order (`value[i] > value[j]`). -/
def pairInversions (l : List Nat) : Nat :=
  ((Finset.range l.length ×ˢ Finset.range l.length).filter
    (fun ij => ij.1 < ij.2 ∧ l.getD ij.2 0 < l.getD ij.1 0)).card

theorem pairInversions_eq_sum (l : List Nat) :
    pairInversions l = ∑ i in Finset.range l.length,
      ∑ j in Finset.range l.length,
        if i < j ∧ l.getD j 0 < l.getD i 0 then 1 else 0 := by
  unfold pairInversions
  rw [Finset.card_filter, Finset.sum_product]

theorem countP_eq_sum_range (p : Nat → Bool) (l : List Nat) :
    l.countP p = ∑ j in Finset.range l.length,
      if p (l.getD j 0) then 1 else 0 := by
  induction l with
  | nil => simp
  | cons x xs ih =>
    rw [List.countP_cons, ih, List.length_cons, Finset.sum_range_succ']
    simp only [List.getD_cons_succ, List.getD_cons_zero]

theorem pairInversions_cons (x : Nat) (xs : List Nat) :
    pairInversions (x :: xs) =
      xs.countP (fun y => decide (y < x)) + pairInversions xs := by
  rw [pairInversions_eq_sum, pairInversions_eq_sum, List.length_cons,
    Finset.sum_range_succ']
  have hG0 : (∑ j in Finset.range (xs.length + 1),
      if 0 < j ∧ (x :: xs).getD j 0 < (x :: xs).getD 0 0 then 1 else 0) =
      xs.countP (fun y => decide (y < x)) := by
    rw [Finset.sum_range_succ', countP_eq_sum_range]
    simp [List.getD_cons_succ, List.getD_cons_zero]
  have hGi : ∀ i ∈ Finset.range xs.length,
      (∑ j in Finset.range (xs.length + 1),
        if i + 1 < j ∧ (x :: xs).getD j 0 < (x :: xs).getD (i + 1) 0
        then 1 else 0) =
      ∑ j in Finset.range xs.length,
        if i < j ∧ xs.getD j 0 < xs.getD i 0 then 1 else 0 := by
    intro i _
    rw [Finset.sum_range_succ']
    simp [List.getD_cons_succ, Nat.succ_lt_succ_iff]
  rw [Finset.sum_congr rfl hGi, hG0]
  exact Nat.add_comm _ _

theorem inversions_eq_pairInversions (l : List Nat) :
    inversions l = pairInversions l := by
  induction l with
  | nil => simp [inversions, pairInversions]
  | cons x xs ih =>
    rw [inversions, pairInversions_cons, ih]

/-- **C3**: `is_solvable` is exactly the parity rule on inversions of the
non-blank values: for 3×3, even inversions; for 4×4 with the blank on row `r`
counted 1-indexed from the bottom, (`r` even and inversions odd) or (`r` odd
and inversions even); and the two 3×3 spec instances hold. -/
theorem isSolvable_parity_rule :
    (∀ p : Puzzle, p.Valid →
      (p.size = 3 → (p.isSolvable = true ↔
        pairInversions (p.state.filter (fun t => decide (t ≠ 0))) % 2 = 0)) ∧
      (p.size = 4 → (p.isSolvable = true ↔
        ((p.size - p.blankRow) % 2 = 0 ∧
            pairInversions (p.state.filter (fun t => decide (t ≠ 0))) % 2 = 1 ∨
          (p.size - p.blankRow) % 2 = 1 ∧
            pairInversions (p.state.filter (fun t => decide (t ≠ 0))) % 2 = 0)))) ∧
    goalPuzzle3.isSolvable = true ∧ swappedPuzzle3.isSolvable = false := by
  refine ⟨?_, by decide, by decide⟩
  intro p _
  constructor
  · intro h3
    rw [Puzzle.isSolvable, ← inversions_eq_pairInversions]
    simp [h3]
  · intro h4
    simp only [Puzzle.isSolvable, ← inversions_eq_pairInversions, h4]
    norm_num
    by_cases hpar : (4 - p.blankRow) % 2 = 0
    · simp [hpar]
    · have hpar' : (4 - p.blankRow) % 2 = 1 := by omega
      simp [hpar, hpar']

/-- Witness for C3 at concrete puzzles of both sizes. -/
theorem isSolvable_parity_rule_witness :
    (mediumPuzzle.isSolvable = true ↔
      pairInversions (mediumPuzzle.state.filter (fun t => decide (t ≠ 0))) % 2
        = 0) ∧
    (lcPuzzle.isSolvable = true ↔
      ((lcPuzzle.size - lcPuzzle.blankRow) % 2 = 0 ∧
          pairInversions (lcPuzzle.state.filter (fun t => decide (t ≠ 0))) % 2
            = 1 ∨
        (lcPuzzle.size - lcPuzzle.blankRow) % 2 = 1 ∧
          pairInversions (lcPuzzle.state.filter (fun t => decide (t ≠ 0))) % 2
            = 0)) :=
  ⟨(isSolvable_parity_rule.1 mediumPuzzle (by decide)).1 rfl,
   (isSolvable_parity_rule.1 lcPuzzle (by decide)).2 rfl⟩

/-! ### Claim C9: solvability invariance under moves -/

/-- The cross-inversion count between a left block and a right block. -/
def crossInv (X Y : List Nat) : Nat :=
  (X.map (fun x => Y.countP (fun y => decide (y < x)))).sum

theorem inversions_append (X Y : List Nat) :
    inversions (X ++ Y) = inversions X + inversions Y + crossInv X Y := by
  induction X with
  | nil => simp [inversions, crossInv]
  | cons x xs ih =>
    show inversions (x :: (xs ++ Y)) = _
    rw [inversions, inversions, ih, List.countP_append]
    unfold crossInv
    simp only [List.map_cons, List.sum_cons]
    omega

theorem crossInv_cons_left (x : Nat) (xs Y : List Nat) :
    crossInv (x :: xs) Y =
      Y.countP (fun y => decide (y < x)) + crossInv xs Y := rfl

theorem crossInv_cons_right (X : List Nat) (t : Nat) (Y : List Nat) :
    crossInv X (t :: Y) =
      X.countP (fun x => decide (t < x)) + crossInv X Y := by
  induction X with
  | nil => simp [crossInv]
  | cons x xs ih =>
    rw [crossInv_cons_left, crossInv_cons_left, ih, List.countP_cons,
      List.countP_cons]
    omega

theorem crossInv_perm_right (X : List Nat) {Y Y' : List Nat}
    (h : List.Perm Y Y') : crossInv X Y = crossInv X Y' := by
  unfold crossInv
  have hc : ∀ x : Nat, Y.countP (fun y => decide (y < x)) =
      Y'.countP (fun y => decide (y < x)) := fun x => h.countP_eq _
  simp only [hc]

theorem countP_lt_add_gt {B : List Nat} {t : Nat} (hB : ∀ u ∈ B, u ≠ t) :
    B.countP (fun u => decide (u < t)) + B.countP (fun u => decide (t < u)) =
      B.length := by
  induction B with
  | nil => simp
  | cons b bs ih =>
    have hb : b ≠ t := hB b (List.mem_cons_self b bs)
    have ih' := ih (fun u hu => hB u (List.mem_cons_of_mem b hu))
    simp only [List.countP_cons, List.length_cons]
    rcases Nat.lt_or_ge b t with h | h
    · simp [h, Nat.not_lt_of_gt h]
      omega
    · have h' : t < b := lt_of_le_of_ne h (Ne.symm hb)
      simp [h', Nat.not_lt_of_gt h']
      omega

/-- Moving one value `t` across a block `B` of values all different from `t`
flips the inversion parity by the length of the block. -/
theorem inversions_move_parity (X B Y : List Nat) (t : Nat)
    (hB : ∀ u ∈ B, u ≠ t) :
    (inversions (X ++ (t :: (B ++ Y))) + inversions (X ++ (B ++ t :: Y))) % 2 =
      B.length % 2 := by
  have h1 : inversions (X ++ (t :: (B ++ Y))) =
      inversions X + inversions (t :: (B ++ Y)) + crossInv X (t :: (B ++ Y)) :=
    inversions_append _ _
  have h2 : inversions (X ++ (B ++ t :: Y)) =
      inversions X + inversions (B ++ t :: Y) + crossInv X (B ++ t :: Y) :=
    inversions_append _ _
  have h3 : inversions (t :: (B ++ Y)) =
      (B ++ Y).countP (fun y => decide (y < t)) + inversions (B ++ Y) := rfl
  have h4 : inversions (B ++ Y) =
      inversions B + inversions Y + crossInv B Y := inversions_append _ _
  have h5 : inversions (B ++ t :: Y) =
      inversions B + inversions (t :: Y) + crossInv B (t :: Y) :=
    inversions_append _ _
  have h6 : inversions (t :: Y) =
      Y.countP (fun y => decide (y < t)) + inversions Y := rfl
  have h7 : crossInv B (t :: Y) =
      B.countP (fun x => decide (t < x)) + crossInv B Y :=
    crossInv_cons_right _ _ _
  have h8 : crossInv X (B ++ t :: Y) = crossInv X (t :: (B ++ Y)) :=
    crossInv_perm_right X List.perm_middle
  have h9 : (B ++ Y).countP (fun y => decide (y < t)) =
      B.countP (fun y => decide (y < t)) + Y.countP (fun y => decide (y < t)) :=
    List.countP_append _ _ _
  have h10 := countP_lt_add_gt hB
  omega

/-- Distinctness of the block between the two swapped cells. -/
theorem nodup_decomp_facts {l A B C : List Nat} {x y : Nat}
    (hdec : l = (A ++ (x :: B)) ++ (y :: C)) (hnd : l.Nodup) :
    (∀ u ∈ B, u ≠ x) ∧ (∀ u ∈ B, u ≠ y) := by
  subst hdec
  rw [List.nodup_append] at hnd
  obtain ⟨hL, _, hdisj⟩ := hnd
  rw [List.nodup_append] at hL
  obtain ⟨_, hxB, _⟩ := hL
  constructor
  · intro u hu he
    exact (List.nodup_cons.mp hxB).1 (he ▸ hu)
  · intro u hu he
    have hmem : u ∈ A ++ x :: B := by
      simp [List.mem_append, hu]
    exact hdisj hmem (by simp [he])

/-- The tile at the swap target of a legal move is not the blank. -/
theorem swapTarget_val_ne_zero {p : Puzzle} (hv : p.Valid) {m : Move}
    (hm : m ∈ p.getLegalMoves) : p.state.getD (p.swapTarget m) 0 ≠ 0 := by
  obtain ⟨hlt, hne, _⟩ := swapTarget_spec hv hm
  intro h0
  exact hne (hv.eq_blankPos hlt ((get?_eq_some_getD hlt).trans (by rw [h0])))

/-- A horizontal move does not change the blank-free tile sequence. -/
theorem tiles_moveRaw_horizontal {p : Puzzle} (hv : p.Valid) {m : Move}
    (hm : m ∈ p.getLegalMoves) (hhor : m = .left ∨ m = .right) :
    (p.moveRaw m).state.filter (fun t => decide (t ≠ 0)) =
      p.state.filter (fun t => decide (t ≠ 0)) := by
  obtain ⟨hlt, hne, _⟩ := swapTarget_spec hv hm
  have hb := hv.blankPos_lt
  have ht0 := swapTarget_val_ne_zero hv hm
  have h0 := getD_blankPos hv
  rcases hhor with rfl | rfl
  · have hc := mem_getLegalMoves_left.mp hm
    have hbpos : 0 < p.blankPos := by
      rcases Nat.eq_zero_or_pos p.blankPos with hz | hpos
      · rw [Puzzle.blankCol, hz, Nat.zero_mod] at hc
        exact absurd hc (lt_irrefl 0)
      · exact hpos
    have htg : p.swapTarget Move.left = p.blankPos - 1 := rfl
    obtain ⟨A, B, C, hdec, hA, hB, hswap⟩ :=
      swapEntries_decomp p.state (p.blankPos - 1) p.blankPos (by omega) hb
    obtain rfl : B = [] := List.length_eq_zero.mp (by omega)
    rw [h0] at hdec hswap
    show (swapEntries p.state p.blankPos (p.swapTarget Move.left)).filter _ = _
    rw [htg, swapEntries_comm (by omega), hswap]
    conv_rhs => rw [hdec]
    rw [htg] at ht0
    simp [List.filter_append, List.filter_cons, ht0]
  · have htg : p.swapTarget Move.right = p.blankPos + 1 := rfl
    obtain ⟨A, B, C, hdec, hA, hB, hswap⟩ :=
      swapEntries_decomp p.state p.blankPos (p.blankPos + 1) (by omega)
        (htg ▸ hlt)
    obtain rfl : B = [] := List.length_eq_zero.mp (by omega)
    rw [h0] at hdec hswap
    show (swapEntries p.state p.blankPos (p.swapTarget Move.right)).filter _ = _
    rw [htg, hswap]
    conv_rhs => rw [hdec]
    rw [htg] at ht0
    simp [List.filter_append, List.filter_cons, ht0]

/-- Filtering the blank away drops a leading blank. -/
theorem filter_nz_cons_zero (B : List Nat) :
    (0 :: B).filter (fun t => decide (t ≠ 0)) =
      B.filter (fun t => decide (t ≠ 0)) := by
  simp

/-- Filtering the blank away keeps a leading tile. -/
theorem filter_nz_cons_pos {t : Nat} (ht : t ≠ 0) (B : List Nat) :
    (t :: B).filter (fun u => decide (u ≠ 0)) =
      t :: B.filter (fun u => decide (u ≠ 0)) := by
  simp [ht]

/-- A vertical move flips the inversion parity of the blank-free tile
sequence by `size - 1`. -/
theorem inversions_moveRaw_vertical {p : Puzzle} (hv : p.Valid) {m : Move}
    (hm : m ∈ p.getLegalMoves) (hver : m = .up ∨ m = .down) :
    (inversions ((p.moveRaw m).state.filter (fun t => decide (t ≠ 0))) +
        inversions (p.state.filter (fun t => decide (t ≠ 0)))) % 2 =
      (p.size - 1) % 2 := by
  obtain ⟨hlt, hne, _⟩ := swapTarget_spec hv hm
  have hs := hv.size_pos
  have hb := hv.blankPos_lt
  have ht0 := swapTarget_val_ne_zero hv hm
  have h0 := getD_blankPos hv
  have hnd := hv.nodup
  rcases hver with rfl | rfl
  · have hr := mem_getLegalMoves_up.mp hm
    have hge : p.size ≤ p.blankPos := by
      by_contra hlt'
      rw [Puzzle.blankRow, Nat.div_eq_of_lt (by omega)] at hr
      exact absurd hr (lt_irrefl 0)
    have htg : p.swapTarget Move.up = p.blankPos - p.size := rfl
    obtain ⟨A, B, C, hdec, hA, hB, hswap⟩ :=
      swapEntries_decomp p.state (p.blankPos - p.size) p.blankPos (by omega) hb
    have hBlen : B.length = p.size - 1 := by omega
    rw [h0] at hdec hswap
    obtain ⟨hBt, hB0⟩ := nodup_decomp_facts hdec hnd
    have hBfilter : B.filter (fun t => decide (t ≠ 0)) = B :=
      List.filter_eq_self.mpr (fun u hu => by simpa using hB0 u hu)
    rw [htg] at ht0
    have hnew : (p.moveRaw Move.up).state.filter (fun t => decide (t ≠ 0)) =
        A.filter (fun t => decide (t ≠ 0)) ++
          (B ++ (p.state.getD (p.blankPos - p.size) 0 ::
            C.filter (fun t => decide (t ≠ 0)))) := by
      show (swapEntries p.state p.blankPos (p.swapTarget Move.up)).filter _ = _
      rw [htg, swapEntries_comm (by omega : p.blankPos ≠ p.blankPos - p.size),
        hswap, List.filter_append, List.filter_append, filter_nz_cons_zero,
        hBfilter, filter_nz_cons_pos ht0, List.append_assoc]
    have hold : p.state.filter (fun t => decide (t ≠ 0)) =
        A.filter (fun t => decide (t ≠ 0)) ++
          (p.state.getD (p.blankPos - p.size) 0 ::
            (B ++ C.filter (fun t => decide (t ≠ 0)))) := by
      conv_lhs => rw [hdec]
      rw [List.filter_append, List.filter_append, filter_nz_cons_pos ht0,
        hBfilter, filter_nz_cons_zero, List.append_assoc, List.cons_append]
    rw [hnew, hold, Nat.add_comm,
      inversions_move_parity (A.filter (fun t => decide (t ≠ 0))) B
        (C.filter (fun t => decide (t ≠ 0)))
        (p.state.getD (p.blankPos - p.size) 0) hBt, hBlen]
  · have htg : p.swapTarget Move.down = p.blankPos + p.size := rfl
    obtain ⟨A, B, C, hdec, hA, hB, hswap⟩ :=
      swapEntries_decomp p.state p.blankPos (p.blankPos + p.size) (by omega)
        (htg ▸ hlt)
    have hBlen : B.length = p.size - 1 := by omega
    rw [h0] at hdec hswap
    obtain ⟨hB0, hBt⟩ := nodup_decomp_facts hdec hnd
    have hBfilter : B.filter (fun t => decide (t ≠ 0)) = B :=
      List.filter_eq_self.mpr (fun u hu => by simpa using hB0 u hu)
    rw [htg] at ht0
    have hnew : (p.moveRaw Move.down).state.filter (fun t => decide (t ≠ 0)) =
        A.filter (fun t => decide (t ≠ 0)) ++
          (p.state.getD (p.blankPos + p.size) 0 ::
            (B ++ C.filter (fun t => decide (t ≠ 0)))) := by
      show (swapEntries p.state p.blankPos (p.swapTarget Move.down)).filter _ = _
      rw [htg, hswap, List.filter_append, List.filter_append,
        filter_nz_cons_pos ht0, hBfilter, filter_nz_cons_zero,
        List.append_assoc, List.cons_append]
    have hold : p.state.filter (fun t => decide (t ≠ 0)) =
        A.filter (fun t => decide (t ≠ 0)) ++
          (B ++ (p.state.getD (p.blankPos + p.size) 0 ::
            C.filter (fun t => decide (t ≠ 0)))) := by
      conv_lhs => rw [hdec]
      rw [List.filter_append, List.filter_append, filter_nz_cons_zero,
        hBfilter, filter_nz_cons_pos ht0, List.append_assoc]
    rw [hnew, hold,
      inversions_move_parity (A.filter (fun t => decide (t ≠ 0))) B
        (C.filter (fun t => decide (t ≠ 0)))
        (p.state.getD (p.blankPos + p.size) 0) hBt, hBlen]

/-- Bool equality from propositional equivalence. -/
theorem bool_eq_of_iff {a b : Bool} (h : a = true ↔ b = true) : a = b := by
  cases a <;> cases b <;> simp_all

/-- One legal move preserves solvability. -/
theorem isSolvable_moveRaw {p : Puzzle} (hv : p.Valid) {m : Move}
    (hm : m ∈ p.getLegalMoves) :
    (p.moveRaw m).isSolvable = p.isSolvable := by
  have hv' := hv.moveRaw hm
  have hsize : (p.moveRaw m).size = p.size := rfl
  have hrc := blankRowCol_moveRaw hv hm
  have hfacts :
      ((inversions ((p.moveRaw m).state.filter (fun t => decide (t ≠ 0))) +
          inversions (p.state.filter (fun t => decide (t ≠ 0)))) % 2 = 0 ∧
        (p.moveRaw m).blankRow = p.blankRow) ∨
      ((inversions ((p.moveRaw m).state.filter (fun t => decide (t ≠ 0))) +
          inversions (p.state.filter (fun t => decide (t ≠ 0)))) % 2 =
            (p.size - 1) % 2 ∧
        ((p.moveRaw m).blankRow = p.blankRow + 1 ∨
          p.blankRow = (p.moveRaw m).blankRow + 1)) := by
    cases m with
    | up =>
      refine Or.inr ⟨inversions_moveRaw_vertical hv hm (Or.inl rfl), Or.inr ?_⟩
      have h := mem_getLegalMoves_up.mp hm
      have := (hrc.1 rfl).1
      omega
    | down =>
      refine Or.inr ⟨inversions_moveRaw_vertical hv hm (Or.inr rfl), Or.inl ?_⟩
      exact (hrc.2.1 rfl).1
    | left =>
      refine Or.inl ⟨?_, (hrc.2.2.1 rfl).1⟩
      rw [tiles_moveRaw_horizontal hv hm (Or.inl rfl)]
      omega
    | right =>
      refine Or.inl ⟨?_, (hrc.2.2.2 rfl).1⟩
      rw [tiles_moveRaw_horizontal hv hm (Or.inr rfl)]
      omega
  apply bool_eq_of_iff
  rcases hv.1 with ⟨h3, _⟩ | ⟨h4, _⟩
  · rw [(isSolvable_parity_rule.1 _ hv').1 (hsize.trans h3),
      (isSolvable_parity_rule.1 _ hv).1 h3,
      ← inversions_eq_pairInversions, ← inversions_eq_pairInversions]
    rw [h3] at hfacts
    rcases hfacts with ⟨hsum, _⟩ | ⟨hsum, _⟩ <;> omega
  · rw [(isSolvable_parity_rule.1 _ hv').2 (hsize.trans h4),
      (isSolvable_parity_rule.1 _ hv).2 h4,
      ← inversions_eq_pairInversions, ← inversions_eq_pairInversions]
    have hrq : (p.moveRaw m).blankRow < 4 := by
      have := hv'.blankRow_lt
      rwa [hsize, h4] at this
    have hr : p.blankRow < 4 := h4 ▸ hv.blankRow_lt
    rw [hsize, h4]
    rw [h4] at hfacts
    rcases hfacts with ⟨hsum, hrow⟩ | ⟨hsum, hrow⟩ <;> omega

/-- Success of `apply_move` preserves validity. -/
theorem Puzzle.Valid.applyMove {p q : Puzzle} (hv : p.Valid) {m : Move}
    (h : p.applyMove m = .ok q) : q.Valid := by
  obtain ⟨hm, rfl⟩ := applyMove_ok_iff.mp h
  exact hv.moveRaw hm

/-- Replaying a move list preserves validity. -/
theorem valid_playMoves {p q : Puzzle} (hv : p.Valid) {ms : List Move}
    (h : playMoves p ms = some q) : q.Valid := by
  induction ms generalizing p with
  | nil =>
    cases h
    exact hv
  | cons m ms ih =>
    simp only [playMoves] at h
    rcases ha : p.applyMove m with e | r <;> simp only [ha] at h
    · cases h
    · exact ih (hv.applyMove ha) h

/-- **C9**: solvability is invariant under moves: for every valid puzzle `s`
and legal move `m`, `s.apply_move(m).is_solvable()` equals `s.is_solvable()`;
consequently every state reached from `s` by replaying legal moves has the
same solvability as `s` (so reachable-from-solvable is solvable, and
reachable-from-unsolvable is not). -/
theorem solvability_invariant :
    (∀ (p q : Puzzle) (m : Move), p.Valid → p.applyMove m = .ok q →
      q.isSolvable = p.isSolvable) ∧
    (∀ (p q : Puzzle) (ms : List Move), p.Valid → playMoves p ms = some q →
      q.isSolvable = p.isSolvable) := by
  have hstep : ∀ (p q : Puzzle) (m : Move), p.Valid → p.applyMove m = .ok q →
      q.isSolvable = p.isSolvable := by
    intro p q m hv h
    obtain ⟨hm, rfl⟩ := applyMove_ok_iff.mp h
    exact isSolvable_moveRaw hv hm
  refine ⟨hstep, ?_⟩
  intro p q ms
  induction ms generalizing p with
  | nil =>
    intro hv h
    cases h
    rfl
  | cons m ms ih =>
    intro hv h
    simp only [playMoves] at h
    rcases ha : p.applyMove m with e | r <;> simp only [ha] at h
    · cases h
    · exact (ih r (hv.applyMove ha) h).trans (hstep p r m hv ha)

/-- Witness for C9: moving the blank up from the medium puzzle. -/
theorem solvability_invariant_witness :
    (mediumPuzzle.moveRaw Move.up).isSolvable = mediumPuzzle.isSolvable :=
  solvability_invariant.1 mediumPuzzle (mediumPuzzle.moveRaw Move.up) Move.up
    (by decide) (applyMove_of_mem_legal (by decide))

/-! ### Claim C2: the heuristic chain -/

theorem goalState_length (s : Nat) (hs : 0 < s) :
    (goalState s).length = s * s := by
  have : 1 ≤ s * s := Nat.one_le_iff_ne_zero.mpr (by positivity)
  simp [goalState]
  omega

theorem goalState_getD_lt {s i : Nat} (hi : i < s * s - 1) :
    (goalState s).getD i 0 = i + 1 := by
  unfold goalState
  rw [List.getD_append _ _ _ _ (by simpa using hi)]
  rw [List.getD_eq_getElem _ _ (by simpa using hi)]
  simp [List.getElem_range']
  omega

theorem goalState_getD_last (s : Nat) :
    (goalState s).getD (s * s - 1) 0 = 0 := by
  unfold goalState
  rw [List.getD_append_right _ [0] 0 _ (by simp)]
  simp

/-- A count of satisfying elements is bounded by any pointwise dominating
sum. -/
theorem countP_le_sum_map {α : Type} (l : List α) (p : α → Bool) (f : α → Nat)
    (h : ∀ x ∈ l, p x = true → 1 ≤ f x) : l.countP p ≤ (l.map f).sum := by
  induction l with
  | nil => simp
  | cons x xs ih =>
    rw [List.countP_cons, List.map_cons, List.sum_cons]
    have hx := h x (List.mem_cons_self x xs)
    have ih' := ih (fun u hu => h u (List.mem_cons_of_mem x hu))
    by_cases hp : p x = true
    · have := hx hp
      simp [hp]
      omega
    · simp only [Bool.not_eq_true] at hp
      simp [hp]
      omega

/-- A misplaced non-blank tile is at least one move of Manhattan distance
from home. -/
theorem misplaced_le_manhattan {p : Puzzle} (hv : p.Valid) :
    misplacedTiles p ≤ manhattanDistance p := by
  unfold misplacedTiles manhattanDistance
  apply countP_le_sum_map
  rintro ⟨i, t⟩ hmem hpred
  have hget := List.mk_mem_enum_iff_get?.mp hmem
  have hi : i < p.state.length := by
    have := List.get?_eq_some.mp hget
    exact this.1
  have htmem : t ∈ p.state := List.get?_mem hget
  have htlt : t < p.state.length := (hv.mem_iff t).mp htmem
  simp only [decide_eq_true_eq] at hpred
  obtain ⟨ht0, htg⟩ := hpred
  simp only [if_neg ht0]
  by_contra hz
  push_neg at hz
  have hz' : (((i / p.size : Nat) : Int) - (((t - 1) / p.size : Nat) : Int)).natAbs
        = 0 ∧
      (((i % p.size : Nat) : Int) - (((t - 1) % p.size : Nat) : Int)).natAbs
        = 0 := by
    omega
  have hrow : i / p.size = (t - 1) / p.size := by
    have h1 := Int.natAbs_eq_zero.mp hz'.1
    omega
  have hcol : i % p.size = (t - 1) % p.size := by
    have h1 := Int.natAbs_eq_zero.mp hz'.2
    omega
  have hieq : i = t - 1 := by
    have h1 := Nat.div_add_mod i p.size
    have h2 := Nat.div_add_mod (t - 1) p.size
    rw [hrow, hcol] at h1
    omega
  apply htg
  have hlen := hv.length_eq
  have ht1 : 1 ≤ t := Nat.one_le_iff_ne_zero.mpr ht0
  rw [hieq, goalState_getD_lt (by omega)]
  omega

/-- Manhattan distance never exceeds the linear-conflict value. -/
theorem manhattan_le_linearConflict (p : Puzzle) :
    manhattanDistance p ≤ linearConflict p :=
  Nat.le_add_right _ _

/-- The per-tile Manhattan term at flat index `i` holding value `t`. -/
def mdTerm (s i t : Nat) : Nat :=
  if t = 0 then 0
  else
    (((i / s : Nat) : Int) - (((t - 1) / s : Nat) : Int)).natAbs +
      (((i % s : Nat) : Int) - (((t - 1) % s : Nat) : Int)).natAbs

theorem sum_map_enumFrom_eq (f : Nat → Nat → Nat) (l : List Nat) (n : Nat) :
    ((l.enumFrom n).map (fun it => f it.1 it.2)).sum =
      ∑ i in Finset.range l.length, f (n + i) (l.getD i 0) := by
  induction l generalizing n with
  | nil => simp
  | cons x xs ih =>
    rw [List.enumFrom_cons, List.map_cons, List.sum_cons, ih,
      List.length_cons, Finset.sum_range_succ']
    have hc : ∀ i ∈ Finset.range xs.length,
        f (n + (i + 1)) ((x :: xs).getD (i + 1) 0) =
          f (n + 1 + i) (xs.getD i 0) := by
      intro i _
      rw [List.getD_cons_succ]
      congr 1
      omega
    rw [Finset.sum_congr rfl hc]
    simp [Nat.add_comm]

theorem manhattan_eq_sum_range (p : Puzzle) :
    manhattanDistance p =
      ∑ i in Finset.range p.state.length,
        mdTerm p.size i (p.state.getD i 0) := by
  have h := sum_map_enumFrom_eq (mdTerm p.size) p.state 0
  simp only [Nat.zero_add] at h
  exact h

theorem natAbs_cast_adjacent {x y : Nat} (h : x = y + 1 ∨ y = x + 1)
    (z : Int) : ((x : Int) - z).natAbs ≤ ((y : Int) - z).natAbs + 1 := by
  rcases h with rfl | rfl
  · have he : ((y + 1 : Nat) : Int) - z = ((y : Int) - z) + 1 := by
      push_cast
      ring
    rw [he]
    have := Int.natAbs_add_le ((y : Int) - z) 1
    simpa using this
  · have he : (x : Int) - z = (((x + 1 : Nat) : Int) - z) + (-1) := by
      push_cast
      ring
    rw [he]
    have := Int.natAbs_add_le (((x + 1 : Nat) : Int) - z) (-1)
    simpa using this

theorem mdTerm_adjacent {s a b t : Nat} (ht : t ≠ 0)
    (hadj : (a / s = b / s ∧ (a % s = b % s + 1 ∨ b % s = a % s + 1)) ∨
      (a % s = b % s ∧ (a / s = b / s + 1 ∨ b / s = a / s + 1))) :
    mdTerm s a t ≤ mdTerm s b t + 1 := by
  unfold mdTerm
  rw [if_neg ht, if_neg ht]
  rcases hadj with ⟨he, hd⟩ | ⟨he, hd⟩
  · rw [he]
    have := natAbs_cast_adjacent hd ((((t - 1) % s : Nat)) : Int)
    omega
  · rw [he]
    have := natAbs_cast_adjacent hd ((((t - 1) / s : Nat)) : Int)
    omega

/-- `getD` respects `get?` equality. -/
theorem getD_congr_of_get? {l l' : List Nat} {k : Nat}
    (h : l.get? k = l'.get? k) : l.getD k 0 = l'.getD k 0 := by
  rw [List.getD_eq_getElem?_getD, List.getD_eq_getElem?_getD,
    ← List.get?_eq_getElem?, ← List.get?_eq_getElem?, h]

theorem mdTerm_blank (s i : Nat) : mdTerm s i 0 = 0 := rfl

/-- Across one legal move the Manhattan distance drops by at most one. -/
theorem manhattan_moveRaw_le {p : Puzzle} (hv : p.Valid) {m : Move}
    (hm : m ∈ p.getLegalMoves) :
    manhattanDistance p ≤ manhattanDistance (p.moveRaw m) + 1 := by
  obtain ⟨hlt, hne, hspec⟩ := swapTarget_spec hv hm
  have hb := hv.blankPos_lt
  have ht0 := swapTarget_val_ne_zero hv hm
  have h0 := getD_blankPos hv
  have hs := hv.size_pos
  have hcol := hv.blankCol_lt
  have hlen : (p.moveRaw m).state.length = p.state.length := moveRaw_length p m
  have hsz : (p.moveRaw m).size = p.size := rfl
  have hqb : (p.moveRaw m).state.getD p.blankPos 0 =
      p.state.getD (p.swapTarget m) 0 := by
    apply getD_of_get?
    exact swapEntries_get_fst hb (Ne.symm hne)
  have hqa : (p.moveRaw m).state.getD (p.swapTarget m) 0 = 0 := by
    have h1 : (swapEntries p.state p.blankPos (p.swapTarget m)).get?
        (p.swapTarget m) = some (p.state.getD p.blankPos 0) :=
      swapEntries_get_snd hlt
    rw [h0] at h1
    exact getD_of_get? h1
  have hadj : (p.swapTarget m / p.size = p.blankPos / p.size ∧
        (p.swapTarget m % p.size = p.blankPos % p.size + 1 ∨
          p.blankPos % p.size = p.swapTarget m % p.size + 1)) ∨
      (p.swapTarget m % p.size = p.blankPos % p.size ∧
        (p.swapTarget m / p.size = p.blankPos / p.size + 1 ∨
          p.blankPos / p.size = p.swapTarget m / p.size + 1)) := by
    have hbr : p.blankPos / p.size = p.blankRow := rfl
    have hbc : p.blankPos % p.size = p.blankCol := rfl
    obtain ⟨hu, hd, hl, hr'⟩ := hspec
    cases m with
    | up =>
      have hlegal := mem_getLegalMoves_up.mp hm
      have hx := hu rfl
      have hdm := div_mul_add (a := p.blankRow - 1) (c := p.blankCol) hs hcol
      right
      refine ⟨by rw [hx, hdm.2, hbc], Or.inr ?_⟩
      rw [hx, hdm.1, hbr]
      omega
    | down =>
      have hx := hd rfl
      have hdm := div_mul_add (a := p.blankRow + 1) (c := p.blankCol) hs hcol
      right
      refine ⟨by rw [hx, hdm.2, hbc], Or.inl ?_⟩
      rw [hx, hdm.1, hbr]
    | left =>
      have hlegal := mem_getLegalMoves_left.mp hm
      have hx := hl rfl
      have hdm := div_mul_add (a := p.blankRow) (c := p.blankCol - 1) hs
        (by omega)
      left
      refine ⟨by rw [hx, hdm.1, hbr], Or.inr ?_⟩
      rw [hx, hdm.2, hbc]
      omega
    | right =>
      have hlegal := mem_getLegalMoves_right.mp hm
      have hx := hr' rfl
      have hdm := div_mul_add (a := p.blankRow) (c := p.blankCol + 1) hs
        (by omega)
      left
      refine ⟨by rw [hx, hdm.1, hbr], Or.inl ?_⟩
      rw [hx, hdm.2, hbc]
  have hkey : mdTerm p.size (p.swapTarget m) (p.state.getD (p.swapTarget m) 0) ≤
      mdTerm p.size p.blankPos (p.state.getD (p.swapTarget m) 0) + 1 :=
    mdTerm_adjacent ht0 hadj
  rw [manhattan_eq_sum_range, manhattan_eq_sum_range, hlen, hsz]
  have hbmem : p.blankPos ∈ Finset.range p.state.length :=
    Finset.mem_range.mpr hb
  have hamem : p.swapTarget m ∈ (Finset.range p.state.length).erase p.blankPos :=
    Finset.mem_erase.mpr ⟨hne, Finset.mem_range.mpr hlt⟩
  have hsplit : ∀ g : Nat → Nat, (∑ i in Finset.range p.state.length, g i) =
      g p.blankPos + (g (p.swapTarget m) +
        ∑ i in ((Finset.range p.state.length).erase p.blankPos).erase
          (p.swapTarget m), g i) := by
    intro g
    rw [Finset.add_sum_erase _ g hamem, Finset.add_sum_erase _ g hbmem]
  rw [hsplit (fun i => mdTerm p.size i (p.state.getD i 0)),
    hsplit (fun i => mdTerm p.size i ((p.moveRaw m).state.getD i 0))]
  have hoff : ∀ i ∈ ((Finset.range p.state.length).erase p.blankPos).erase
      (p.swapTarget m),
      mdTerm p.size i ((p.moveRaw m).state.getD i 0) =
        mdTerm p.size i (p.state.getD i 0) := by
    intro i hi
    have h1 := Finset.mem_erase.mp hi
    have h2 := Finset.mem_erase.mp h1.2
    congr 1
    exact getD_congr_of_get? (swapEntries_get_other h2.1 h1.1)
  rw [Finset.sum_congr rfl hoff, hqb, hqa, h0, mdTerm_blank, mdTerm_blank]
  omega

/-- The Manhattan distance of the goal configuration is zero. -/
theorem manhattan_isGoal {p : Puzzle} (hg : p.isGoal = true) :
    manhattanDistance p = 0 := by
  have hstate : p.state = goalState p.size := by
    simpa [Puzzle.isGoal] using hg
  rw [manhattan_eq_sum_range]
  apply Finset.sum_eq_zero
  intro i hi
  rw [Finset.mem_range] at hi
  rw [hstate] at hi ⊢
  rcases Nat.lt_or_ge i (p.size * p.size - 1) with hlt | hge
  · rw [goalState_getD_lt hlt]
    unfold mdTerm
    rw [if_neg (by omega)]
    simp
  · have hieq : i = p.size * p.size - 1 := by
      have hlen : (goalState p.size).length = p.size * p.size - 1 + 1 := by
        simp [goalState]
      omega
    rw [hieq, goalState_getD_last]
    rfl

/-- The Manhattan distance never exceeds the length of any solution. -/
theorem manhattan_admissible : Admissible manhattanDistance := by
  intro p ms hv hsol
  induction ms generalizing p with
  | nil =>
    have hg : p.isGoal = true := by
      simpa [solves, playMoves] using hsol
    simp [manhattan_isGoal hg]
  | cons m ms ih =>
    rcases ha : p.applyMove m with e | r
    · rw [solves] at hsol
      simp [playMoves, ha] at hsol
    · have hr : solves r ms = true := by
        simpa [solves, playMoves, ha] using hsol
      have hvr := hv.applyMove ha
      have hle := ih r hvr hr
      obtain ⟨hm, rfl⟩ := applyMove_ok_iff.mp ha
      have hstep := manhattan_moveRaw_le hv hm
      have : (m :: ms).length = ms.length + 1 := rfl
      omega

/-- **C2**, counterexample: the 4×4 state `lcPuzzle` is valid and solvable in
13 moves (an explicit solution is replayed), yet `linear_conflict` evaluates
to 15 on it — so the chain's last link, `linear_conflict(s)` ≤ true optimal
cost, fails: the heuristic overestimates and is not admissible. -/
theorem linearConflict_exceeds_optimal :
    lcPuzzle.Valid ∧ solves lcPuzzle lcSolution = true ∧
      lcSolution.length = 13 ∧ linearConflict lcPuzzle = 15 :=
  ⟨by decide, by rfl, rfl, by rfl⟩

/-- **C2** as amended: for every valid puzzle the heuristic values (which are
naturals, hence non-negative) satisfy
`misplaced(s) ≤ manhattan(s) ≤ linear_conflict(s)`, and the Manhattan
distance never exceeds the true cost (it is bounded by the length of every
solution); the final link `linear_conflict(s) ≤ true optimal cost` is dropped
— `linearConflict_exceeds_optimal` refutes it. -/
theorem heuristic_chain (p : Puzzle) (hv : p.Valid) :
    misplacedTiles p ≤ manhattanDistance p ∧
      manhattanDistance p ≤ linearConflict p ∧
      ∀ ms, solves p ms = true → manhattanDistance p ≤ ms.length :=
  ⟨misplaced_le_manhattan hv, manhattan_le_linearConflict p,
    fun ms h => manhattan_admissible p ms hv h⟩

/-- Witness for the amended C2 at the medium puzzle and its 6-move
solution. -/
theorem heuristic_chain_witness :
    misplacedTiles mediumPuzzle ≤ manhattanDistance mediumPuzzle ∧
      manhattanDistance mediumPuzzle ≤ linearConflict mediumPuzzle ∧
      manhattanDistance mediumPuzzle ≤ mediumSolution.length :=
  ⟨(heuristic_chain mediumPuzzle (by decide)).1,
    (heuristic_chain mediumPuzzle (by decide)).2.1,
    (heuristic_chain mediumPuzzle (by decide)).2.2 mediumSolution (by rfl)⟩

/-! ### The search engines (`search/astar.py`, `search/best_first.py`) -/

/-- A state key: the tuple `puzzle.get_state_tuple()` used for dict and set
membership. -/
abbrev StateKey := List Nat

/-- One open-list entry: the heapq tuple `(priority, tie_breaker, node)`. -/
structure OpenEntry where
  key : Nat
  tie : Nat
  node : Node

/-- heapq's tuple order on `(priority, tie_breaker)`; the node itself is
never compared because tie breakers are unique. -/
def entryLt (e f : OpenEntry) : Bool :=
  decide (e.key < f.key ∨ (e.key = f.key ∧ e.tie < f.tie))

/-- `heapq.heappop`: remove and return the least entry. Tie breakers are
pairwise distinct, so the minimum is unique and this models the heap pop
exactly; the order of the remaining entries is irrelevant because every pop
takes the global minimum. -/
def popMin : List OpenEntry → Option (OpenEntry × List OpenEntry)
  | [] => none
  | e :: rest =>
    match popMin rest with
    | none => some (e, [])
    | some (m, rest') =>
      if entryLt m e then some (m, e :: rest') else some (e, rest)

/-- Python dict lookup keyed by state tuple. -/
def dictLookup : List (StateKey × Node) → StateKey → Option Node
  | [], _ => none
  | (k, v) :: rest, key => if k = key then some v else dictLookup rest key

/-- Python dict assignment `d[key] = v`. -/
def dictInsert : List (StateKey × Node) → StateKey → Node → List (StateKey × Node)
  | [], key, v => [(key, v)]
  | (k, w) :: rest, key, v =>
    if k = key then (k, v) :: rest else (k, w) :: dictInsert rest key v

/-- Python dict deletion `del d[key]`. -/
def dictErase : List (StateKey × Node) → StateKey → List (StateKey × Node)
  | [], _ => []
  | (k, w) :: rest, key => if k = key then rest else (k, w) :: dictErase rest key

/-- Per-call statistics (`nodes_expanded`, `nodes_generated`); the wall-clock
`execution_time` is outside the model. -/
structure SearchStats where
  nodesExpanded : Nat
  nodesGenerated : Nat
deriving DecidableEq, Repr

/-- The mutable locals of the A* main loop. -/
structure AStarState where
  openList : List OpenEntry
  openDict : List (StateKey × Node)
  closedSet : List StateKey
  nodesExpanded : Nat
  nodesGenerated : Nat
  counter : Nat

/-- The body of A*'s child loop: count the generation; skip children whose
state is closed; skip children not cheaper than the open entry for the same
state; otherwise record the child as best known and push it. -/
def astarProcessChild (st : AStarState) (child : Node) : AStarState :=
  let st := { st with nodesGenerated := st.nodesGenerated + 1 }
  let key := child.state.state
  if key ∈ st.closedSet then st
  else
    match dictLookup st.openDict key with
    | some existing =>
      if existing.cost ≤ child.cost then st
      else
        { st with
          openDict := dictInsert st.openDict key child,
          openList := st.openList ++ [⟨child.totalCost, st.counter, child⟩],
          counter := st.counter + 1 }
    | none =>
      { st with
        openDict := dictInsert st.openDict key child,
        openList := st.openList ++ [⟨child.totalCost, st.counter, child⟩],
        counter := st.counter + 1 }

/-- The A* main loop (`while open_list and nodes_expanded < max_steps`),
with a fuel argument that the caller sizes so that it never runs out (see
`astarLoop_fuel_irrelevant`): pop the least-`f` entry; return it if it is a
goal; if its state still has a dict entry (whose node compares equal — node
equality is state equality, so this is exactly the Python test), delete the
entry, close the state, count the expansion and process the children;
otherwise a better path was already processed, so skip. -/
def astarLoop (maxSteps : Nat) (hf : Puzzle → Nat) :
    Nat → AStarState → Option Node × AStarState
  | 0, st => (none, st)
  | fuel + 1, st =>
    if st.openList.isEmpty = false ∧ st.nodesExpanded < maxSteps then
      match popMin st.openList with
      | none => (none, st)
      | some (entry, rest) =>
        let current := entry.node
        if current.state.isGoal then (some current, { st with openList := rest })
        else
          let stateTuple := current.state.state
          match dictLookup st.openDict stateTuple with
          | some existing =>
            if existing.state.state == current.state.state then
              let st1 : AStarState :=
                { st with
                  openList := rest,
                  openDict := dictErase st.openDict stateTuple,
                  closedSet := stateTuple :: st.closedSet,
                  nodesExpanded := st.nodesExpanded + 1 }
              astarLoop maxSteps hf fuel
                ((current.expand hf).foldl astarProcessChild st1)
            else
              astarLoop maxSteps hf fuel { st with openList := rest }
          | none =>
            astarLoop maxSteps hf fuel { st with openList := rest }
    else (none, st)

/-- `AStarSearch.search`: reset the counters, reject unsolvable inputs with a
no-solution outcome, return a zero-cost node on an initial goal, otherwise
seed the open structures with the initial node and run the loop. -/
def astarSearch (maxSteps : Nat) (initial : Puzzle) (hf : Puzzle → Nat) :
    Option Node × SearchStats :=
  if initial.isSolvable = false then (none, ⟨0, 0⟩)
  else if initial.isGoal then (some (Node.new initial 0 0 none none), ⟨0, 0⟩)
  else
    let initialH := hf initial
    let initialNode := Node.new initial 0 initialH none none
    let st : AStarState :=
      { openList := [⟨initialNode.totalCost, 0, initialNode⟩],
        openDict := [(initial.state, initialNode)],
        closedSet := [], nodesExpanded := 0, nodesGenerated := 1, counter := 1 }
    let res := astarLoop maxSteps hf (5 * maxSteps + 2) st
    (res.1, ⟨res.2.nodesExpanded, res.2.nodesGenerated⟩)

/-- The mutable locals of the best-first main loop. -/
structure BestFirstState where
  openList : List OpenEntry
  openSet : List StateKey
  closedSet : List StateKey
  nodesExpanded : Nat
  nodesGenerated : Nat
  counter : Nat

/-- The body of best-first's child loop: skip children in the closed set or
already on the open set (first arrival wins), otherwise push with priority
`h` and record the state. -/
def bestFirstProcessChild (st : BestFirstState) (child : Node) : BestFirstState :=
  let st := { st with nodesGenerated := st.nodesGenerated + 1 }
  let key := child.state.state
  if key ∈ st.closedSet then st
  else if key ∈ st.openSet then st
  else
    { st with
      openList := st.openList ++ [⟨child.heuristic, st.counter, child⟩],
      openSet := key :: st.openSet,
      counter := st.counter + 1 }

/-- The best-first main loop: pop the least-`h` entry, drop its state from
the open set (`open_set.remove`; the state is always present because heap
entries carry pairwise distinct states), return on goal, otherwise close the
state, count the expansion and process the children. -/
def bestFirstLoop (maxSteps : Nat) (hf : Puzzle → Nat) :
    Nat → BestFirstState → Option Node × BestFirstState
  | 0, st => (none, st)
  | fuel + 1, st =>
    if st.openList.isEmpty = false ∧ st.nodesExpanded < maxSteps then
      match popMin st.openList with
      | none => (none, st)
      | some (entry, rest) =>
        let current := entry.node
        let stateTuple := current.state.state
        let st1 : BestFirstState :=
          { st with
            openList := rest,
            openSet := st.openSet.erase stateTuple }
        if current.state.isGoal then (some current, st1)
        else
          let st2 : BestFirstState :=
            { st1 with
              closedSet := stateTuple :: st1.closedSet,
              nodesExpanded := st1.nodesExpanded + 1 }
          bestFirstLoop maxSteps hf fuel
            ((current.expand hf).foldl bestFirstProcessChild st2)
    else (none, st)

/-- `BestFirstSearch.search`: the same entry protocol as A*, with priority
`h` only. -/
def bestFirstSearch (maxSteps : Nat) (initial : Puzzle) (hf : Puzzle → Nat) :
    Option Node × SearchStats :=
  if initial.isSolvable = false then (none, ⟨0, 0⟩)
  else if initial.isGoal then (some (Node.new initial 0 0 none none), ⟨0, 0⟩)
  else
    let initialH := hf initial
    let initialNode := Node.new initial 0 initialH none none
    let st : BestFirstState :=
      { openList := [⟨initialH, 0, initialNode⟩],
        openSet := [initial.state],
        closedSet := [], nodesExpanded := 0, nodesGenerated := 1, counter := 1 }
    let res := bestFirstLoop maxSteps hf (5 * maxSteps + 2) st
    (res.1, ⟨res.2.nodesExpanded, res.2.nodesGenerated⟩)

/-- A valid goal configuration passes the solvability test. -/
theorem isGoal_isSolvable {p : Puzzle} (hv : p.Valid) (hg : p.isGoal = true) :
    p.isSolvable = true := by
  have hstate : p.state = goalState p.size := by
    simpa [Puzzle.isGoal] using hg
  obtain ⟨h1, _⟩ | ⟨h1, _⟩ := hv.1
  · have hp : p = { state := goalState 3, size := 3 } := by
      cases p
      simp_all
    rw [hp]
    decide
  · have hp : p = { state := goalState 4, size := 4 } := by
      cases p
      simp_all
    rw [hp]
    decide

/-- **C5**: each engine's `search` starts from freshly reset statistics (the
returned counters are built from zero in every branch); an unsolvable input
yields a no-solution outcome — no exception, zero nodes expanded or
generated; an initial state that is already the goal immediately yields a
node of cost 0 holding the initial state, again with zero expansions. -/
theorem search_entry_protocol (maxSteps : Nat) (p : Puzzle) (hf : Puzzle → Nat)
    (hv : p.Valid) :
    (p.isSolvable = false →
      astarSearch maxSteps p hf = (none, ⟨0, 0⟩) ∧
      bestFirstSearch maxSteps p hf = (none, ⟨0, 0⟩)) ∧
    (p.isGoal = true →
      (∃ n, astarSearch maxSteps p hf = (some n, ⟨0, 0⟩) ∧
        n.cost = 0 ∧ n.state = p) ∧
      (∃ n, bestFirstSearch maxSteps p hf = (some n, ⟨0, 0⟩) ∧
        n.cost = 0 ∧ n.state = p)) := by
  constructor
  · intro h
    constructor
    · simp [astarSearch, h]
    · simp [bestFirstSearch, h]
  · intro hg
    have hsolv := isGoal_isSolvable hv hg
    constructor
    · exact ⟨Node.new p 0 0 none none, by simp [astarSearch, hsolv, hg], rfl,
        rfl⟩
    · exact ⟨Node.new p 0 0 none none, by simp [bestFirstSearch, hsolv, hg],
        rfl, rfl⟩

/-- Witness for C5 at the unsolvable example and the goal configuration. -/
theorem search_entry_protocol_witness :
    (astarSearch 10000 swappedPuzzle3 manhattanDistance = (none, ⟨0, 0⟩) ∧
      bestFirstSearch 10000 swappedPuzzle3 manhattanDistance = (none, ⟨0, 0⟩)) ∧
    (∃ n, astarSearch 10000 goalPuzzle3 manhattanDistance = (some n, ⟨0, 0⟩) ∧
      n.cost = 0 ∧ n.state = goalPuzzle3) :=
  ⟨(search_entry_protocol 10000 swappedPuzzle3 manhattanDistance
      (by decide)).1 (by decide),
    ((search_entry_protocol 10000 goalPuzzle3 manhattanDistance
      (by decide)).2 (by decide)).1⟩

/-! ### Loop analysis -/

theorem popMin_cons_none {x : OpenEntry} {xs : List OpenEntry}
    (hx : popMin xs = none) : popMin (x :: xs) = some (x, []) := by
  simp [popMin, hx]

theorem popMin_cons_some {x : OpenEntry} {xs : List OpenEntry} {m : OpenEntry}
    {r : List OpenEntry} (hx : popMin xs = some (m, r)) :
    popMin (x :: xs) =
      if entryLt m x then some (m, x :: r) else some (x, xs) := by
  simp [popMin, hx]

theorem popMin_eq_none {l : List OpenEntry} : popMin l = none ↔ l = [] := by
  cases l with
  | nil => simp [popMin]
  | cons x xs =>
    have hne : popMin (x :: xs) ≠ none := by
      cases hx : popMin xs with
      | none => rw [popMin_cons_none hx]; simp
      | some p =>
        obtain ⟨m, r⟩ := p
        rw [popMin_cons_some hx]
        by_cases hlt : entryLt m x = true
        · rw [if_pos hlt]; simp
        · rw [if_neg hlt]; simp
    simp [hne]

theorem popMin_length {l : List OpenEntry} {e : OpenEntry}
    {rest : List OpenEntry} (h : popMin l = some (e, rest)) :
    rest.length + 1 = l.length := by
  induction l generalizing e rest with
  | nil => cases h
  | cons x xs ih =>
    cases hx : popMin xs with
    | none =>
      rw [popMin_cons_none hx] at h
      simp only [Option.some.injEq, Prod.mk.injEq] at h
      obtain ⟨rfl, rfl⟩ := h
      have : xs = [] := popMin_eq_none.mp hx
      simp [this]
    | some p =>
      obtain ⟨m, r⟩ := p
      rw [popMin_cons_some hx] at h
      by_cases hlt : entryLt m x = true
      · rw [if_pos hlt] at h
        simp only [Option.some.injEq, Prod.mk.injEq] at h
        obtain ⟨rfl, rfl⟩ := h
        have := ih hx
        simp only [List.length_cons] at *
        omega
      · rw [if_neg hlt] at h
        simp only [Option.some.injEq, Prod.mk.injEq] at h
        obtain ⟨rfl, rfl⟩ := h
        rfl

theorem popMin_perm {l : List OpenEntry} {e : OpenEntry}
    {rest : List OpenEntry} (h : popMin l = some (e, rest)) :
    List.Perm l (e :: rest) := by
  induction l generalizing e rest with
  | nil => cases h
  | cons x xs ih =>
    cases hx : popMin xs with
    | none =>
      rw [popMin_cons_none hx] at h
      simp only [Option.some.injEq, Prod.mk.injEq] at h
      obtain ⟨rfl, rfl⟩ := h
      have : xs = [] := popMin_eq_none.mp hx
      simp [this]
    | some p =>
      obtain ⟨m, r⟩ := p
      rw [popMin_cons_some hx] at h
      by_cases hlt : entryLt m x = true
      · rw [if_pos hlt] at h
        simp only [Option.some.injEq, Prod.mk.injEq] at h
        obtain ⟨rfl, rfl⟩ := h
        exact (List.Perm.cons x (ih hx)).trans (List.Perm.swap m x r)
      · rw [if_neg hlt] at h
        simp only [Option.some.injEq, Prod.mk.injEq] at h
        obtain ⟨rfl, rfl⟩ := h
        exact List.Perm.refl _

theorem popMin_min {l : List OpenEntry} {e : OpenEntry}
    {rest : List OpenEntry} (h : popMin l = some (e, rest)) :
    ∀ f ∈ l, entryLt f e = false := by
  induction l generalizing e rest with
  | nil => cases h
  | cons x xs ih =>
    cases hx : popMin xs with
    | none =>
      rw [popMin_cons_none hx] at h
      simp only [Option.some.injEq, Prod.mk.injEq] at h
      obtain ⟨rfl, rfl⟩ := h
      have hnil : xs = [] := popMin_eq_none.mp hx
      subst hnil
      intro f hf
      simp only [List.mem_singleton] at hf
      subst hf
      simp only [entryLt, decide_eq_false_iff_not]
      omega
    | some p =>
      obtain ⟨m, r⟩ := p
      rw [popMin_cons_some hx] at h
      by_cases hlt : entryLt m x = true
      · rw [if_pos hlt] at h
        simp only [Option.some.injEq, Prod.mk.injEq] at h
        obtain ⟨rfl, rfl⟩ := h
        intro f hf
        rcases List.mem_cons.mp hf with rfl | hf'
        · simp only [entryLt, decide_eq_true_eq] at hlt
          simp only [entryLt, decide_eq_false_iff_not]
          omega
        · exact ih hx f hf'
      · rw [if_neg hlt] at h
        simp only [Option.some.injEq, Prod.mk.injEq] at h
        obtain ⟨rfl, rfl⟩ := h
        intro f hf
        rcases List.mem_cons.mp hf with rfl | hf'
        · simp only [entryLt, decide_eq_false_iff_not]
          omega
        · have h1 := ih hx f hf'
          simp only [entryLt, decide_eq_false_iff_not] at h1 ⊢
          simp only [entryLt, decide_eq_true_eq, not_or, not_and] at hlt
          push_neg at hlt
          omega

theorem getLegalMoves_length_le (p : Puzzle) : p.getLegalMoves.length ≤ 4 := by
  unfold Puzzle.getLegalMoves
  split_ifs <;> simp

theorem expand_length_le (n : Node) (hf : Puzzle → Nat) :
    (n.expand hf).length ≤ 4 := by
  unfold Node.expand
  rw [List.length_map]
  exact getLegalMoves_length_le _

theorem astarProcessChild_facts (st : AStarState) (c : Node) :
    (astarProcessChild st c).openList.length ≤ st.openList.length + 1 ∧
      (astarProcessChild st c).nodesExpanded = st.nodesExpanded ∧
      (astarProcessChild st c).closedSet = st.closedSet := by
  unfold astarProcessChild
  dsimp only
  split
  · exact ⟨by simp, rfl, rfl⟩
  · split
    · split
      · exact ⟨by simp, rfl, rfl⟩
      · exact ⟨by simp, rfl, rfl⟩
    · exact ⟨by simp, rfl, rfl⟩

theorem foldl_astarProcessChild_facts (cs : List Node) (st : AStarState) :
    (cs.foldl astarProcessChild st).openList.length ≤
        st.openList.length + cs.length ∧
      (cs.foldl astarProcessChild st).nodesExpanded = st.nodesExpanded ∧
      (cs.foldl astarProcessChild st).closedSet = st.closedSet := by
  induction cs generalizing st with
  | nil => simp
  | cons c cs ih =>
    rw [List.foldl_cons]
    have h1 := astarProcessChild_facts st c
    have h2 := ih (astarProcessChild st c)
    refine ⟨?_, h2.2.1.trans h1.2.1, h2.2.2.trans h1.2.2⟩
    have := h2.1
    simp only [List.length_cons]
    omega

theorem bestFirstProcessChild_facts (st : BestFirstState) (c : Node) :
    (bestFirstProcessChild st c).openList.length ≤ st.openList.length + 1 ∧
      (bestFirstProcessChild st c).nodesExpanded = st.nodesExpanded ∧
      (bestFirstProcessChild st c).closedSet = st.closedSet := by
  unfold bestFirstProcessChild
  dsimp only
  split
  · exact ⟨by simp, rfl, rfl⟩
  · split
    · exact ⟨by simp, rfl, rfl⟩
    · exact ⟨by simp, rfl, rfl⟩

theorem foldl_bestFirstProcessChild_facts (cs : List Node)
    (st : BestFirstState) :
    (cs.foldl bestFirstProcessChild st).openList.length ≤
        st.openList.length + cs.length ∧
      (cs.foldl bestFirstProcessChild st).nodesExpanded = st.nodesExpanded ∧
      (cs.foldl bestFirstProcessChild st).closedSet = st.closedSet := by
  induction cs generalizing st with
  | nil => simp
  | cons c cs ih =>
    rw [List.foldl_cons]
    have h1 := bestFirstProcessChild_facts st c
    have h2 := ih (bestFirstProcessChild st c)
    refine ⟨?_, h2.2.1.trans h1.2.1, h2.2.2.trans h1.2.2⟩
    have := h2.1
    simp only [List.length_cons]
    omega

/-- Decreasing measure of the A* loop: each iteration either pops without
expanding (open shrinks by one) or expands (budget shrinks by one, open
grows by at most three net). -/
def astarMeasure (maxSteps : Nat) (st : AStarState) : Nat :=
  5 * (maxSteps - st.nodesExpanded) + st.openList.length

theorem astarLoop_expanded_le (maxSteps : Nat) (hf : Puzzle → Nat) :
    ∀ fuel st, st.nodesExpanded ≤ maxSteps →
      (astarLoop maxSteps hf fuel st).2.nodesExpanded ≤ maxSteps := by
  intro fuel
  induction fuel with
  | zero => intro st h; exact h
  | succ fuel ih =>
    intro st h
    rw [astarLoop]
    by_cases hc : st.openList.isEmpty = false ∧ st.nodesExpanded < maxSteps
    · rw [if_pos hc]
      cases heq : popMin st.openList with
      | none => exact h
      | some p =>
        obtain ⟨entry, rest⟩ := p
        dsimp only
        by_cases hg : entry.node.state.isGoal = true
        · rw [if_pos hg]
          exact h
        · rw [if_neg hg]
          cases hd : dictLookup st.openDict entry.node.state.state with
          | none => exact ih _ h
          | some existing =>
            dsimp only
            by_cases he : (existing.state.state == entry.node.state.state) = true
            · rw [if_pos he]
              apply ih
              rw [(foldl_astarProcessChild_facts _ _).2.1]
              exact hc.2
            · rw [if_neg he]
              exact ih _ h
    · rw [if_neg hc]
      exact h

theorem astarLoop_exit (maxSteps : Nat) (hf : Puzzle → Nat) (fuel : Nat)
    (st : AStarState)
    (h : st.openList.isEmpty = true ∨ maxSteps ≤ st.nodesExpanded) :
    astarLoop maxSteps hf fuel st = (none, st) := by
  cases fuel with
  | zero => rfl
  | succ fuel =>
    rw [astarLoop, if_neg]
    rintro ⟨h1, h2⟩
    rcases h with h | h
    · rw [h] at h1
      cases h1
    · omega

theorem astarLoop_some_goal (maxSteps : Nat) (hf : Puzzle → Nat) :
    ∀ fuel st n st', astarLoop maxSteps hf fuel st = (some n, st') →
      n.state.isGoal = true := by
  intro fuel
  induction fuel with
  | zero =>
    intro st n st' h
    simp only [astarLoop, Prod.mk.injEq] at h
    cases h.1
  | succ fuel ih =>
    intro st n st' h
    rw [astarLoop] at h
    by_cases hc : st.openList.isEmpty = false ∧ st.nodesExpanded < maxSteps
    · rw [if_pos hc] at h
      cases heq : popMin st.openList with
      | none =>
        rw [heq] at h
        simp only [Prod.mk.injEq] at h
        cases h.1
      | some p =>
        obtain ⟨entry, rest⟩ := p
        simp only [heq] at h
        by_cases hg : entry.node.state.isGoal = true
        · rw [if_pos hg] at h
          simp only [Prod.mk.injEq, Option.some.injEq] at h
          exact h.1 ▸ hg
        · rw [if_neg hg] at h
          cases hd : dictLookup st.openDict entry.node.state.state with
          | none =>
            simp only [hd] at h
            exact ih _ _ _ h
          | some existing =>
            simp only [hd] at h
            by_cases he : (existing.state.state == entry.node.state.state) = true
            · rw [if_pos he] at h
              exact ih _ _ _ h
            · rw [if_neg he] at h
              exact ih _ _ _ h
    · rw [if_neg hc] at h
      simp only [Prod.mk.injEq] at h
      cases h.1

theorem astarLoop_fuel_irrelevant (maxSteps : Nat) (hf : Puzzle → Nat) :
    ∀ fuel fuel' st, astarMeasure maxSteps st < fuel →
      astarMeasure maxSteps st < fuel' →
      astarLoop maxSteps hf fuel st = astarLoop maxSteps hf fuel' st := by
  intro fuel
  induction fuel with
  | zero => intro fuel' st h h'; exact absurd h (Nat.not_lt_zero _)
  | succ fuel ih =>
    intro fuel' st h h'
    cases fuel' with
    | zero => exact absurd h' (Nat.not_lt_zero _)
    | succ fuel' =>
      rw [astarLoop]
      rw [astarLoop]
      by_cases hc : st.openList.isEmpty = false ∧ st.nodesExpanded < maxSteps
      · rw [if_pos hc, if_pos hc]
        cases heq : popMin st.openList with
        | none => rfl
        | some p =>
          obtain ⟨entry, rest⟩ := p
          have hlen := popMin_length heq
          dsimp only
          by_cases hg : entry.node.state.isGoal = true
          · rw [if_pos hg, if_pos hg]
          · rw [if_neg hg, if_neg hg]
            cases hd : dictLookup st.openDict entry.node.state.state with
            | none =>
              apply ih
              · simp only [astarMeasure] at h ⊢
                omega
              · simp only [astarMeasure] at h' ⊢
                omega
            | some existing =>
              dsimp only
              by_cases he : (existing.state.state == entry.node.state.state) = true
              · rw [if_pos he, if_pos he]
                have hfold := foldl_astarProcessChild_facts (entry.node.expand hf)
                  { st with
                    openList := rest,
                    openDict := dictErase st.openDict entry.node.state.state,
                    closedSet := entry.node.state.state :: st.closedSet,
                    nodesExpanded := st.nodesExpanded + 1 }
                have hex := expand_length_le entry.node hf
                have h2 := hc.2
                dsimp only at hfold
                apply ih
                · simp only [astarMeasure] at h ⊢
                  rw [hfold.2.1]
                  have h1 := hfold.1
                  omega
                · simp only [astarMeasure] at h' ⊢
                  rw [hfold.2.1]
                  have h1 := hfold.1
                  omega
              · rw [if_neg he, if_neg he]
                apply ih
                · simp only [astarMeasure] at h ⊢
                  omega
                · simp only [astarMeasure] at h' ⊢
                  omega
      · rw [if_neg hc, if_neg hc]

/-- Decreasing measure of the best-first loop. -/
def bestFirstMeasure (maxSteps : Nat) (st : BestFirstState) : Nat :=
  5 * (maxSteps - st.nodesExpanded) + st.openList.length

theorem bestFirstLoop_expanded_le (maxSteps : Nat) (hf : Puzzle → Nat) :
    ∀ fuel st, st.nodesExpanded ≤ maxSteps →
      (bestFirstLoop maxSteps hf fuel st).2.nodesExpanded ≤ maxSteps := by
  intro fuel
  induction fuel with
  | zero => intro st h; exact h
  | succ fuel ih =>
    intro st h
    rw [bestFirstLoop]
    by_cases hc : st.openList.isEmpty = false ∧ st.nodesExpanded < maxSteps
    · rw [if_pos hc]
      cases heq : popMin st.openList with
      | none => exact h
      | some p =>
        obtain ⟨entry, rest⟩ := p
        dsimp only
        by_cases hg : entry.node.state.isGoal = true
        · rw [if_pos hg]
          exact h
        · rw [if_neg hg]
          apply ih
          rw [(foldl_bestFirstProcessChild_facts _ _).2.1]
          exact hc.2
    · rw [if_neg hc]
      exact h

theorem bestFirstLoop_exit (maxSteps : Nat) (hf : Puzzle → Nat) (fuel : Nat)
    (st : BestFirstState)
    (h : st.openList.isEmpty = true ∨ maxSteps ≤ st.nodesExpanded) :
    bestFirstLoop maxSteps hf fuel st = (none, st) := by
  cases fuel with
  | zero => rfl
  | succ fuel =>
    rw [bestFirstLoop, if_neg]
    rintro ⟨h1, h2⟩
    rcases h with h | h
    · rw [h] at h1
      cases h1
    · omega

theorem bestFirstLoop_some_goal (maxSteps : Nat) (hf : Puzzle → Nat) :
    ∀ fuel st n st', bestFirstLoop maxSteps hf fuel st = (some n, st') →
      n.state.isGoal = true := by
  intro fuel
  induction fuel with
  | zero =>
    intro st n st' h
    simp only [bestFirstLoop, Prod.mk.injEq] at h
    cases h.1
  | succ fuel ih =>
    intro st n st' h
    rw [bestFirstLoop] at h
    by_cases hc : st.openList.isEmpty = false ∧ st.nodesExpanded < maxSteps
    · rw [if_pos hc] at h
      cases heq : popMin st.openList with
      | none =>
        rw [heq] at h
        simp only [Prod.mk.injEq] at h
        cases h.1
      | some p =>
        obtain ⟨entry, rest⟩ := p
        simp only [heq] at h
        by_cases hg : entry.node.state.isGoal = true
        · rw [if_pos hg] at h
          simp only [Prod.mk.injEq, Option.some.injEq] at h
          exact h.1 ▸ hg
        · rw [if_neg hg] at h
          exact ih _ _ _ h
    · rw [if_neg hc] at h
      simp only [Prod.mk.injEq] at h
      cases h.1

theorem bestFirstLoop_fuel_irrelevant (maxSteps : Nat) (hf : Puzzle → Nat) :
    ∀ fuel fuel' st, bestFirstMeasure maxSteps st < fuel →
      bestFirstMeasure maxSteps st < fuel' →
      bestFirstLoop maxSteps hf fuel st = bestFirstLoop maxSteps hf fuel' st := by
  intro fuel
  induction fuel with
  | zero => intro fuel' st h h'; exact absurd h (Nat.not_lt_zero _)
  | succ fuel ih =>
    intro fuel' st h h'
    cases fuel' with
    | zero => exact absurd h' (Nat.not_lt_zero _)
    | succ fuel' =>
      rw [bestFirstLoop]
      rw [bestFirstLoop]
      by_cases hc : st.openList.isEmpty = false ∧ st.nodesExpanded < maxSteps
      · rw [if_pos hc, if_pos hc]
        cases heq : popMin st.openList with
        | none => rfl
        | some p =>
          obtain ⟨entry, rest⟩ := p
          have hlen := popMin_length heq
          dsimp only
          by_cases hg : entry.node.state.isGoal = true
          · rw [if_pos hg, if_pos hg]
          · rw [if_neg hg, if_neg hg]
            have hfold := foldl_bestFirstProcessChild_facts (entry.node.expand hf)
              { st with
                openList := rest,
                openSet := st.openSet.erase entry.node.state.state,
                closedSet := entry.node.state.state :: st.closedSet,
                nodesExpanded := st.nodesExpanded + 1 }
            have hex := expand_length_le entry.node hf
            have h2 := hc.2
            dsimp only at hfold
            apply ih
            · simp only [bestFirstMeasure] at h ⊢
              rw [hfold.2.1]
              have h1 := hfold.1
              omega
            · simp only [bestFirstMeasure] at h' ⊢
              rw [hfold.2.1]
              have h1 := hfold.1
              omega
      · rw [if_neg hc, if_neg hc]

/-- **C4**: both search engines terminate: once the fuel exceeds the loop
measure (as the callers arrange), adding fuel never changes the result, so
each call runs to its natural exit. Throughout, `nodes_expanded` never
exceeds `max_steps` — at the call level and as a loop invariant — while
`nodes_generated` is not capped (with budget 2 on the medium instance both
engines expand 2 nodes but generate 8 > 2). When the open list is empty or
the expansion budget is exhausted the loop returns no solution, and any
returned node is a goal node, so exhausting either resource without a goal
yields `None`. -/
theorem search_termination_budget :
    (∀ maxSteps p hf,
      (astarSearch maxSteps p hf).2.nodesExpanded ≤ maxSteps ∧
      (bestFirstSearch maxSteps p hf).2.nodesExpanded ≤ maxSteps) ∧
    (∀ maxSteps hf fuel st, st.nodesExpanded ≤ maxSteps →
      (astarLoop maxSteps hf fuel st).2.nodesExpanded ≤ maxSteps) ∧
    (∀ maxSteps hf fuel st, st.nodesExpanded ≤ maxSteps →
      (bestFirstLoop maxSteps hf fuel st).2.nodesExpanded ≤ maxSteps) ∧
    (∀ maxSteps hf fuel st,
      st.openList.isEmpty = true ∨ maxSteps ≤ st.nodesExpanded →
      astarLoop maxSteps hf fuel st = (none, st)) ∧
    (∀ maxSteps hf fuel st,
      st.openList.isEmpty = true ∨ maxSteps ≤ st.nodesExpanded →
      bestFirstLoop maxSteps hf fuel st = (none, st)) ∧
    (∀ maxSteps hf fuel st n st',
      astarLoop maxSteps hf fuel st = (some n, st') → n.state.isGoal = true) ∧
    (∀ maxSteps hf fuel st n st',
      bestFirstLoop maxSteps hf fuel st = (some n, st') →
        n.state.isGoal = true) ∧
    (∀ maxSteps hf fuel extra st, astarMeasure maxSteps st < fuel →
      astarLoop maxSteps hf fuel st = astarLoop maxSteps hf (fuel + extra) st) ∧
    (∀ maxSteps hf fuel extra st, bestFirstMeasure maxSteps st < fuel →
      bestFirstLoop maxSteps hf fuel st =
        bestFirstLoop maxSteps hf (fuel + extra) st) ∧
    ((astarSearch 2 mediumPuzzle manhattanDistance).2.nodesExpanded ≤ 2 ∧
      2 < (astarSearch 2 mediumPuzzle manhattanDistance).2.nodesGenerated ∧
      (bestFirstSearch 2 mediumPuzzle manhattanDistance).2.nodesExpanded ≤ 2 ∧
      2 < (bestFirstSearch 2 mediumPuzzle manhattanDistance).2.nodesGenerated) := by
  refine ⟨?_, ?_, ?_, ?_, ?_, ?_, ?_, ?_, ?_, ?_⟩
  · intro maxSteps p hf
    constructor
    · unfold astarSearch
      split_ifs with h1 h2
      · exact Nat.zero_le _
      · exact Nat.zero_le _
      · exact astarLoop_expanded_le maxSteps hf _ _ (Nat.zero_le _)
    · unfold bestFirstSearch
      split_ifs with h1 h2
      · exact Nat.zero_le _
      · exact Nat.zero_le _
      · exact bestFirstLoop_expanded_le maxSteps hf _ _ (Nat.zero_le _)
  · intro maxSteps hf fuel st h
    exact astarLoop_expanded_le maxSteps hf fuel st h
  · intro maxSteps hf fuel st h
    exact bestFirstLoop_expanded_le maxSteps hf fuel st h
  · intro maxSteps hf fuel st h
    exact astarLoop_exit maxSteps hf fuel st h
  · intro maxSteps hf fuel st h
    exact bestFirstLoop_exit maxSteps hf fuel st h
  · intro maxSteps hf fuel st n st' h
    exact astarLoop_some_goal maxSteps hf fuel st n st' h
  · intro maxSteps hf fuel st n st' h
    exact bestFirstLoop_some_goal maxSteps hf fuel st n st' h
  · intro maxSteps hf fuel extra st h
    exact astarLoop_fuel_irrelevant maxSteps hf fuel (fuel + extra) st h
      (lt_of_lt_of_le h (Nat.le_add_right _ _))
  · intro maxSteps hf fuel extra st h
    exact bestFirstLoop_fuel_irrelevant maxSteps hf fuel (fuel + extra) st h
      (lt_of_lt_of_le h (Nat.le_add_right _ _))
  · exact ⟨by decide, by decide, by decide, by decide⟩

/-- Witness instances for the budget theorem: an empty open list exits at
once, a zero budget is respected, a popped goal is returned, and extra fuel
is irrelevant once the measure is below it. -/
theorem search_termination_budget_witness :
    (astarLoop 1 manhattanDistance 3 ⟨[], [], [], 0, 0, 0⟩ =
        (none, ⟨[], [], [], 0, 0, 0⟩)) ∧
    (bestFirstLoop 1 manhattanDistance 3 ⟨[], [], [], 0, 0, 0⟩ =
        (none, ⟨[], [], [], 0, 0, 0⟩)) ∧
    (astarLoop 1 manhattanDistance 3 ⟨[], [], [], 0, 0, 0⟩).2.nodesExpanded
        ≤ 1 ∧
    (bestFirstLoop 1 manhattanDistance 3
        ⟨[], [], [], 0, 0, 0⟩).2.nodesExpanded ≤ 1 ∧
    (Node.new goalPuzzle3 0 0 none none).state.isGoal = true ∧
    (astarLoop 1 manhattanDistance 6 ⟨[], [], [], 0, 0, 0⟩ =
      astarLoop 1 manhattanDistance 7 ⟨[], [], [], 0, 0, 0⟩) ∧
    (bestFirstLoop 1 manhattanDistance 6 ⟨[], [], [], 0, 0, 0⟩ =
      bestFirstLoop 1 manhattanDistance 7 ⟨[], [], [], 0, 0, 0⟩) := by
  obtain ⟨t1, t2, t3, t4, t5, t6, t7, t8, t9, t10⟩ := search_termination_budget
  refine ⟨t4 1 manhattanDistance 3 ⟨[], [], [], 0, 0, 0⟩ (Or.inl rfl),
    t5 1 manhattanDistance 3 ⟨[], [], [], 0, 0, 0⟩ (Or.inl rfl),
    t2 1 manhattanDistance 3 ⟨[], [], [], 0, 0, 0⟩ (Nat.zero_le 1),
    t3 1 manhattanDistance 3 ⟨[], [], [], 0, 0, 0⟩ (Nat.zero_le 1),
    t6 1 manhattanDistance 1
      ⟨[⟨0, 0, Node.new goalPuzzle3 0 0 none none⟩], [], [], 0, 0, 0⟩
      (Node.new goalPuzzle3 0 0 none none) ⟨[], [], [], 0, 0, 0⟩ (by rfl),
    ?_, ?_⟩
  · have h8 := t8 1 manhattanDistance 6 1 ⟨[], [], [], 0, 0, 0⟩ (by decide)
    exact h8
  · have h9 := t9 1 manhattanDistance 6 1 ⟨[], [], [], 0, 0, 0⟩ (by decide)
    exact h9

/-! ### Solution-path reconstruction -/

/-- Consecutive path nodes are related by one legal move. -/
def chainStep (a b : Node) : Prop :=
  ∃ m, m ∈ a.state.getLegalMoves ∧ b.state = a.state.moveRaw m

/-- The nodes a search from `p₀` with heuristic `hf` can build: the root
node, and children built by `expand` from a buildable node. -/
inductive WFNode (p₀ : Puzzle) (hf : Puzzle → Nat) : Node → Prop
  | root : WFNode p₀ hf (Node.new p₀ 0 (hf p₀) none none)
  | child (n : Node) (m : Move) (hn : WFNode p₀ hf n)
      (hm : m ∈ n.state.getLegalMoves) :
      WFNode p₀ hf (Node.new (n.state.moveRaw m) (n.cost + 1)
        (hf (n.state.moveRaw m)) (some n) (some m))

theorem getPath_new_none (s : Puzzle) (c h : Nat) (m : Option Move) :
    (Node.new s c h none m).getPath = [Node.new s c h none m] := rfl

theorem getPath_new_some (s : Puzzle) (c h : Nat) (pr : Node)
    (m : Option Move) :
    (Node.new s c h (some pr) m).getPath =
      pr.getPath ++ [Node.new s c h (some pr) m] := rfl

theorem WFNode_path {p₀ : Puzzle} {hf : Puzzle → Nat} {n : Node}
    (h : WFNode p₀ hf n) :
    n.getPath ≠ [] ∧
      n.getPath.head? = some (Node.new p₀ 0 (hf p₀) none none) ∧
      n.getPath.getLast? = some n ∧
      List.Chain' chainStep n.getPath ∧
      n.getPath.length = n.cost + 1 := by
  induction h with
  | root =>
    exact ⟨by rw [getPath_new_none]; simp, rfl, rfl,
      by rw [getPath_new_none]; simp, rfl⟩
  | child n m hn hm ih =>
    obtain ⟨ih1, ih2, ih3, ih4, ih5⟩ := ih
    rw [getPath_new_some]
    refine ⟨by simp, ?_, List.getLast?_concat _, ?_, ?_⟩
    · cases hp : n.getPath with
      | nil => exact absurd hp ih1
      | cons a t =>
        rw [hp] at ih2
        simpa using ih2
    · rw [List.chain'_append]
      refine ⟨ih4, by simp, ?_⟩
      intro x hx y hy
      rw [ih3] at hx
      simp only [Option.mem_def, Option.some.injEq] at hx
      simp only [List.head?_cons, Option.mem_def, Option.some.injEq] at hy
      subst hx
      subst hy
      exact ⟨m, hm, rfl⟩
    · simp only [List.length_append, List.length_cons, List.length_nil, ih5]
      rfl

/-- Children produced by `expand` from a buildable node are buildable. -/
theorem expand_WF {p₀ : Puzzle} {hf : Puzzle → Nat} {n : Node}
    (hn : WFNode p₀ hf n) : ∀ c ∈ n.expand hf, WFNode p₀ hf c := by
  intro c hc
  unfold Node.expand at hc
  simp only [List.mem_map] at hc
  obtain ⟨m, hm, rfl⟩ := hc
  exact WFNode.child n m hn hm

theorem astarProcessChild_openList_mem (st : AStarState) (c : Node) :
    ∀ e ∈ (astarProcessChild st c).openList, e ∈ st.openList ∨ e.node = c := by
  intro e he
  unfold astarProcessChild at he
  dsimp only at he
  by_cases h1 : c.state.state ∈ st.closedSet
  · rw [if_pos h1] at he
    exact Or.inl he
  · rw [if_neg h1] at he
    cases hd : dictLookup st.openDict c.state.state with
    | some existing =>
      simp only [hd] at he
      by_cases h2 : existing.cost ≤ c.cost
      · rw [if_pos h2] at he
        exact Or.inl he
      · rw [if_neg h2] at he
        dsimp only at he
        rcases List.mem_append.mp he with h | h
        · exact Or.inl h
        · simp only [List.mem_singleton] at h
          subst h
          exact Or.inr rfl
    | none =>
      simp only [hd] at he
      rcases List.mem_append.mp he with h | h
      · exact Or.inl h
      · simp only [List.mem_singleton] at h
        subst h
        exact Or.inr rfl

theorem foldl_astarProcessChild_mem (cs : List Node) (st : AStarState) :
    ∀ e ∈ (cs.foldl astarProcessChild st).openList,
      e ∈ st.openList ∨ e.node ∈ cs := by
  induction cs generalizing st with
  | nil => intro e he; exact Or.inl he
  | cons c cs ih =>
    intro e he
    rw [List.foldl_cons] at he
    rcases ih (astarProcessChild st c) e he with h | h
    · rcases astarProcessChild_openList_mem st c e h with h' | h'
      · exact Or.inl h'
      · exact Or.inr (by rw [h']; exact List.mem_cons_self c cs)
    · exact Or.inr (List.mem_cons_of_mem c h)

theorem bestFirstProcessChild_openList_mem (st : BestFirstState) (c : Node) :
    ∀ e ∈ (bestFirstProcessChild st c).openList,
      e ∈ st.openList ∨ e.node = c := by
  intro e he
  unfold bestFirstProcessChild at he
  dsimp only at he
  by_cases h1 : c.state.state ∈ st.closedSet
  · rw [if_pos h1] at he
    exact Or.inl he
  · rw [if_neg h1] at he
    by_cases h2 : c.state.state ∈ st.openSet
    · rw [if_pos h2] at he
      exact Or.inl he
    · rw [if_neg h2] at he
      dsimp only at he
      rcases List.mem_append.mp he with h | h
      · exact Or.inl h
      · simp only [List.mem_singleton] at h
        subst h
        exact Or.inr rfl

theorem foldl_bestFirstProcessChild_mem (cs : List Node)
    (st : BestFirstState) :
    ∀ e ∈ (cs.foldl bestFirstProcessChild st).openList,
      e ∈ st.openList ∨ e.node ∈ cs := by
  induction cs generalizing st with
  | nil => intro e he; exact Or.inl he
  | cons c cs ih =>
    intro e he
    rw [List.foldl_cons] at he
    rcases ih (bestFirstProcessChild st c) e he with h | h
    · rcases bestFirstProcessChild_openList_mem st c e h with h' | h'
      · exact Or.inl h'
      · exact Or.inr (by rw [h']; exact List.mem_cons_self c cs)
    · exact Or.inr (List.mem_cons_of_mem c h)

theorem astarLoop_WF (maxSteps : Nat) (p₀ : Puzzle) (hf : Puzzle → Nat) :
    ∀ fuel st, (∀ e ∈ st.openList, WFNode p₀ hf e.node) →
      ∀ n st', astarLoop maxSteps hf fuel st = (some n, st') →
        WFNode p₀ hf n := by
  intro fuel
  induction fuel with
  | zero =>
    intro st hw n st' h
    simp only [astarLoop, Prod.mk.injEq] at h
    cases h.1
  | succ fuel ih =>
    intro st hw n st' h
    rw [astarLoop] at h
    by_cases hc : st.openList.isEmpty = false ∧ st.nodesExpanded < maxSteps
    · rw [if_pos hc] at h
      cases heq : popMin st.openList with
      | none =>
        rw [heq] at h
        simp only [Prod.mk.injEq] at h
        cases h.1
      | some p =>
        obtain ⟨entry, rest⟩ := p
        have hperm := popMin_perm heq
        have hentry : entry ∈ st.openList :=
          hperm.mem_iff.mpr (List.mem_cons_self _ _)
        have hrest : ∀ e ∈ rest, e ∈ st.openList := fun e he =>
          hperm.mem_iff.mpr (List.mem_cons_of_mem _ he)
        simp only [heq] at h
        by_cases hg : entry.node.state.isGoal = true
        · rw [if_pos hg] at h
          simp only [Prod.mk.injEq, Option.some.injEq] at h
          exact h.1 ▸ hw entry hentry
        · rw [if_neg hg] at h
          cases hd : dictLookup st.openDict entry.node.state.state with
          | none =>
            simp only [hd] at h
            exact ih _ (fun e he => hw e (hrest e he)) _ _ h
          | some existing =>
            simp only [hd] at h
            by_cases he' :
                (existing.state.state == entry.node.state.state) = true
            · rw [if_pos he'] at h
              refine ih _ ?_ _ _ h
              intro e hein
              rcases foldl_astarProcessChild_mem _ _ e hein with h' | h'
              · exact hw e (hrest e h')
              · exact expand_WF (hw entry hentry) e.node h'
            · rw [if_neg he'] at h
              exact ih _ (fun e he => hw e (hrest e he)) _ _ h
    · rw [if_neg hc] at h
      simp only [Prod.mk.injEq] at h
      cases h.1

theorem bestFirstLoop_WF (maxSteps : Nat) (p₀ : Puzzle) (hf : Puzzle → Nat) :
    ∀ fuel st, (∀ e ∈ st.openList, WFNode p₀ hf e.node) →
      ∀ n st', bestFirstLoop maxSteps hf fuel st = (some n, st') →
        WFNode p₀ hf n := by
  intro fuel
  induction fuel with
  | zero =>
    intro st hw n st' h
    simp only [bestFirstLoop, Prod.mk.injEq] at h
    cases h.1
  | succ fuel ih =>
    intro st hw n st' h
    rw [bestFirstLoop] at h
    by_cases hc : st.openList.isEmpty = false ∧ st.nodesExpanded < maxSteps
    · rw [if_pos hc] at h
      cases heq : popMin st.openList with
      | none =>
        rw [heq] at h
        simp only [Prod.mk.injEq] at h
        cases h.1
      | some p =>
        obtain ⟨entry, rest⟩ := p
        have hperm := popMin_perm heq
        have hentry : entry ∈ st.openList :=
          hperm.mem_iff.mpr (List.mem_cons_self _ _)
        have hrest : ∀ e ∈ rest, e ∈ st.openList := fun e he =>
          hperm.mem_iff.mpr (List.mem_cons_of_mem _ he)
        simp only [heq] at h
        by_cases hg : entry.node.state.isGoal = true
        · rw [if_pos hg] at h
          simp only [Prod.mk.injEq, Option.some.injEq] at h
          exact h.1 ▸ hw entry hentry
        · rw [if_neg hg] at h
          refine ih _ ?_ _ _ h
          intro e hein
          rcases foldl_bestFirstProcessChild_mem _ _ e hein with h' | h'
          · exact hw e (hrest e h')
          · exact expand_WF (hw entry hentry) e.node h'
    · rw [if_neg hc] at h
      simp only [Prod.mk.injEq] at h
      cases h.1

/-- `get_solution_path()` of `n` reconstructs a genuine solution from `p₀`:
the returned node is a goal node, the path starts at the initial state, ends
at the node's (goal) state, consecutive path nodes are one legal move apart,
and the cost counts the moves (path length minus one). -/
def IsGenuinePath (p₀ : Puzzle) (n : Node) : Prop :=
  n.state.isGoal = true ∧
    n.getSolutionPath.head? = some p₀.state ∧
    n.getSolutionPath.getLast? = some n.state.state ∧
    List.Chain' chainStep n.getPath ∧
    n.getSolutionPath.length = n.cost + 1

theorem WFNode_genuine {p₀ : Puzzle} {hf : Puzzle → Nat} {n : Node}
    (h : WFNode p₀ hf n) (hg : n.state.isGoal = true) : IsGenuinePath p₀ n := by
  obtain ⟨h1, h2, h3, h4, h5⟩ := WFNode_path h
  refine ⟨hg, ?_, ?_, h4, ?_⟩
  · unfold Node.getSolutionPath
    rw [List.head?_map, h2]
    rfl
  · unfold Node.getSolutionPath
    rw [List.getLast?_map, h3]
    rfl
  · unfold Node.getSolutionPath
    rw [List.length_map, h5]

/-- The open structures `AStarSearch.search` seeds before entering its loop. -/
def astarSeed (p : Puzzle) (hf : Puzzle → Nat) : AStarState :=
  { openList := [⟨(Node.new p 0 (hf p) none none).totalCost, 0,
      Node.new p 0 (hf p) none none⟩],
    openDict := [(p.state, Node.new p 0 (hf p) none none)],
    closedSet := [], nodesExpanded := 0, nodesGenerated := 1, counter := 1 }

/-- The open structures `BestFirstSearch.search` seeds before its loop. -/
def bestFirstSeed (p : Puzzle) (hf : Puzzle → Nat) : BestFirstState :=
  { openList := [⟨hf p, 0, Node.new p 0 (hf p) none none⟩],
    openSet := [p.state],
    closedSet := [], nodesExpanded := 0, nodesGenerated := 1, counter := 1 }

theorem astarSearch_eq_loop (maxSteps : Nat) (p : Puzzle) (hf : Puzzle → Nat)
    (hs : ¬p.isSolvable = false) (hg : ¬p.isGoal = true) :
    astarSearch maxSteps p hf =
      ((astarLoop maxSteps hf (5 * maxSteps + 2) (astarSeed p hf)).1,
        ⟨(astarLoop maxSteps hf (5 * maxSteps + 2)
            (astarSeed p hf)).2.nodesExpanded,
          (astarLoop maxSteps hf (5 * maxSteps + 2)
            (astarSeed p hf)).2.nodesGenerated⟩) := by
  unfold astarSearch
  rw [if_neg hs, if_neg hg]
  rfl

theorem bestFirstSearch_eq_loop (maxSteps : Nat) (p : Puzzle)
    (hf : Puzzle → Nat) (hs : ¬p.isSolvable = false) (hg : ¬p.isGoal = true) :
    bestFirstSearch maxSteps p hf =
      ((bestFirstLoop maxSteps hf (5 * maxSteps + 2) (bestFirstSeed p hf)).1,
        ⟨(bestFirstLoop maxSteps hf (5 * maxSteps + 2)
            (bestFirstSeed p hf)).2.nodesExpanded,
          (bestFirstLoop maxSteps hf (5 * maxSteps + 2)
            (bestFirstSeed p hf)).2.nodesGenerated⟩) := by
  unfold bestFirstSearch
  rw [if_neg hs, if_neg hg]
  rfl

/-- **C10**: any node returned by `AStarSearch.search` or
`BestFirstSearch.search` reconstructs a genuine solution: its
`get_solution_path()` starts at the initial state, ends at the returned
node's state, which passes the goal test, consecutive path entries differ by
one legal move, and the node's cost equals the number of moves, i.e. the
path length minus one. -/
theorem solution_path_genuine (maxSteps : Nat) (p : Puzzle)
    (hf : Puzzle → Nat) (n : Node) :
    ((astarSearch maxSteps p hf).1 = some n → IsGenuinePath p n) ∧
    ((bestFirstSearch maxSteps p hf).1 = some n → IsGenuinePath p n) := by
  constructor
  · intro h
    by_cases h1 : p.isSolvable = false
    · have hval : astarSearch maxSteps p hf = (none, ⟨0, 0⟩) := by
        unfold astarSearch
        rw [if_pos h1]
      rw [hval] at h
      simp at h
    · by_cases h2 : p.isGoal = true
      · have hval : astarSearch maxSteps p hf =
            (some (Node.new p 0 0 none none), ⟨0, 0⟩) := by
          unfold astarSearch
          rw [if_neg h1, if_pos h2]
        rw [hval] at h
        have hn : Node.new p 0 0 none none = n := by simpa using h
        subst hn
        refine ⟨h2, rfl, rfl, ?_, rfl⟩
        rw [getPath_new_none]
        simp
      · rw [astarSearch_eq_loop maxSteps p hf h1 h2] at h
        dsimp only at h
        rcases hE : astarLoop maxSteps hf (5 * maxSteps + 2) (astarSeed p hf)
          with ⟨r1, r2⟩
        rw [hE] at h
        dsimp only at h
        subst h
        have hinv : ∀ e ∈ (astarSeed p hf).openList, WFNode p hf e.node := by
          intro e he
          simp only [astarSeed, List.mem_singleton] at he
          subst he
          exact WFNode.root
        exact WFNode_genuine
          (astarLoop_WF maxSteps p hf (5 * maxSteps + 2) (astarSeed p hf)
            hinv n r2 hE)
          (astarLoop_some_goal maxSteps hf (5 * maxSteps + 2) (astarSeed p hf)
            n r2 hE)
  · intro h
    by_cases h1 : p.isSolvable = false
    · have hval : bestFirstSearch maxSteps p hf = (none, ⟨0, 0⟩) := by
        unfold bestFirstSearch
        rw [if_pos h1]
      rw [hval] at h
      simp at h
    · by_cases h2 : p.isGoal = true
      · have hval : bestFirstSearch maxSteps p hf =
            (some (Node.new p 0 0 none none), ⟨0, 0⟩) := by
          unfold bestFirstSearch
          rw [if_neg h1, if_pos h2]
        rw [hval] at h
        have hn : Node.new p 0 0 none none = n := by simpa using h
        subst hn
        refine ⟨h2, rfl, rfl, ?_, rfl⟩
        rw [getPath_new_none]
        simp
      · rw [bestFirstSearch_eq_loop maxSteps p hf h1 h2] at h
        dsimp only at h
        rcases hE : bestFirstLoop maxSteps hf (5 * maxSteps + 2)
            (bestFirstSeed p hf) with ⟨r1, r2⟩
        rw [hE] at h
        dsimp only at h
        subst h
        have hinv : ∀ e ∈ (bestFirstSeed p hf).openList,
            WFNode p hf e.node := by
          intro e he
          simp only [bestFirstSeed, List.mem_singleton] at he
          subst he
          exact WFNode.root
        exact WFNode_genuine
          (bestFirstLoop_WF maxSteps p hf (5 * maxSteps + 2)
            (bestFirstSeed p hf) hinv n r2 hE)
          (bestFirstLoop_some_goal maxSteps hf (5 * maxSteps + 2)
            (bestFirstSeed p hf) n r2 hE)

/-- A state one move away from the goal. -/
def oneMovePuzzle : Puzzle := ⟨[1, 2, 3, 4, 5, 6, 7, 0, 8], 3⟩

/-- Witness: on the one-move instance, A* returns the goal child of the root
node and its reconstructed path is genuine (and likewise for best-first via
the already-goal instance in the same theorem at the goal configuration). -/
theorem solution_path_genuine_witness :
    IsGenuinePath oneMovePuzzle
      (Node.new ⟨[1, 2, 3, 4, 5, 6, 7, 8, 0], 3⟩ 1 0
        (some (Node.new oneMovePuzzle 0 1 none none)) (some Move.right)) ∧
    IsGenuinePath goalPuzzle3 (Node.new goalPuzzle3 0 0 none none) := by
  constructor
  · exact (solution_path_genuine 10 oneMovePuzzle manhattanDistance
      (Node.new ⟨[1, 2, 3, 4, 5, 6, 7, 8, 0], 3⟩ 1 0
        (some (Node.new oneMovePuzzle 0 1 none none)) (some Move.right))).1
      (by rfl)
  · exact (solution_path_genuine 10 goalPuzzle3 manhattanDistance
      (Node.new goalPuzzle3 0 0 none none)).2 (by rfl)

/-! ### A* optimality: support lemmas -/

theorem dictLookup_insert_self (d : List (StateKey × Node)) (k : StateKey)
    (v : Node) : dictLookup (dictInsert d k v) k = some v := by
  induction d with
  | nil => simp [dictInsert, dictLookup]
  | cons kv rest ih =>
    obtain ⟨k', w⟩ := kv
    by_cases h : k' = k
    · simp [dictInsert, dictLookup, h]
    · simp only [dictInsert, if_neg h, dictLookup]
      exact ih

theorem dictLookup_insert_ne (d : List (StateKey × Node)) {k k' : StateKey}
    (v : Node) (h : k' ≠ k) :
    dictLookup (dictInsert d k v) k' = dictLookup d k' := by
  have hkk : k ≠ k' := Ne.symm h
  induction d with
  | nil =>
    simp only [dictInsert, dictLookup, if_neg hkk]
  | cons kv rest ih =>
    obtain ⟨k'', w⟩ := kv
    by_cases h2 : k'' = k
    · subst h2
      simp only [dictInsert, if_pos rfl, dictLookup]
      rw [if_neg hkk, if_neg hkk]
    · simp only [dictInsert, if_neg h2, dictLookup]
      by_cases h3 : k'' = k'
      · rw [if_pos h3, if_pos h3]
      · rw [if_neg h3, if_neg h3]
        exact ih

theorem dictErase_cons_self {k : StateKey} (w : Node)
    (rest : List (StateKey × Node)) :
    dictErase ((k, w) :: rest) k = rest := by
  simp [dictErase]

theorem dictErase_cons_ne {k k'' : StateKey} (w : Node)
    (rest : List (StateKey × Node)) (h : k'' ≠ k) :
    dictErase ((k'', w) :: rest) k = (k'', w) :: dictErase rest k := by
  simp [dictErase, h]

theorem dictLookup_erase_ne (d : List (StateKey × Node)) {k k' : StateKey}
    (h : k' ≠ k) : dictLookup (dictErase d k) k' = dictLookup d k' := by
  induction d with
  | nil => rfl
  | cons kv rest ih =>
    obtain ⟨k'', w⟩ := kv
    by_cases h2 : k'' = k
    · subst h2
      rw [dictErase_cons_self]
      simp only [dictLookup]
      rw [if_neg (Ne.symm h)]
    · rw [dictErase_cons_ne w rest h2]
      simp only [dictLookup]
      by_cases h3 : k'' = k'
      · rw [if_pos h3, if_pos h3]
      · rw [if_neg h3, if_neg h3]
        exact ih

theorem dictLookup_some_key_mem {d : List (StateKey × Node)} {k : StateKey}
    {nd : Node} (h : dictLookup d k = some nd) : k ∈ d.map Prod.fst := by
  induction d with
  | nil => cases h
  | cons kv rest ih =>
    obtain ⟨k'', w⟩ := kv
    simp only [dictLookup] at h
    by_cases h2 : k'' = k
    · simp [h2]
    · rw [if_neg h2] at h
      simp only [List.map_cons, List.mem_cons]
      exact Or.inr (ih h)

theorem dictLookup_erase_self {d : List (StateKey × Node)}
    (hnd : (d.map Prod.fst).Nodup) (k : StateKey) :
    dictLookup (dictErase d k) k = none := by
  induction d with
  | nil => rfl
  | cons kv rest ih =>
    obtain ⟨k'', w⟩ := kv
    simp only [List.map_cons, List.nodup_cons] at hnd
    by_cases h2 : k'' = k
    · subst h2
      rw [dictErase_cons_self]
      cases hl : dictLookup rest k'' with
      | none => rfl
      | some nd => exact absurd (dictLookup_some_key_mem hl) hnd.1
    · rw [dictErase_cons_ne w rest h2]
      simp only [dictLookup]
      rw [if_neg h2]
      exact ih hnd.2

theorem dictInsert_keys_mem {d : List (StateKey × Node)} {k k' : StateKey}
    {v : Node} (h : k' ∈ (dictInsert d k v).map Prod.fst) :
    k' ∈ d.map Prod.fst ∨ k' = k := by
  induction d with
  | nil => simpa [dictInsert] using h
  | cons kv rest ih =>
    obtain ⟨k'', w⟩ := kv
    by_cases h2 : k'' = k
    · simp only [dictInsert, if_pos h2, List.map_cons, List.mem_cons] at h ⊢
      rcases h with h | h
      · exact Or.inl (Or.inl h)
      · exact Or.inl (Or.inr h)
    · simp only [dictInsert, if_neg h2, List.map_cons, List.mem_cons] at h ⊢
      rcases h with h | h
      · exact Or.inl (Or.inl h)
      · rcases ih h with h' | h'
        · exact Or.inl (Or.inr h')
        · exact Or.inr h'

theorem dictInsert_nodupKeys {d : List (StateKey × Node)}
    (hnd : (d.map Prod.fst).Nodup) (k : StateKey) (v : Node) :
    ((dictInsert d k v).map Prod.fst).Nodup := by
  induction d with
  | nil => simp [dictInsert]
  | cons kv rest ih =>
    obtain ⟨k'', w⟩ := kv
    simp only [List.map_cons, List.nodup_cons] at hnd
    by_cases h2 : k'' = k
    · simp only [dictInsert, if_pos h2, List.map_cons, List.nodup_cons]
      exact ⟨hnd.1, hnd.2⟩
    · simp only [dictInsert, if_neg h2, List.map_cons, List.nodup_cons]
      refine ⟨?_, ih hnd.2⟩
      intro hm
      rcases dictInsert_keys_mem hm with h | h
      · exact hnd.1 h
      · exact h2 h

theorem dictErase_keys_mem {d : List (StateKey × Node)} {k k' : StateKey}
    (h : k' ∈ (dictErase d k).map Prod.fst) : k' ∈ d.map Prod.fst := by
  induction d with
  | nil => exact h
  | cons kv rest ih =>
    obtain ⟨k'', w⟩ := kv
    by_cases h2 : k'' = k
    · subst h2
      rw [dictErase_cons_self] at h
      exact List.mem_cons_of_mem _ h
    · rw [dictErase_cons_ne w rest h2] at h
      simp only [List.map_cons, List.mem_cons] at h ⊢
      rcases h with h | h
      · exact Or.inl h
      · exact Or.inr (ih h)

theorem dictErase_nodupKeys {d : List (StateKey × Node)}
    (hnd : (d.map Prod.fst).Nodup) (k : StateKey) :
    ((dictErase d k).map Prod.fst).Nodup := by
  induction d with
  | nil => exact hnd
  | cons kv rest ih =>
    obtain ⟨k'', w⟩ := kv
    simp only [List.map_cons, List.nodup_cons] at hnd
    by_cases h2 : k'' = k
    · subst h2
      rw [dictErase_cons_self]
      exact hnd.2
    · rw [dictErase_cons_ne w rest h2]
      simp only [List.map_cons, List.nodup_cons]
      exact ⟨fun hm => hnd.1 (dictErase_keys_mem hm), ih hnd.2⟩

theorem playMoves_append (p : Puzzle) (ms₁ ms₂ : List Move) :
    playMoves p (ms₁ ++ ms₂) =
      (playMoves p ms₁).bind (fun q => playMoves q ms₂) := by
  induction ms₁ generalizing p with
  | nil => rfl
  | cons m ms ih =>
    simp only [List.cons_append, playMoves]
    cases p.applyMove m with
    | error e => rfl
    | ok r => exact ih r

theorem playMoves_size {p q : Puzzle} {ms : List Move}
    (h : playMoves p ms = some q) : q.size = p.size := by
  induction ms generalizing p with
  | nil =>
    cases h
    rfl
  | cons m ms ih =>
    simp only [playMoves] at h
    cases ha : p.applyMove m with
    | error e => rw [ha] at h; cases h
    | ok r =>
      rw [ha] at h
      obtain ⟨hm, rfl⟩ := applyMove_ok_iff.mp ha
      exact (ih h).trans (moveRaw_size p m)

theorem puzzle_eq_of_state_size {p q : Puzzle} (hs : p.state = q.state)
    (hz : p.size = q.size) : p = q := by
  cases p
  cases q
  simp_all

theorem entryLt_false_le {e f : OpenEntry} (h : entryLt f e = false) :
    e.key ≤ f.key := by
  simp only [entryLt, decide_eq_false_iff_not] at h
  omega

theorem WFNode_heuristic {p₀ : Puzzle} {hf : Puzzle → Nat} {n : Node}
    (h : WFNode p₀ hf n) : n.heuristic = hf n.state := by
  cases h <;> rfl

theorem WFNode_totalCost {p₀ : Puzzle} {hf : Puzzle → Nat} {n : Node}
    (h : WFNode p₀ hf n) : n.totalCost = n.cost + hf n.state := by
  cases h <;> rfl

theorem WFNode_size {p₀ : Puzzle} {hf : Puzzle → Nat} {n : Node}
    (h : WFNode p₀ hf n) : n.state.size = p₀.size := by
  induction h with
  | root => rfl
  | child n m hn hm ih => exact ih

theorem WFNode_reach {p₀ : Puzzle} {hf : Puzzle → Nat} {n : Node}
    (h : WFNode p₀ hf n) :
    ∃ ms, playMoves p₀ ms = some n.state ∧ ms.length = n.cost := by
  induction h with
  | root => exact ⟨[], rfl, rfl⟩
  | child n m hn hm ih =>
    obtain ⟨ms, hplay, hlen⟩ := ih
    refine ⟨ms ++ [m], ?_, by simp [hlen]; rfl⟩
    have happ : n.state.applyMove m = .ok (n.state.moveRaw m) :=
      applyMove_ok_iff.mpr ⟨hm, rfl⟩
    rw [playMoves_append, hplay]
    simp [playMoves, happ]
    rfl

theorem WFNode_valid {p₀ : Puzzle} {hf : Puzzle → Nat} {n : Node}
    (hv : p₀.Valid) (h : WFNode p₀ hf n) : n.state.Valid := by
  obtain ⟨ms, hplay, _⟩ := WFNode_reach h
  exact valid_playMoves hv hplay

/-- The Manhattan heuristic is consistent: it drops by at most one across a
legal move. -/
theorem manhattan_consistent : Consistent manhattanDistance := by
  intro p m q hv ha
  obtain ⟨hm, rfl⟩ := applyMove_ok_iff.mp ha
  exact manhattan_moveRaw_le hv hm

/-- A consistent heuristic changes by at most the number of moves along any
replayed move list. -/
theorem consistent_chain {hf : Puzzle → Nat} (hcons : Consistent hf) :
    ∀ (ms : List Move) (p q : Puzzle), p.Valid → playMoves p ms = some q →
      hf p ≤ hf q + ms.length := by
  intro ms
  induction ms with
  | nil =>
    intro p q _ h
    cases h
    simp
  | cons m ms ih =>
    intro p q hv h
    simp only [playMoves] at h
    cases ha : p.applyMove m with
    | error e => rw [ha] at h; cases h
    | ok r =>
      rw [ha] at h
      have h1 := hcons p m r hv ha
      have h2 := ih r q (hv.applyMove ha) h
      simp only [List.length_cons]
      omega

/-- `k` is reachable from `p₀` in exactly `j` moves. -/
def ReachK (p₀ : Puzzle) (k : List Nat) (j : Nat) : Prop :=
  ∃ ms, playMoves p₀ ms = some ⟨k, p₀.size⟩ ∧ ms.length = j

/-- The state `k` has been "offered" at cost at most `b`: it is already
closed, or the open dict holds a node for it whose `g` is at most `b`. -/
def OfferLE (st : AStarState) (k : List Nat) (b : Nat) : Prop :=
  k ∈ st.closedSet ∨
    ∃ nd, dictLookup st.openDict k = some nd ∧ nd.cost ≤ b

/-- The A* loop invariant: open entries carry their node's `f` as priority
and are buildable; dict entries are keyed by their node's state and backed
by an open entry; dict and closed set are disjoint; dict keys are unique;
no closed state is the goal; the initial state is offered at cost 0; and
every closed state was expanded from a node of minimal cost, with all its
successors offered at that cost plus one. -/
structure AStarInv (p₀ : Puzzle) (hf : Puzzle → Nat) (st : AStarState) :
    Prop where
  entries : ∀ e ∈ st.openList, e.key = e.node.totalCost ∧ WFNode p₀ hf e.node
  dictBack : ∀ k nd, dictLookup st.openDict k = some nd →
    nd.state.state = k ∧ ∃ e ∈ st.openList, e.node = nd
  dictClosed : ∀ k nd, dictLookup st.openDict k = some nd → k ∉ st.closedSet
  nodupKeys : (st.openDict.map Prod.fst).Nodup
  closedNotGoal : ∀ k ∈ st.closedSet, Puzzle.isGoal ⟨k, p₀.size⟩ = false
  start : OfferLE st p₀.state 0
  closedExp : ∀ k ∈ st.closedSet, ∃ g,
    ReachK p₀ k g ∧ (∀ j, ReachK p₀ k j → g ≤ j) ∧
    ∀ m q', Puzzle.applyMove ⟨k, p₀.size⟩ m = .ok q' →
      OfferLE st q'.state (g + 1)

theorem astarProcessChild_keep (st : AStarState) (c : Node)
    (h : c.state.state ∈ st.closedSet ∨
      ∃ ex, dictLookup st.openDict c.state.state = some ex ∧
        ex.cost ≤ c.cost) :
    astarProcessChild st c =
      { st with nodesGenerated := st.nodesGenerated + 1 } := by
  unfold astarProcessChild
  dsimp only
  rcases h with h1 | ⟨ex, hd, h2⟩
  · rw [if_pos h1]
  · by_cases h1 : c.state.state ∈ st.closedSet
    · rw [if_pos h1]
    · rw [if_neg h1]
      simp only [hd]
      rw [if_pos h2]

theorem astarProcessChild_push (st : AStarState) (c : Node)
    (h1 : c.state.state ∉ st.closedSet)
    (h : dictLookup st.openDict c.state.state = none ∨
      ∃ ex, dictLookup st.openDict c.state.state = some ex ∧
        ¬ex.cost ≤ c.cost) :
    astarProcessChild st c =
      { st with
        nodesGenerated := st.nodesGenerated + 1,
        openDict := dictInsert st.openDict c.state.state c,
        openList := st.openList ++ [⟨c.totalCost, st.counter, c⟩],
        counter := st.counter + 1 } := by
  unfold astarProcessChild
  dsimp only
  rw [if_neg h1]
  rcases h with hd | ⟨ex, hd, h2⟩
  · simp only [hd]
  · simp only [hd]
    rw [if_neg h2]

theorem astarProcessChild_props (p₀ : Puzzle) (hf : Puzzle → Nat)
    (st : AStarState) (c : Node) (hW : WFNode p₀ hf c)
    (hE : ∀ e ∈ st.openList, e.key = e.node.totalCost ∧ WFNode p₀ hf e.node)
    (hB : ∀ k nd, dictLookup st.openDict k = some nd →
      nd.state.state = k ∧ ∃ e ∈ st.openList, e.node = nd)
    (hC : ∀ k nd, dictLookup st.openDict k = some nd → k ∉ st.closedSet)
    (hN : (st.openDict.map Prod.fst).Nodup) :
    (∀ e ∈ (astarProcessChild st c).openList,
      e.key = e.node.totalCost ∧ WFNode p₀ hf e.node) ∧
    (∀ k nd, dictLookup (astarProcessChild st c).openDict k = some nd →
      nd.state.state = k ∧
        ∃ e ∈ (astarProcessChild st c).openList, e.node = nd) ∧
    (∀ k nd, dictLookup (astarProcessChild st c).openDict k = some nd →
      k ∉ (astarProcessChild st c).closedSet) ∧
    ((astarProcessChild st c).openDict.map Prod.fst).Nodup ∧
    (∀ k b, OfferLE st k b → OfferLE (astarProcessChild st c) k b) ∧
    OfferLE (astarProcessChild st c) c.state.state c.cost := by
  by_cases h1 : c.state.state ∈ st.closedSet
  · rw [astarProcessChild_keep st c (Or.inl h1)]
    exact ⟨hE, hB, hC, hN, fun k b h => h, Or.inl h1⟩
  · cases hd : dictLookup st.openDict c.state.state with
    | some ex =>
      by_cases h2 : ex.cost ≤ c.cost
      · rw [astarProcessChild_keep st c (Or.inr ⟨ex, hd, h2⟩)]
        exact ⟨hE, hB, hC, hN, fun k b h => h, Or.inr ⟨ex, hd, h2⟩⟩
      · rw [astarProcessChild_push st c h1 (Or.inr ⟨ex, hd, h2⟩)]
        refine ⟨?_, ?_, ?_, dictInsert_nodupKeys hN _ _, ?_, ?_⟩
        · intro e he
          rcases List.mem_append.mp he with h | h
          · exact hE e h
          · simp only [List.mem_singleton] at h
            subst h
            exact ⟨rfl, hW⟩
        · intro k nd hk
          by_cases hkey : k = c.state.state
          · subst hkey
            rw [dictLookup_insert_self] at hk
            cases hk
            exact ⟨rfl, ⟨⟨c.totalCost, st.counter, c⟩,
              List.mem_append.mpr (Or.inr (List.mem_singleton.mpr rfl)), rfl⟩⟩
          · rw [dictLookup_insert_ne _ _ hkey] at hk
            obtain ⟨hs, e, hmem, hnode⟩ := hB k nd hk
            exact ⟨hs, e, List.mem_append.mpr (Or.inl hmem), hnode⟩
        · intro k nd hk
          by_cases hkey : k = c.state.state
          · subst hkey
            exact h1
          · rw [dictLookup_insert_ne _ _ hkey] at hk
            exact hC k nd hk
        · intro k b hOff
          rcases hOff with h | ⟨nd, hnd, hcost⟩
          · exact Or.inl h
          · by_cases hkey : k = c.state.state
            · subst hkey
              rw [hd] at hnd
              cases hnd
              refine Or.inr ⟨c, dictLookup_insert_self _ _ _, ?_⟩
              omega
            · exact Or.inr ⟨nd, by
                rw [dictLookup_insert_ne _ _ hkey]
                exact hnd, hcost⟩
        · exact Or.inr ⟨c, dictLookup_insert_self _ _ _, le_refl _⟩
    | none =>
      rw [astarProcessChild_push st c h1 (Or.inl hd)]
      refine ⟨?_, ?_, ?_, dictInsert_nodupKeys hN _ _, ?_, ?_⟩
      · intro e he
        rcases List.mem_append.mp he with h | h
        · exact hE e h
        · simp only [List.mem_singleton] at h
          subst h
          exact ⟨rfl, hW⟩
      · intro k nd hk
        by_cases hkey : k = c.state.state
        · subst hkey
          rw [dictLookup_insert_self] at hk
          cases hk
          exact ⟨rfl, ⟨⟨c.totalCost, st.counter, c⟩,
            List.mem_append.mpr (Or.inr (List.mem_singleton.mpr rfl)), rfl⟩⟩
        · rw [dictLookup_insert_ne _ _ hkey] at hk
          obtain ⟨hs, e, hmem, hnode⟩ := hB k nd hk
          exact ⟨hs, e, List.mem_append.mpr (Or.inl hmem), hnode⟩
      · intro k nd hk
        by_cases hkey : k = c.state.state
        · subst hkey
          exact h1
        · rw [dictLookup_insert_ne _ _ hkey] at hk
          exact hC k nd hk
      · intro k b hOff
        rcases hOff with h | ⟨nd, hnd, hcost⟩
        · exact Or.inl h
        · by_cases hkey : k = c.state.state
          · subst hkey
            rw [hd] at hnd
            cases hnd
          · exact Or.inr ⟨nd, by
              rw [dictLookup_insert_ne _ _ hkey]
              exact hnd, hcost⟩
      · exact Or.inr ⟨c, dictLookup_insert_self _ _ _, le_refl _⟩

theorem foldl_astarProcessChild_props (p₀ : Puzzle) (hf : Puzzle → Nat)
    (cs : List Node) (st : AStarState) (hWs : ∀ c ∈ cs, WFNode p₀ hf c)
    (hE : ∀ e ∈ st.openList, e.key = e.node.totalCost ∧ WFNode p₀ hf e.node)
    (hB : ∀ k nd, dictLookup st.openDict k = some nd →
      nd.state.state = k ∧ ∃ e ∈ st.openList, e.node = nd)
    (hC : ∀ k nd, dictLookup st.openDict k = some nd → k ∉ st.closedSet)
    (hN : (st.openDict.map Prod.fst).Nodup) :
    (∀ e ∈ (cs.foldl astarProcessChild st).openList,
      e.key = e.node.totalCost ∧ WFNode p₀ hf e.node) ∧
    (∀ k nd, dictLookup (cs.foldl astarProcessChild st).openDict k = some nd →
      nd.state.state = k ∧
        ∃ e ∈ (cs.foldl astarProcessChild st).openList, e.node = nd) ∧
    (∀ k nd, dictLookup (cs.foldl astarProcessChild st).openDict k = some nd →
      k ∉ (cs.foldl astarProcessChild st).closedSet) ∧
    ((cs.foldl astarProcessChild st).openDict.map Prod.fst).Nodup ∧
    (∀ k b, OfferLE st k b → OfferLE (cs.foldl astarProcessChild st) k b) ∧
    (∀ c ∈ cs, OfferLE (cs.foldl astarProcessChild st) c.state.state c.cost)
    := by
  induction cs generalizing st with
  | nil =>
    exact ⟨hE, hB, hC, hN, fun k b h => h, fun c hc => absurd hc
      (List.not_mem_nil c)⟩
  | cons c cs ih =>
    have hone := astarProcessChild_props p₀ hf st c
      (hWs c (List.mem_cons_self c cs)) hE hB hC hN
    have hrest := ih (astarProcessChild st c)
      (fun c' hc' => hWs c' (List.mem_cons_of_mem c hc'))
      hone.1 hone.2.1 hone.2.2.1 hone.2.2.2.1
    rw [List.foldl_cons]
    refine ⟨hrest.1, hrest.2.1, hrest.2.2.1, hrest.2.2.2.1, ?_, ?_⟩
    · intro k b h
      exact hrest.2.2.2.2.1 k b (hone.2.2.2.2.1 k b h)
    · intro c' hc'
      rcases List.mem_cons.mp hc' with rfl | hc''
      · exact hrest.2.2.2.2.1 c'.state.state c'.cost hone.2.2.2.2.2
      · exact hrest.2.2.2.2.2 c' hc''

/-- Core of the optimality argument: when the loop pops an entry whose state
is not closed, under the invariant and a consistent heuristic the popped
node's `g` is at most the length of any move list reaching that state. -/
theorem astar_pop_cost_min {p₀ : Puzzle} {hf : Puzzle → Nat}
    (hv : p₀.Valid) (hcons : Consistent hf) {st : AStarState}
    {emin : OpenEntry} {rest : List OpenEntry}
    (hinv : AStarInv p₀ hf st)
    (hpop : popMin st.openList = some (emin, rest))
    (hnc : emin.node.state.state ∉ st.closedSet) :
    ∀ ms q, playMoves p₀ ms = some q → q.state = emin.node.state.state →
      emin.node.cost ≤ ms.length := by
  intro ms q hplay hqs
  have hmemin : emin ∈ st.openList :=
    (popMin_perm hpop).mem_iff.mpr (List.mem_cons_self _ _)
  have heminWF := (hinv.entries emin hmemin).2
  have heminKey := (hinv.entries emin hmemin).1
  have hsize : emin.node.state.size = p₀.size := WFNode_size heminWF
  have hQ : ∀ t, t ≤ ms.length → ∀ qt, playMoves p₀ (ms.take t) = some qt →
      (∃ J ≤ t, ∃ nd qJ, playMoves p₀ (ms.take J) = some qJ ∧
        dictLookup st.openDict qJ.state = some nd ∧ nd.cost ≤ J) ∨
      qt.state ∈ st.closedSet := by
    intro t
    induction t with
    | zero =>
      intro _ qt hqt
      simp only [List.take_zero, playMoves] at hqt
      cases hqt
      rcases hinv.start with h | ⟨nd, hnd, hc⟩
      · exact Or.inr h
      · exact Or.inl ⟨0, Nat.le_refl 0, nd, p₀, rfl, hnd, hc⟩
    | succ t iht =>
      intro ht qt1 hqt1
      have htlt : t < ms.length := by omega
      have htake : ms.take (t + 1) = ms.take t ++ [ms.get ⟨t, htlt⟩] := by
        rw [← List.take_concat_get ms t htlt]
        simp [List.concat_eq_append]
      rw [htake, playMoves_append] at hqt1
      cases hqt : playMoves p₀ (ms.take t) with
      | none => rw [hqt] at hqt1; cases hqt1
      | some qt =>
        rw [hqt, Option.some_bind] at hqt1
        simp only [playMoves] at hqt1
        cases happ : qt.applyMove (ms.get ⟨t, htlt⟩) with
        | error e => rw [happ] at hqt1; cases hqt1
        | ok r =>
          rw [happ] at hqt1
          cases hqt1
          rcases iht (by omega) qt hqt with ⟨J, hJ, w⟩ | hclosed
          · exact Or.inl ⟨J, by omega, w⟩
          · obtain ⟨g, hgreach, hgmin, hoffer⟩ := hinv.closedExp qt.state hclosed
            have heta : (⟨qt.state, p₀.size⟩ : Puzzle) = qt :=
              puzzle_eq_of_state_size rfl (playMoves_size hqt).symm
            have hgle : g ≤ t := by
              apply hgmin t
              refine ⟨ms.take t, ?_, ?_⟩
              · rw [heta]
                exact hqt
              · rw [List.length_take]
                omega
            have happ2 : Puzzle.applyMove ⟨qt.state, p₀.size⟩
                (ms.get ⟨t, htlt⟩) = .ok qt1 := by
              rw [heta]
              exact happ
            rcases hoffer _ _ happ2 with h | ⟨nd, hnd, hc⟩
            · exact Or.inr h
            · refine Or.inl ⟨t + 1, Nat.le_refl _, nd, qt1, ?_, hnd, by omega⟩
              rw [htake, playMoves_append, hqt, Option.some_bind]
              simp only [playMoves, happ]
  have hfin := hQ ms.length (Nat.le_refl _) q (by rw [List.take_length]; exact hplay)
  rcases hfin with ⟨J, hJ, nd, qJ, hplayJ, hdictJ, hcostJ⟩ | hclosed
  · obtain ⟨hndstate, e', he'mem, he'node⟩ := hinv.dictBack _ _ hdictJ
    have he'props := hinv.entries e' he'mem
    have hndWF : WFNode p₀ hf nd := he'node ▸ he'props.2
    have hndqJ : nd.state = qJ :=
      puzzle_eq_of_state_size hndstate
        ((WFNode_size hndWF).trans (playMoves_size hplayJ).symm)
    have hlt := popMin_min hpop e' he'mem
    have hkeyle : emin.key ≤ e'.key := entryLt_false_le hlt
    have hdrop : playMoves qJ (ms.drop J) = some q := by
      have hsplit := playMoves_append p₀ (ms.take J) (ms.drop J)
      rw [List.take_append_drop, hplay, hplayJ, Option.some_bind] at hsplit
      exact hsplit.symm
    have hchain := consistent_chain hcons (ms.drop J) qJ q
      (valid_playMoves hv hplayJ) hdrop
    have hqemin : q = emin.node.state :=
      puzzle_eq_of_state_size hqs
        ((playMoves_size hplay).trans hsize.symm)
    have h1 : emin.key = emin.node.cost + hf emin.node.state := by
      rw [heminKey, WFNode_totalCost heminWF]
    have h2 : e'.key = nd.cost + hf qJ := by
      rw [he'props.1, he'node, WFNode_totalCost hndWF, hndqJ]
    have h4 : hf qJ ≤ hf emin.node.state + (ms.length - J) := by
      rw [List.length_drop] at hchain
      rw [← hqemin]
      exact hchain
    omega
  · rw [hqs] at hclosed
    exact absurd hclosed hnc

theorem astarInv_skip {p₀ : Puzzle} {hf : Puzzle → Nat} {st : AStarState}
    {emin : OpenEntry} {rest : List OpenEntry}
    (hinv : AStarInv p₀ hf st)
    (hpop : popMin st.openList = some (emin, rest))
    (hd : dictLookup st.openDict emin.node.state.state = none) :
    AStarInv p₀ hf { st with openList := rest } := by
  have hperm := popMin_perm hpop
  have hrest : ∀ e ∈ rest, e ∈ st.openList := fun e he =>
    hperm.mem_iff.mpr (List.mem_cons_of_mem _ he)
  refine ⟨fun e he => hinv.entries e (hrest e he), ?_, hinv.dictClosed,
    hinv.nodupKeys, hinv.closedNotGoal, hinv.start, hinv.closedExp⟩
  intro k nd hk
  obtain ⟨hs, e, hmem, hnode⟩ := hinv.dictBack k nd hk
  rcases List.mem_cons.mp (hperm.mem_iff.mp hmem) with rfl | hr
  · exfalso
    have hke : k = e.node.state.state := by rw [← hs, hnode]
    rw [hke, hd] at hk
    cases hk
  · exact ⟨hs, e, hr, hnode⟩

theorem astarInv_expand {p₀ : Puzzle} {hf : Puzzle → Nat} {st : AStarState}
    {emin : OpenEntry} {rest : List OpenEntry} {ex : Node}
    (hv : p₀.Valid) (hcons : Consistent hf)
    (hinv : AStarInv p₀ hf st)
    (hpop : popMin st.openList = some (emin, rest))
    (hd : dictLookup st.openDict emin.node.state.state = some ex)
    (hgoal : emin.node.state.isGoal = false) :
    AStarInv p₀ hf
      ((emin.node.expand hf).foldl astarProcessChild
        { st with
          openList := rest,
          openDict := dictErase st.openDict emin.node.state.state,
          closedSet := emin.node.state.state :: st.closedSet,
          nodesExpanded := st.nodesExpanded + 1 }) := by
  have hperm := popMin_perm hpop
  have hmemin : emin ∈ st.openList :=
    hperm.mem_iff.mpr (List.mem_cons_self _ _)
  have heminWF := (hinv.entries emin hmemin).2
  have hsize : emin.node.state.size = p₀.size := WFNode_size heminWF
  have heta : (⟨emin.node.state.state, p₀.size⟩ : Puzzle) = emin.node.state :=
    puzzle_eq_of_state_size rfl hsize.symm
  have hrest : ∀ e ∈ rest, e ∈ st.openList := fun e he =>
    hperm.mem_iff.mpr (List.mem_cons_of_mem _ he)
  have hnc : emin.node.state.state ∉ st.closedSet := hinv.dictClosed _ _ hd
  have hB1 : ∀ k nd,
      dictLookup (dictErase st.openDict emin.node.state.state) k = some nd →
      nd.state.state = k ∧ ∃ e ∈ rest, e.node = nd := by
    intro k nd hk
    by_cases hks : k = emin.node.state.state
    · subst hks
      rw [dictLookup_erase_self hinv.nodupKeys] at hk
      cases hk
    · rw [dictLookup_erase_ne _ hks] at hk
      obtain ⟨hs, e, hmem, hnode⟩ := hinv.dictBack k nd hk
      rcases List.mem_cons.mp (hperm.mem_iff.mp hmem) with rfl | hr
      · exfalso
        apply hks
        rw [← hs, hnode]
      · exact ⟨hs, e, hr, hnode⟩
  have hC1 : ∀ k nd,
      dictLookup (dictErase st.openDict emin.node.state.state) k = some nd →
      k ∉ emin.node.state.state :: st.closedSet := by
    intro k nd hk
    by_cases hks : k = emin.node.state.state
    · subst hks
      rw [dictLookup_erase_self hinv.nodupKeys] at hk
      cases hk
    · rw [dictLookup_erase_ne _ hks] at hk
      intro hmem
      rcases List.mem_cons.mp hmem with h | h
      · exact hks h
      · exact hinv.dictClosed k nd hk h
  have hfold := foldl_astarProcessChild_props p₀ hf (emin.node.expand hf)
    { st with
      openList := rest,
      openDict := dictErase st.openDict emin.node.state.state,
      closedSet := emin.node.state.state :: st.closedSet,
      nodesExpanded := st.nodesExpanded + 1 }
    (expand_WF heminWF)
    (fun e he => hinv.entries e (hrest e he)) hB1 hC1
    (dictErase_nodupKeys hinv.nodupKeys _)
  have hclo := (foldl_astarProcessChild_facts (emin.node.expand hf)
    { st with
      openList := rest,
      openDict := dictErase st.openDict emin.node.state.state,
      closedSet := emin.node.state.state :: st.closedSet,
      nodesExpanded := st.nodesExpanded + 1 }).2.2
  have hoff1 : ∀ k b, OfferLE st k b →
      OfferLE
        { st with
          openList := rest,
          openDict := dictErase st.openDict emin.node.state.state,
          closedSet := emin.node.state.state :: st.closedSet,
          nodesExpanded := st.nodesExpanded + 1 } k b := by
    intro k b hOff
    rcases hOff with h | ⟨nd, hnd, hc⟩
    · exact Or.inl (List.mem_cons_of_mem _ h)
    · by_cases hks : k = emin.node.state.state
      · subst hks
        exact Or.inl (List.mem_cons_self _ _)
      · exact Or.inr ⟨nd, by
          rw [dictLookup_erase_ne _ hks]
          exact hnd, hc⟩
  refine ⟨hfold.1, hfold.2.1, hfold.2.2.1, hfold.2.2.2.1, ?_, ?_, ?_⟩
  · intro k hkc
    rw [hclo] at hkc
    rcases List.mem_cons.mp hkc with rfl | h
    · rw [heta]
      exact hgoal
    · exact hinv.closedNotGoal k h
  · exact hfold.2.2.2.2.1 p₀.state 0 (hoff1 p₀.state 0 hinv.start)
  · intro k hkc
    rw [hclo] at hkc
    rcases List.mem_cons.mp hkc with rfl | h
    · refine ⟨emin.node.cost, ?_, ?_, ?_⟩
      · obtain ⟨ms, hplay, hlen⟩ := WFNode_reach heminWF
        exact ⟨ms, by rw [heta]; exact hplay, hlen⟩
      · intro j ⟨ms, hplay, hlen⟩
        rw [← hlen]
        exact astar_pop_cost_min hv hcons hinv hpop hnc ms _ hplay (by rfl)
      · intro m q' happ
        rw [heta] at happ
        obtain ⟨hm, rfl⟩ := applyMove_ok_iff.mp happ
        have hcm : Node.new (emin.node.state.moveRaw m) (emin.node.cost + 1)
            (hf (emin.node.state.moveRaw m)) (some emin.node) (some m) ∈
            emin.node.expand hf := by
          simp only [Node.expand, List.mem_map]
          exact ⟨m, hm, rfl⟩
        exact hfold.2.2.2.2.2 _ hcm
    · obtain ⟨g, hgr, hgm, hoffer⟩ := hinv.closedExp k h
      refine ⟨g, hgr, hgm, ?_⟩
      intro m q' happ
      exact hfold.2.2.2.2.1 q'.state (g + 1)
        (hoff1 q'.state (g + 1) (hoffer m q' happ))

/-- When the loop pops a goal entry, its cost is at most the length of any
solution of `p₀`. -/
theorem astar_goal_cost_le {p₀ : Puzzle} {hf : Puzzle → Nat}
    (hv : p₀.Valid) (hcons : Consistent hf) {st : AStarState}
    {emin : OpenEntry} {rest : List OpenEntry}
    (hinv : AStarInv p₀ hf st)
    (hpop : popMin st.openList = some (emin, rest))
    (hgoal : emin.node.state.isGoal = true) :
    ∀ ms, solves p₀ ms = true → emin.node.cost ≤ ms.length := by
  intro ms hms
  unfold solves at hms
  cases hq : playMoves p₀ ms with
  | none => rw [hq] at hms; cases hms
  | some q =>
    rw [hq] at hms
    have hqsize : q.size = p₀.size := playMoves_size hq
    have hesize : emin.node.state.size = p₀.size :=
      WFNode_size (hinv.entries emin
        ((popMin_perm hpop).mem_iff.mpr (List.mem_cons_self _ _))).2
    have hqstate : q.state = goalState p₀.size := by
      simp only [Puzzle.isGoal, beq_iff_eq] at hms
      rw [hms, hqsize]
    have hestate : emin.node.state.state = goalState p₀.size := by
      have hg := hgoal
      simp only [Puzzle.isGoal, beq_iff_eq] at hg
      rw [hg, hesize]
    have hnc : emin.node.state.state ∉ st.closedSet := by
      intro hmem
      have hng := hinv.closedNotGoal _ hmem
      have heta : ({ state := emin.node.state.state, size := p₀.size } :
          Puzzle) = emin.node.state :=
        puzzle_eq_of_state_size rfl hesize.symm
      rw [heta, hgoal] at hng
      cases hng
    exact astar_pop_cost_min hv hcons hinv hpop hnc ms q hq
      (hqstate.trans hestate.symm)

theorem astarLoop_cost_le {p₀ : Puzzle} {hf : Puzzle → Nat} {maxSteps : Nat}
    (hv : p₀.Valid) (hcons : Consistent hf) :
    ∀ fuel st, AStarInv p₀ hf st →
      ∀ n st', astarLoop maxSteps hf fuel st = (some n, st') →
        ∀ ms, solves p₀ ms = true → n.cost ≤ ms.length := by
  intro fuel
  induction fuel with
  | zero =>
    intro st hinv n st' h
    simp only [astarLoop, Prod.mk.injEq] at h
    cases h.1
  | succ fuel ih =>
    intro st hinv n st' h
    rw [astarLoop] at h
    by_cases hc : st.openList.isEmpty = false ∧ st.nodesExpanded < maxSteps
    · rw [if_pos hc] at h
      cases heq : popMin st.openList with
      | none =>
        rw [heq] at h
        simp only [Prod.mk.injEq] at h
        cases h.1
      | some pr =>
        obtain ⟨entry, rest⟩ := pr
        simp only [heq] at h
        by_cases hg : entry.node.state.isGoal = true
        · rw [if_pos hg] at h
          simp only [Prod.mk.injEq, Option.some.injEq] at h
          intro ms hms
          rw [← h.1]
          exact astar_goal_cost_le hv hcons hinv heq hg ms hms
        · rw [if_neg hg] at h
          have hgf : entry.node.state.isGoal = false := by
            cases hb : entry.node.state.isGoal
            · rfl
            · exact absurd hb hg
          cases hd : dictLookup st.openDict entry.node.state.state with
          | none =>
            simp only [hd] at h
            exact ih _ (astarInv_skip hinv heq hd) _ _ h
          | some existing =>
            simp only [hd] at h
            by_cases he' :
                (existing.state.state == entry.node.state.state) = true
            · rw [if_pos he'] at h
              exact ih _ (astarInv_expand hv hcons hinv heq hd hgf) _ _ h
            · exfalso
              apply he'
              rw [beq_iff_eq]
              exact (hinv.dictBack _ _ hd).1
    · rw [if_neg hc] at h
      simp only [Prod.mk.injEq] at h
      cases h.1

theorem astarSeed_inv (p : Puzzle) (hf : Puzzle → Nat) :
    AStarInv p hf (astarSeed p hf) := by
  refine ⟨?_, ?_, ?_, ?_, ?_, ?_, ?_⟩
  · intro e he
    simp only [astarSeed, List.mem_singleton] at he
    subst he
    exact ⟨rfl, WFNode.root⟩
  · intro k nd hk
    simp only [astarSeed, dictLookup] at hk
    by_cases hks : p.state = k
    · rw [if_pos hks] at hk
      cases hk
      refine ⟨hks, ⟨(Node.new p 0 (hf p) none none).totalCost, 0,
        Node.new p 0 (hf p) none none⟩, ?_, rfl⟩
      simp [astarSeed]
    · rw [if_neg hks] at hk
      cases hk
  · intro k nd hk
    exact List.not_mem_nil k
  · simp [astarSeed]
  · intro k hk
    exact absurd hk (List.not_mem_nil k)
  · exact Or.inr ⟨Node.new p 0 (hf p) none none, by
      simp [astarSeed, dictLookup], Nat.le_refl 0⟩
  · intro k hk
    exact absurd hk (List.not_mem_nil k)

theorem countP_enumFrom_eq (P : Nat → Nat → Bool) (l : List Nat) (n : Nat) :
    (l.enumFrom n).countP (fun it => P it.1 it.2) =
      ∑ i in Finset.range l.length,
        if P (n + i) (l.getD i 0) then 1 else 0 := by
  induction l generalizing n with
  | nil => simp
  | cons x xs ih =>
    rw [List.enumFrom_cons, List.countP_cons, ih,
      List.length_cons, Finset.sum_range_succ']
    have hc : ∀ i ∈ Finset.range xs.length,
        (if P (n + (i + 1)) ((x :: xs).getD (i + 1) 0) then 1 else 0) =
          (if P (n + 1 + i) (xs.getD i 0) then 1 else 0) := by
      intro i _
      rw [List.getD_cons_succ]
      have : n + (i + 1) = n + 1 + i := by omega
      rw [this]
    rw [Finset.sum_congr rfl hc]
    simp [Nat.add_comm]

/-- Per-index contribution of `misplaced_tiles`. -/
def mpTerm (size i t : Nat) : Nat :=
  if t ≠ 0 ∧ t ≠ (goalState size).getD i 0 then 1 else 0

theorem misplaced_eq_sum_range (p : Puzzle) :
    misplacedTiles p =
      ∑ i in Finset.range p.state.length,
        mpTerm p.size i (p.state.getD i 0) := by
  unfold misplacedTiles
  have h := countP_enumFrom_eq
    (fun i t => decide (t ≠ 0 ∧ t ≠ (goalState p.size).getD i 0)) p.state 0
  simp only [Nat.zero_add] at h
  rw [show p.state.enum = p.state.enumFrom 0 from rfl, h]
  apply Finset.sum_congr rfl
  intro i _
  simp [mpTerm]

theorem mpTerm_le_one (size i t : Nat) : mpTerm size i t ≤ 1 := by
  unfold mpTerm
  split <;> omega

theorem mpTerm_blank (size i : Nat) : mpTerm size i 0 = 0 := by
  simp [mpTerm]

/-- Across one legal move the misplaced-tiles count drops by at most one:
only the moved tile's placement status can change. -/
theorem misplaced_moveRaw_le {p : Puzzle} (hv : p.Valid) {m : Move}
    (hm : m ∈ p.getLegalMoves) :
    misplacedTiles p ≤ misplacedTiles (p.moveRaw m) + 1 := by
  obtain ⟨hlt, hne, hspec⟩ := swapTarget_spec hv hm
  have hb := hv.blankPos_lt
  have h0 := getD_blankPos hv
  have hlen : (p.moveRaw m).state.length = p.state.length := moveRaw_length p m
  have hsz : (p.moveRaw m).size = p.size := rfl
  have hqb : (p.moveRaw m).state.getD p.blankPos 0 =
      p.state.getD (p.swapTarget m) 0 := by
    apply getD_of_get?
    exact swapEntries_get_fst hb (Ne.symm hne)
  have hqa : (p.moveRaw m).state.getD (p.swapTarget m) 0 = 0 := by
    have h1 : (swapEntries p.state p.blankPos (p.swapTarget m)).get?
        (p.swapTarget m) = some (p.state.getD p.blankPos 0) :=
      swapEntries_get_snd hlt
    rw [h0] at h1
    exact getD_of_get? h1
  rw [misplaced_eq_sum_range, misplaced_eq_sum_range, hlen, hsz]
  have hbmem : p.blankPos ∈ Finset.range p.state.length :=
    Finset.mem_range.mpr hb
  have hamem : p.swapTarget m ∈
      (Finset.range p.state.length).erase p.blankPos :=
    Finset.mem_erase.mpr ⟨hne, Finset.mem_range.mpr hlt⟩
  have hsplit : ∀ g : Nat → Nat, (∑ i in Finset.range p.state.length, g i) =
      g p.blankPos + (g (p.swapTarget m) +
        ∑ i in ((Finset.range p.state.length).erase p.blankPos).erase
          (p.swapTarget m), g i) := by
    intro g
    rw [Finset.add_sum_erase _ g hamem, Finset.add_sum_erase _ g hbmem]
  rw [hsplit (fun i => mpTerm p.size i (p.state.getD i 0)),
    hsplit (fun i => mpTerm p.size i ((p.moveRaw m).state.getD i 0))]
  have hoff : ∀ i ∈ ((Finset.range p.state.length).erase p.blankPos).erase
      (p.swapTarget m),
      mpTerm p.size i ((p.moveRaw m).state.getD i 0) =
        mpTerm p.size i (p.state.getD i 0) := by
    intro i hi
    have h1 := Finset.mem_erase.mp hi
    have h2 := Finset.mem_erase.mp h1.2
    congr 1
    exact getD_congr_of_get? (swapEntries_get_other h2.1 h1.1)
  rw [Finset.sum_congr rfl hoff, hqb, hqa, h0, mpTerm_blank, mpTerm_blank]
  have hk := mpTerm_le_one p.size (p.swapTarget m)
    (p.state.getD (p.swapTarget m) 0)
  omega

/-- The misplaced-tiles heuristic is admissible: it is dominated by the
Manhattan distance, which is. -/
theorem misplaced_admissible : Admissible misplacedTiles := by
  intro p ms hv hsol
  exact le_trans (misplaced_le_manhattan hv) (manhattan_admissible p ms hv hsol)

/-- The misplaced-tiles heuristic is consistent. -/
theorem misplaced_consistent : Consistent misplacedTiles := by
  intro p m q hv ha
  obtain ⟨hm, rfl⟩ := applyMove_ok_iff.mp ha
  exact misplaced_moveRaw_le hv hm

/-- **C1**: with a valid initial state and an admissible, consistent
heuristic, any node returned by `AStarSearch.search` has cost equal to the
true optimal cost of the initial state; the misplaced-tiles and Manhattan
heuristics are both admissible and consistent, so the guarantee covers
them; and in particular, on the medium instance `"1 2 3 4 0 8 7 6 5"` A*
with the Manhattan heuristic returns a solution of length exactly 6, which
is optimal. -/
theorem astar_admissible_consistent_optimal :
    (∀ maxSteps p hf n, p.Valid → Admissible hf → Consistent hf →
      (astarSearch maxSteps p hf).1 = some n → IsOptimalCost p n.cost) ∧
    (Admissible misplacedTiles ∧ Consistent misplacedTiles ∧
      Admissible manhattanDistance ∧ Consistent manhattanDistance) ∧
    ((astarSearch 10000 mediumPuzzle manhattanDistance).1.map Node.cost =
        some 6 ∧ IsOptimalCost mediumPuzzle 6) := by
  refine ⟨?_, ⟨misplaced_admissible, misplaced_consistent,
    manhattan_admissible, manhattan_consistent⟩, ?_⟩
  · intro maxSteps p hf n hv hadm hcons h
    by_cases h1 : p.isSolvable = false
    · have hval : astarSearch maxSteps p hf = (none, ⟨0, 0⟩) := by
        unfold astarSearch
        rw [if_pos h1]
      rw [hval] at h
      simp at h
    · by_cases h2 : p.isGoal = true
      · have hval : astarSearch maxSteps p hf =
            (some (Node.new p 0 0 none none), ⟨0, 0⟩) := by
          unfold astarSearch
          rw [if_neg h1, if_pos h2]
        rw [hval] at h
        have hn : Node.new p 0 0 none none = n := by simpa using h
        subst hn
        refine ⟨⟨[], ?_, rfl⟩, fun ms _ => Nat.zero_le _⟩
        unfold solves
        simp only [playMoves]
        exact h2
      · rw [astarSearch_eq_loop maxSteps p hf h1 h2] at h
        dsimp only at h
        rcases hE : astarLoop maxSteps hf (5 * maxSteps + 2) (astarSeed p hf)
          with ⟨r1, r2⟩
        rw [hE] at h
        dsimp only at h
        subst h
        have hwf := astarLoop_WF maxSteps p hf (5 * maxSteps + 2)
          (astarSeed p hf) (fun e he => ((astarSeed_inv p hf).entries e he).2)
          n r2 hE
        have hgoal := astarLoop_some_goal maxSteps hf (5 * maxSteps + 2)
          (astarSeed p hf) n r2 hE
        constructor
        · obtain ⟨ms, hplay, hlen⟩ := WFNode_reach hwf
          refine ⟨ms, ?_, hlen⟩
          unfold solves
          rw [hplay]
          exact hgoal
        · exact astarLoop_cost_le hv hcons (5 * maxSteps + 2) (astarSeed p hf)
            (astarSeed_inv p hf) n r2 hE
  · constructor
    · rfl
    · refine ⟨⟨mediumSolution, by rfl, rfl⟩, ?_⟩
      intro ms hms
      have hle := manhattan_admissible mediumPuzzle ms (by decide) hms
      have h6 : manhattanDistance mediumPuzzle = 6 := by rfl
      omega

/-- Witness: on the one-move instance A* with Manhattan returns the goal
child of the root and the theorem yields that its cost 1 is optimal; the
misplaced-tiles conjuncts are exercised on the medium solution and on the
same one-move step. -/
theorem astar_admissible_consistent_optimal_witness :
    (oneMovePuzzle.Valid ∧ IsOptimalCost oneMovePuzzle 1) ∧
    misplacedTiles mediumPuzzle ≤ mediumSolution.length ∧
    misplacedTiles oneMovePuzzle ≤
      misplacedTiles ⟨[1, 2, 3, 4, 5, 6, 7, 8, 0], 3⟩ + 1 := by
  refine ⟨⟨by decide, ?_⟩, ?_, ?_⟩
  · exact astar_admissible_consistent_optimal.1 10 oneMovePuzzle
      manhattanDistance
      (Node.new ⟨[1, 2, 3, 4, 5, 6, 7, 8, 0], 3⟩ 1 0
        (some (Node.new oneMovePuzzle 0 1 none none)) (some Move.right))
      (by decide) manhattan_admissible manhattan_consistent (by rfl)
  · exact astar_admissible_consistent_optimal.2.1.1 mediumPuzzle
      mediumSolution (by decide) (by rfl)
  · exact astar_admissible_consistent_optimal.2.1.2.1 oneMovePuzzle
      Move.right ⟨[1, 2, 3, 4, 5, 6, 7, 8, 0], 3⟩ (by decide) (by rfl)

/-- **C1**, counterexample to the parenthetical "(any of the three provided
ones)": `linear_conflict` is not admissible — on the valid, 13-move-solvable
4×4 state `lcPuzzle` it reports 15 — so the optimality guarantee's
hypotheses do not cover all three provided heuristics. -/
theorem linearConflict_not_admissible : ¬Admissible linearConflict := by
  intro h
  have hle := h lcPuzzle lcSolution (by decide) (by rfl)
  have h15 : linearConflict lcPuzzle = 15 := by rfl
  have h13 : lcSolution.length = 13 := rfl
  omega

end PuzzleSolver
